import Mathlib

/-!
A shallow embedding of `pack` and `unpack` of struct.c (struct 1.2-3).

The development embeds `src/struct-1.2-3/struct.c` function by function.

Conventions of the embedding.

* C data model: LP64 (`char` 1, `short` 2, `int` 4, `long` 8, `size_t` 8 bytes,
  `float` 4, `double` 8, `struct cD` padded to 16 bytes).  `size_t` and
  `unsigned long` arithmetic is `Nat` arithmetic reduced modulo `2 ^ 64`.
* A Lua string is a list of bytes (`List Nat`, each below 256); the format
  string is a `List Char` and, as a C string, ends at its first NUL.
* `lua_Number` is a `double` (IEEE 754 binary64).  A Lua number is held as the
  integer it denotes (`Int`); every conversion to `lua_Number` made by the code or
  by the Lua API (`luaL_checknumber`, `lua_tonumber`, `(lua_Number)l`) rounds to the
  nearest double, ties to even (`to_double`).  Numbers that are no integers are
  outside the embedding.  The IEEE encodings used by `f` and `d`, and the Lua
  string/number coercions, belong to the host and are fields of `Host`.
* The Lua stack of `b_unpack` is a `List LuaValue`, bottom first.
* Errors raised through `luaL_error` / `luaL_argerror` are values of `Err`;
  behaviour that C leaves undefined is reported as `Err.undefined`, a read
  outside the data string as `Err.outOfBounds`.
-/

namespace Struct

/-! ## Platform constants -/

def sizeof_char : Nat := 1
def sizeof_short : Nat := 2
def sizeof_int : Nat := 4
def sizeof_long : Nat := 8
def sizeof_float : Nat := 4
def sizeof_double : Nat := 8

/-- The `sizeof(struct cD)` of the dummy structure holding a `char` and a `double`. -/
def sizeof_cD : Nat := 16

/-- The macro `PADDING`: `sizeof(struct cD) - sizeof(double)`. -/
def PADDING : Nat := sizeof_cD - sizeof_double

/-- The macro `MAXALIGN`. -/
def MAXALIGN : Nat := if PADDING > sizeof_int then PADDING else sizeof_int

/-- Modulus of `size_t` and `unsigned long`. -/
def SIZE_MOD : Nat := 2 ^ 64

/-- The constant `LONG_MAX`. -/
def LONG_MAX : Nat := 2 ^ 63 - 1

/-- Largest length of a Lua string (`MAX_SIZE` of the Lua 5.4 host). -/
def MAX_SIZE : Nat := 2 ^ 63 - 1

def BIG : Nat := 0
def LITTLE : Nat := 1

/-! ## Host values and errors -/

inductive LuaValue where
  | nil : LuaValue
  | number (n : Int) : LuaValue
  | str (s : List Nat) : LuaValue
  deriving DecidableEq

inductive Err where
  /-- The `luaL_argerror` of `optsize`: "invalid format option". -/
  | invalidFormat : Err
  /-- The `luaL_error` "integral size / alignment %d is not a power of 2". -/
  | notPowerOf2 : Err
  /-- A failed `luaL_checknumber` / `luaL_checklstring`: missing or ill-typed value. -/
  | badArgument : Err
  /-- The `luaL_argcheck` "string too short" of `b_pack`. -/
  | stringTooShort : Err
  /-- The `luaL_argcheck` "data string too short" of `b_unpack`. -/
  | dataTooShort : Err
  /-- The `luaL_error` "format c0 needs a previous size". -/
  | needsPreviousSize : Err
  /-- The `luaL_error` "unfinished string in data". -/
  | unfinishedString : Err
  /-- A read of bytes that do not all lie inside the data string. -/
  | outOfBounds : Err
  /-- Behaviour undefined in C (out-of-range conversion, oversized shift, failed `assert`). -/
  | undefined : Err
  /-- The scan ran out of fuel; `b_pack` and `b_unpack` never report it. -/
  | fuel : Err
  deriving DecidableEq

/-- What the code takes from its host: the native byte order (the union `native`),
the string/number coercions of the Lua API and the IEEE-754 encodings. -/
structure Host where
  /-- `native.endian`: true on a little-endian machine. -/
  little : Bool
  /-- Lua coercion of a string to a number (`lua_isnumber`, `lua_tonumber`). -/
  str2number : List Nat → Option Int
  /-- Lua coercion of a number to a string (`lua_tolstring`). -/
  number2str : Int → List Nat
  /-- Bit pattern of `(float)n`. -/
  float_bits : Int → Nat
  /-- Bit pattern of `(double)n`. -/
  double_bits : Int → Nat
  /-- Number denoted by a 32-bit pattern. -/
  float_val : Nat → Int
  /-- Number denoted by a 64-bit pattern. -/
  double_val : Nat → Int

/-- The value `native.endian`. -/
def native_endian (H : Host) : Nat := if H.little then LITTLE else BIG

deriving instance DecidableEq for Except

structure Header where
  endian : Nat
  align : Nat
  deriving DecidableEq

/-- The macro `defaultoptions`. -/
def defaultoptions (H : Host) : Header := { endian := native_endian H, align := 1 }

/-! ## Machine integer conversions -/

/-- Conversion of a `size_t` to `int`. -/
def toInt32 (a : Nat) : Int :=
  if a % 2 ^ 32 < 2 ^ 31 then ((a % 2 ^ 32 : Nat) : Int) else ((a % 2 ^ 32 : Nat) : Int) - 2 ^ 32

/-- Conversion of an `unsigned long` / `size_t` to `long` / `lua_Integer`. -/
def toInt64 (a : Nat) : Int :=
  if a % 2 ^ 64 < 2 ^ 63 then ((a % 2 ^ 64 : Nat) : Int) else ((a % 2 ^ 64 : Nat) : Int) - 2 ^ 64

/-- The macro `isp2` on an `int`. -/
def isp2 (x : Int) : Bool := decide (x > 0) && (x.toNat &&& (x.toNat - 1)) == 0

/-- The terminating NUL of a C string. -/
def NUL : Char := Char.ofNat 0

/-! ## The directive parser -/

/-- One round of the `do ... while` of `getnum`: `c` is the digit under the cursor. -/
def getnum_loop (a : Nat) (c : Char) : List Char → Nat × List Char
  | [] => ((a * 10 + c.toNat - 48) % SIZE_MOD, [])
  | d :: ds =>
    if d.isDigit then getnum_loop ((a * 10 + c.toNat - 48) % SIZE_MOD) d ds
    else ((a * 10 + c.toNat - 48) % SIZE_MOD, d :: ds)

/-- The function `getnum`: the number read and the rest of the format. -/
def getnum (fmt : List Char) (df : Nat) : Nat × List Char :=
  match fmt with
  | [] => (df, [])
  | c :: cs => if !c.isDigit then (df, c :: cs) else getnum_loop 0 c cs

/-- The function `optsize`: the size of the option and the rest of the format. -/
def optsize (opt : Char) (fmt : List Char) : Except Err (Nat × List Char) :=
  if opt = 'B' ∨ opt = 'b' then .ok (sizeof_char, fmt)
  else if opt = 'H' ∨ opt = 'h' then .ok (sizeof_short, fmt)
  else if opt = 'L' ∨ opt = 'l' then .ok (sizeof_long, fmt)
  else if opt = 'f' then .ok (sizeof_float, fmt)
  else if opt = 'd' then .ok (sizeof_double, fmt)
  else if opt = 'x' then .ok (1, fmt)
  else if opt = 'c' then .ok (getnum fmt 1)
  else if opt = 's' ∨ opt = ' ' ∨ opt = '<' ∨ opt = '>' ∨ opt = '!' then .ok (0, fmt)
  else if opt = 'i' ∨ opt = 'I' then
    let sz := toInt32 (getnum fmt sizeof_int).1
    if !isp2 sz then .error .notPowerOf2 else .ok (sz.toNat, (getnum fmt sizeof_int).2)
  else .error .invalidFormat

/-! ## The alignment engine -/

/-- The function `gettoalign`. -/
def gettoalign (len : Nat) (h : Header) (opt : Char) (size : Nat) : Nat :=
  if size = 0 ∨ opt = 'c' then 0
  else
    let size := if size > h.align then h.align else size
    (size - (len &&& (size - 1))) &&& (size - 1)

/-- The function `commoncases`: the new header and the rest of the format. -/
def commoncases (opt : Char) (fmt : List Char) (h : Header) : Except Err (Header × List Char) :=
  if opt = ' ' then .ok (h, fmt)
  else if opt = '>' then .ok ({ h with endian := BIG }, fmt)
  else if opt = '<' then .ok ({ h with endian := LITTLE }, fmt)
  else if opt = '!' then
    let a := toInt32 (getnum fmt MAXALIGN).1
    if !isp2 a then .error .notPowerOf2 else .ok ({ h with align := a.toNat }, (getnum fmt MAXALIGN).2)
  else .error .undefined

/-! ## The type `lua_Number` -/

/-- The number of low bits of `m` that do not fit the 53-bit significand of a `double`:
the least `k` with `m / 2 ^ k < 2 ^ 53` (`fuel` bounds the search; `m` itself is enough). -/
def double_excess : Nat → Nat → Nat
  | 0, _ => 0
  | fuel + 1, m => if m < 2 ^ 53 then 0 else double_excess fuel (m / 2) + 1

/-- Conversion of a natural number to `double`, as the natural number the double denotes:
the `k` excess bits are rounded away to the nearest multiple of `2 ^ k`, a tie going to
the even significand. Numbers of `2 ^ 1024` and more, which overflow a `double`, do not
occur. -/
def round_double (m : Nat) : Nat :=
  if 2 * (m % 2 ^ double_excess m m) > 2 ^ double_excess m m ∨
      (2 * (m % 2 ^ double_excess m m) = 2 ^ double_excess m m ∧
        m / 2 ^ double_excess m m % 2 = 1) then
    (m / 2 ^ double_excess m m + 1) * 2 ^ double_excess m m
  else m / 2 ^ double_excess m m * 2 ^ double_excess m m

/-- Conversion of an integer to `lua_Number` (`double`), as the integer the double
denotes. -/
def to_double : Int → Int
  | .ofNat m => ((round_double m : Nat) : Int)
  | .negSucc m => -((round_double (m + 1) : Nat) : Int)

/-! ## The endianness transcoder -/

/-- The Lua API function `luaL_checknumber` on the next argument: a `lua_Number`. -/
def luaL_checknumber (H : Host) : List LuaValue → Except Err (Int × List LuaValue)
  | .number n :: rest => .ok (to_double n, rest)
  | .str s :: rest =>
    match H.str2number s with
    | some n => .ok (to_double n, rest)
    | none => .error .badArgument
  | _ => .error .badArgument

/-- The Lua API function `luaL_checklstring` on the next argument. -/
def luaL_checklstring (H : Host) : List LuaValue → Except Err (List Nat × List LuaValue)
  | .str s :: rest => .ok (s, rest)
  | .number n :: rest => .ok (H.number2str n, rest)
  | _ => .error .badArgument

/-- The conversion `(long)n` stored in an `unsigned long` (two's complement);
undefined when `n` is outside the range of `long`. -/
def long_of_number : Int → Except Err Nat
  | .ofNat k => if k < 2 ^ 63 then .ok k else .error .undefined
  | .negSucc k => if k < 2 ^ 63 then .ok (2 ^ 64 - (k + 1)) else .error .undefined

/-- The conversion `(unsigned long)n`, also used for `size_t`; undefined when `n` is
outside the range of `unsigned long`. -/
def ulong_of_number : Int → Except Err Nat
  | .ofNat k => if k < 2 ^ 64 then .ok k else .error .undefined
  | .negSucc _ => .error .undefined

/-- The test `n < (lua_Number)LONG_MAX` of `putinteger`. -/
def lt_LONG_MAX : Int → Bool
  | .ofNat k => decide (k < round_double LONG_MAX)
  | .negSucc _ => true

/-- The bytes `putinteger` adds for `value`; shifting by 64 bits or more is undefined. -/
def putinteger_bytes (value endian size : Nat) : Except Err (List Nat) :=
  if size > sizeof_long then .error .undefined
  else if endian = LITTLE then
    .ok ((List.range size).map fun i => (value >>> (8 * i)) &&& 0xff)
  else
    .ok ((List.range size).reverse.map fun i => (value >>> (8 * i)) &&& 0xff)

/-- The function `putinteger`: the bytes added to the buffer and the remaining arguments. -/
def putinteger (H : Host) (args : List LuaValue) (endian size : Nat) :
    Except Err (List Nat × List LuaValue) :=
  match luaL_checknumber H args with
  | .error e => .error e
  | .ok (n, rest) =>
    match (if lt_LONG_MAX n then long_of_number n else ulong_of_number n) with
    | .error e => .error e
    | .ok value =>
      match putinteger_bytes value endian size with
      | .error e => .error e
      | .ok bytes => .ok (bytes, rest)

/-- The `while (i < --size)` loop of `correctbytes`, on `int` indices. -/
def correctbytes_loop : Nat → List Nat → Int → Int → List Nat
  | 0, b, _, _ => b
  | fuel + 1, b, i, size =>
    if i < size - 1 then
      correctbytes_loop fuel
        ((b.set i.toNat (b.getD (size - 1).toNat 0)).set (size - 1).toNat (b.getD i.toNat 0))
        (i + 1) (size - 1)
    else b

/-- The function `correctbytes`. -/
def correctbytes (H : Host) (b : List Nat) (size : Nat) (endian : Nat) : List Nat :=
  if endian ≠ native_endian H then correctbytes_loop size b 0 size else b

/-- Object representation of a `w`-byte scalar with the given bit pattern, native order. -/
def native_bytes (H : Host) (w bits : Nat) : List Nat :=
  if H.little then (List.range w).map fun i => (bits >>> (8 * i)) &&& 0xff
  else (List.range w).reverse.map fun i => (bits >>> (8 * i)) &&& 0xff

/-- Bit pattern of a scalar whose object representation is `bytes`, native order. -/
def native_bits (H : Host) (bytes : List Nat) : Nat :=
  if H.little then bytes.foldr (fun b acc => b % 256 + 256 * acc) 0
  else bytes.reverse.foldr (fun b acc => b % 256 + 256 * acc) 0

/-- The function `getinteger` on the `size` bytes at `buff`. -/
def getinteger (buff : List Nat) (endian : Nat) (issigned : Bool) (size : Nat) : Except Err Int :=
  if size > sizeof_long then .error .undefined
  else
    let l :=
      if endian = BIG then
        (List.range size).foldl
          (fun l i => l ||| ((buff.getD (size - i - 1) 0 % 256) <<< (i * 8)) % SIZE_MOD) 0
      else
        (List.range size).foldl
          (fun l i => l ||| ((buff.getD i 0 % 256) <<< (i * 8)) % SIZE_MOD) 0
    if !issigned then .ok (to_double (l : Int))
    else
      let mask := ((SIZE_MOD - 1) <<< (size * 8 - 1)) % SIZE_MOD
      .ok (to_double (toInt64 (if l &&& mask ≠ 0 then l ||| mask else l)))

/-! ## The pack engine -/

/-- The options of the integer `case` labels of `b_pack` and `b_unpack`. -/
def is_integer_opt (opt : Char) : Bool :=
  opt = 'b' ∨ opt = 'B' ∨ opt = 'h' ∨ opt = 'H' ∨ opt = 'l' ∨ opt = 'L' ∨ opt = 'i' ∨ opt = 'I'

/-- What one round of the `switch` of `b_pack` leaves behind. -/
structure PackStep where
  bytes : List Nat
  size : Nat
  h : Header
  fmt : List Char
  args : List LuaValue

/-- The `switch (opt)` of `b_pack`. -/
def b_pack_case (H : Host) (opt : Char) (fmt : List Char) (h : Header) (size : Nat)
    (args : List LuaValue) : Except Err PackStep :=
  if is_integer_opt opt then
    match putinteger H args h.endian size with
    | .error e => .error e
    | .ok (bytes, rest) => .ok ⟨bytes, size, h, fmt, rest⟩
  else if opt = 'x' then .ok ⟨[0], size, h, fmt, args⟩
  else if opt = 'f' then
    match luaL_checknumber H args with
    | .error e => .error e
    | .ok (n, rest) =>
      .ok ⟨(correctbytes H (native_bytes H sizeof_float (H.float_bits n % 2 ^ 32)) size
        h.endian).take size, size, h, fmt, rest⟩
  else if opt = 'd' then
    match luaL_checknumber H args with
    | .error e => .error e
    | .ok (n, rest) =>
      .ok ⟨(correctbytes H (native_bytes H sizeof_double (H.double_bits n % 2 ^ 64)) size
        h.endian).take size, size, h, fmt, rest⟩
  else if opt = 'c' ∨ opt = 's' then
    match luaL_checklstring H args with
    | .error e => .error e
    | .ok (s, rest) =>
      if ¬ (s.length ≥ (if size = 0 then s.length else size)) then .error .stringTooShort
      else if opt = 's' then
        .ok ⟨s.take (if size = 0 then s.length else size) ++ [0],
          ((if size = 0 then s.length else size) + 1) % SIZE_MOD, h, fmt, rest⟩
      else .ok ⟨s.take (if size = 0 then s.length else size),
          (if size = 0 then s.length else size), h, fmt, rest⟩
  else
    match commoncases opt fmt h with
    | .error e => .error e
    | .ok (h', fmt') => .ok ⟨[], size, h', fmt', args⟩

/-- The `while (*fmt != 0)` loop of `b_pack`; `b` is the `luaL_Buffer`. -/
def b_pack_loop (H : Host) : Nat → List Char → Header → Nat → List Nat → List LuaValue →
    Except Err (List Nat)
  | _, [], _, _, b, _ => .ok b
  | 0, _ :: _, _, _, _, _ => .error .fuel
  | fuel + 1, opt :: fmt, h, totalsize, b, args =>
    if opt = NUL then .ok b
    else
      match optsize opt fmt with
      | .error e => .error e
      | .ok (size, fmt1) =>
        match b_pack_case H opt fmt1 h size args with
        | .error e => .error e
        | .ok st =>
          b_pack_loop H fuel st.fmt st.h
            (((totalsize + gettoalign totalsize h opt size) % SIZE_MOD + st.size) % SIZE_MOD)
            (b ++ List.replicate (gettoalign totalsize h opt size) 0 ++ st.bytes) st.args

/-- The function `b_pack`: `struct.pack(fmt, args...)`. -/
def b_pack (H : Host) (fmt : List Char) (args : List LuaValue) : Except Err (List Nat) :=
  b_pack_loop H fmt.length fmt (defaultoptions H) 0 [] args

/-! ## The unpack engine -/

/-- The bytes `data[pos .. pos + n - 1]`, when they lie inside the data string. -/
def read_bytes (data : List Nat) (pos n : Nat) : Except Err (List Nat) :=
  if pos + n ≤ data.length then .ok ((data.drop pos).take n) else .error .outOfBounds

/-- The C function `memchr(s, 0, |s|)` as an offset into `s`. -/
def memchr : List Nat → Option Nat
  | [] => none
  | b :: bs => if b = 0 then some 0 else (memchr bs).map (· + 1)

/-- The Lua API functions `lua_isnumber` / `lua_tonumber` on the top of the stack. -/
def lua_tonumber (H : Host) : Option LuaValue → Option Int
  | some (.number n) => some (to_double n)
  | some (.str s) => (H.str2number s).map to_double
  | _ => none

/-- What one round of the `switch` of `b_unpack` leaves behind. -/
structure UnpackStep where
  stack : List LuaValue
  size : Nat
  h : Header
  fmt : List Char

/-- The `switch (opt)` of `b_unpack`. -/
def b_unpack_case (H : Host) (opt : Char) (fmt : List Char) (h : Header) (pos : Nat)
    (data : List Nat) (stack : List LuaValue) (size : Nat) : Except Err UnpackStep :=
  if is_integer_opt opt then
    match read_bytes data pos size with
    | .error e => .error e
    | .ok buff =>
      match getinteger buff h.endian opt.isLower size with
      | .error e => .error e
      | .ok res => .ok ⟨stack ++ [.number res], size, h, fmt⟩
  else if opt = 'x' then .ok ⟨stack, size, h, fmt⟩
  else if opt = 'f' then
    match read_bytes data pos size with
    | .error e => .error e
    | .ok buff =>
      .ok ⟨stack ++ [.number (H.float_val (native_bits H
        (correctbytes H buff sizeof_float h.endian)))], size, h, fmt⟩
  else if opt = 'd' then
    match read_bytes data pos size with
    | .error e => .error e
    | .ok buff =>
      .ok ⟨stack ++ [.number (H.double_val (native_bits H
        (correctbytes H buff sizeof_double h.endian)))], size, h, fmt⟩
  else if opt = 'c' then
    if size = 0 then
      match lua_tonumber H stack.getLast? with
      | none => .error .needsPreviousSize
      | some n =>
        match ulong_of_number n with
        | .error e => .error e
        | .ok size1 =>
          if ¬ ((pos + size1) % SIZE_MOD ≤ data.length) then .error .dataTooShort
          else
            match read_bytes data pos size1 with
            | .error e => .error e
            | .ok s => .ok ⟨stack.dropLast ++ [.str s], size1, h, fmt⟩
    else
      match read_bytes data pos size with
      | .error e => .error e
      | .ok s => .ok ⟨stack ++ [.str s], size, h, fmt⟩
  else if opt = 's' then
    match memchr (data.drop pos) with
    | none => .error .unfinishedString
    | some k => .ok ⟨stack ++ [.str ((data.drop pos).take k)], k + 1, h, fmt⟩
  else
    match commoncases opt fmt h with
    | .error e => .error e
    | .ok (h', fmt') => .ok ⟨stack, size, h', fmt'⟩

/-- The end of `b_unpack`: push `pos + 1` and return what lies above the two arguments. -/
def b_unpack_finish (pos : Nat) (stack : List LuaValue) : List LuaValue :=
  (stack ++ [LuaValue.number (toInt64 ((pos + 1) % SIZE_MOD))]).drop 2

/-- The `while (*fmt)` loop of `b_unpack`. -/
def b_unpack_loop (H : Host) : Nat → List Char → Header → Nat → List Nat → List LuaValue →
    Except Err (List LuaValue)
  | _, [], _, pos, _, stack => .ok (b_unpack_finish pos stack)
  | 0, _ :: _, _, _, _, _ => .error .fuel
  | fuel + 1, opt :: fmt, h, pos, data, stack =>
    if opt = NUL then .ok (b_unpack_finish pos stack)
    else
      match optsize opt fmt with
      | .error e => .error e
      | .ok (size, fmt1) =>
        if ¬ (((pos + gettoalign pos h opt size) % SIZE_MOD + size) % SIZE_MOD ≤ data.length) then
          .error .dataTooShort
        else
          match b_unpack_case H opt fmt1 h ((pos + gettoalign pos h opt size) % SIZE_MOD)
              data stack size with
          | .error e => .error e
          | .ok st =>
            b_unpack_loop H fuel st.fmt st.h
              (((pos + gettoalign pos h opt size) % SIZE_MOD + st.size) % SIZE_MOD) data st.stack

/-- The function `b_unpack`: `struct.unpack(fmt, data, init)`; `init` is 1 when the
caller leaves it out. -/
def b_unpack (H : Host) (fmt : List Char) (data : List Nat) (init : Int) :
    Except Err (List LuaValue) :=
  b_unpack_loop H fmt.length fmt (defaultoptions H) ((init - 1) % 2 ^ 64).toNat data
    [.str (fmt.map Char.toNat), .str data]

/-! ## A reference host for closed evaluations -/

/-- Value of an unsigned decimal numeral given as bytes. -/
def decimal_value (s : List Nat) : Nat := s.foldl (fun a c => a * 10 + (c - 48)) 0

/-- A little-endian host that coerces unsigned decimal numerals to numbers and back.
Its floating-point codecs are placeholders: no statement below evaluates them. -/
def refHost : Host where
  little := true
  str2number := fun s =>
    if s ≠ [] ∧ s.all (fun c => decide (48 ≤ c ∧ c ≤ 57)) then some (decimal_value s) else none
  number2str := fun n => (Nat.toDigits 10 n.natAbs).map Char.toNat
  float_bits := fun _ => 0
  double_bits := fun _ => 0
  float_val := fun _ => 0
  double_val := fun _ => 0

/-! ## Reference notions used to state the properties -/

/-- Unsigned value of a byte string read least-significant byte first. -/
def le_value : List Nat → Nat
  | [] => 0
  | b :: bs => b + 256 * le_value bs

/-- The sum of `f i * 256 ^ i` over `i < n`. -/
def digit_sum (f : Nat → Nat) : Nat → Nat
  | 0 => 0
  | n + 1 => digit_sum f n + f n * 256 ^ n

/-- Two's-complement reading of the `w`-byte unsigned value `u`. -/
def sign_extend (w u : Nat) : Int :=
  if u < 2 ^ (8 * w - 1) then (u : Int) else (u : Int) - 2 ^ (8 * w)

/-- Unsigned value of a byte string in byte order `e` (`BIG` or `LITTLE`). -/
def order_value (e : Nat) (bytes : List Nat) : Nat :=
  if e = BIG then le_value bytes.reverse else le_value bytes

/-- Value of a decimal numeral, as an exact natural number. -/
def numeral_value (ds : List Char) : Nat :=
  ds.foldl (fun a c => a * 10 + (c.toNat - 48)) 0

/-- A numeral: a nonempty run of decimal digits. -/
def is_numeral (ds : List Char) : Prop := ds ≠ [] ∧ ∀ c ∈ ds, c.isDigit = true

/-- The options whose fields are integers, floats or doubles. -/
def is_scalar_opt (opt : Char) : Bool := is_integer_opt opt || opt = 'f' || opt = 'd'

/-- How `b_pack` lays out one scalar field: its option and size, the alignment ceiling
in force, the output offset before the padding, the number of padding bytes and the
offset at which the field starts. -/
structure FieldRecord where
  opt : Char
  size : Nat
  align : Nat
  before : Nat
  toalign : Nat
  start : Nat
  deriving DecidableEq

/-- The loop of `b_pack` again, also recording the layout of every scalar field. -/
def b_pack_trace (H : Host) : Nat → List Char → Header → Nat → List Nat → List LuaValue →
    Except Err (List Nat × List FieldRecord)
  | _, [], _, _, b, _ => .ok (b, [])
  | 0, _ :: _, _, _, _, _ => .error .fuel
  | fuel + 1, opt :: fmt, h, totalsize, b, args =>
    if opt = NUL then .ok (b, [])
    else
      match optsize opt fmt with
      | .error e => .error e
      | .ok (size, fmt1) =>
        match b_pack_case H opt fmt1 h size args with
        | .error e => .error e
        | .ok st =>
          match b_pack_trace H fuel st.fmt st.h
            (((totalsize + gettoalign totalsize h opt size) % SIZE_MOD + st.size) % SIZE_MOD)
            (b ++ List.replicate (gettoalign totalsize h opt size) 0 ++ st.bytes) st.args with
          | .error e => .error e
          | .ok (out, log) =>
            .ok (out,
              if is_scalar_opt opt then
                ⟨opt, size, h.align, b.length, gettoalign totalsize h opt size,
                  b.length + gettoalign totalsize h opt size⟩ :: log
              else log)

/-- The layout property of a recorded field in the output `out`, with `e` the smaller
of the field size and the alignment ceiling: the padding count is
`(e - (before mod e)) mod e`, the least that reaches a multiple of `e`; the field starts
there; the padding bytes are zero; the field lies inside the output. -/
def well_aligned (out : List Nat) (r : FieldRecord) : Prop :=
  r.toalign = (min r.size r.align - r.before % min r.size r.align) % min r.size r.align ∧
  r.start = r.before + r.toalign ∧
  r.start % min r.size r.align = 0 ∧
  (∀ k, k < r.toalign → (r.before + k) % min r.size r.align ≠ 0) ∧
  (∀ j, r.before ≤ j → j < r.start → out[j]? = some 0) ∧
  r.start + r.size ≤ out.length

/-- The `w`-byte representation of the unsigned value `u`, least-significant byte first. -/
def le_bytes (w u : Nat) : List Nat := (List.range w).map fun i => u / 256 ^ i % 256

/-- The loop of `b_pack` again, also returning the arguments it has not consumed. -/
def b_pack_scan (H : Host) : Nat → List Char → Header → Nat → List Nat → List LuaValue →
    Except Err (List Nat × List LuaValue)
  | _, [], _, _, b, args => .ok (b, args)
  | 0, _ :: _, _, _, _, _ => .error .fuel
  | fuel + 1, opt :: fmt, h, totalsize, b, args =>
    if opt = NUL then .ok (b, args)
    else
      match optsize opt fmt with
      | .error e => .error e
      | .ok (size, fmt1) =>
        match b_pack_case H opt fmt1 h size args with
        | .error e => .error e
        | .ok st =>
          b_pack_scan H fuel st.fmt st.h
            (((totalsize + gettoalign totalsize h opt size) % SIZE_MOD + st.size) % SIZE_MOD)
            (b ++ List.replicate (gettoalign totalsize h opt size) 0 ++ st.bytes) st.args

/-! ## Unfolding the two scans by one directive -/

theorem b_pack_loop_step (H : Host) (fuel : Nat) (opt : Char) (fmt fmt1 : List Char)
    (h : Header) (totalsize size : Nat) (b : List Nat) (args : List LuaValue) (st : PackStep)
    (hopt : opt ≠ NUL) (hs : optsize opt fmt = .ok (size, fmt1))
    (hcase : b_pack_case H opt fmt1 h size args = .ok st) :
    b_pack_loop H (fuel + 1) (opt :: fmt) h totalsize b args =
      b_pack_loop H fuel st.fmt st.h
        (((totalsize + gettoalign totalsize h opt size) % SIZE_MOD + st.size) % SIZE_MOD)
        (b ++ List.replicate (gettoalign totalsize h opt size) 0 ++ st.bytes) st.args := by
  simp only [b_pack_loop, hopt, hs, hcase, if_false]

theorem b_unpack_loop_step (H : Host) (fuel : Nat) (opt : Char) (fmt fmt1 : List Char)
    (h : Header) (pos size : Nat) (data : List Nat) (stack : List LuaValue) (st : UnpackStep)
    (hopt : opt ≠ NUL) (hs : optsize opt fmt = .ok (size, fmt1))
    (hchk : ((pos + gettoalign pos h opt size) % SIZE_MOD + size) % SIZE_MOD ≤ data.length)
    (hcase : b_unpack_case H opt fmt1 h ((pos + gettoalign pos h opt size) % SIZE_MOD)
              data stack size = .ok st) :
    b_unpack_loop H (fuel + 1) (opt :: fmt) h pos data stack =
      b_unpack_loop H fuel st.fmt st.h
        (((pos + gettoalign pos h opt size) % SIZE_MOD + st.size) % SIZE_MOD) data st.stack := by
  simp only [b_unpack_loop, hopt, hs, hchk, hcase, if_false, not_true_eq_false]

theorem b_unpack_loop_short (H : Host) (fuel : Nat) (opt : Char) (fmt fmt1 : List Char)
    (h : Header) (pos size : Nat) (data : List Nat) (stack : List LuaValue)
    (hopt : opt ≠ NUL) (hs : optsize opt fmt = .ok (size, fmt1))
    (hchk : ¬ ((pos + gettoalign pos h opt size) % SIZE_MOD + size) % SIZE_MOD ≤ data.length) :
    b_unpack_loop H (fuel + 1) (opt :: fmt) h pos data stack = .error .dataTooShort := by
  simp only [b_unpack_loop, hopt, hs, hchk, if_false, not_false_eq_true, if_true]

/-! ## Alignment arithmetic -/

theorem gettoalign_align_one (len : Nat) (h : Header) (opt : Char) (size : Nat)
    (ha : h.align = 1) : gettoalign len h opt size = 0 := by
  unfold gettoalign
  split
  · rfl
  · rename_i hc
    have hsz : size ≠ 0 := fun h0 => hc (Or.inl h0)
    by_cases h1 : size > 1
    · simp [ha, h1]
    · have : size = 1 := by omega
      simp [ha, this]

theorem gettoalign_lt (len : Nat) (h : Header) (opt : Char) (size : Nat) (hs : 0 < size) :
    gettoalign len h opt size < size := by
  unfold gettoalign
  split
  · exact hs
  · by_cases h1 : size > h.align
    · simp only [h1, if_true]
      have : (h.align - (len &&& (h.align - 1))) &&& (h.align - 1) ≤ h.align - 1 :=
        Nat.and_le_right
      omega
    · simp only [h1, if_false]
      have : (size - (len &&& (size - 1))) &&& (size - 1) ≤ size - 1 := Nat.and_le_right
      omega

theorem gettoalign_size_zero (len : Nat) (h : Header) (opt : Char) :
    gettoalign len h opt 0 = 0 := by
  simp [gettoalign]

theorem gettoalign_c (len : Nat) (h : Header) (size : Nat) :
    gettoalign len h 'c' size = 0 := by
  simp [gettoalign]

/-! ## Facts about `optsize` -/

theorem toInt32_lt (a : Nat) : toInt32 a < 2 ^ 31 := by
  unfold toInt32
  split <;> omega

theorem isp2_pos (x : Int) (h : isp2 x = true) : 0 < x := by
  unfold isp2 at h
  simp at h
  exact h.1

theorem is_integer_opt_iff (opt : Char) : is_integer_opt opt = true ↔
    opt = 'b' ∨ opt = 'B' ∨ opt = 'h' ∨ opt = 'H' ∨ opt = 'l' ∨ opt = 'L' ∨ opt = 'i' ∨
      opt = 'I' := by
  simp [is_integer_opt]

theorem optsize_NUL (fmt : List Char) : optsize NUL fmt = .error .invalidFormat := rfl

theorem optsize_ne_NUL (opt : Char) (fmt fmt1 : List Char) (size : Nat)
    (hs : optsize opt fmt = .ok (size, fmt1)) : opt ≠ NUL := by
  intro h
  subst h
  rw [optsize_NUL] at hs
  cases hs

theorem optsize_i_bounds (fmt fmt1 : List Char) (size : Nat)
    (hs : (if !isp2 (toInt32 (getnum fmt sizeof_int).1) then Except.error Err.notPowerOf2
      else Except.ok ((toInt32 (getnum fmt sizeof_int).1).toNat, (getnum fmt sizeof_int).2)) =
      Except.ok (size, fmt1)) : 0 < size ∧ size < 2 ^ 31 := by
  by_cases hp : isp2 (toInt32 (getnum fmt sizeof_int).1) = true
  · simp [hp] at hs
    have h1 := isp2_pos _ hp
    have h2 := toInt32_lt (getnum fmt sizeof_int).1
    omega
  · simp [hp] at hs

theorem optsize_scalar_bounds (opt : Char) (fmt fmt1 : List Char) (size : Nat)
    (hsc : is_integer_opt opt = true ∨ opt = 'f' ∨ opt = 'd')
    (hs : optsize opt fmt = .ok (size, fmt1)) : 0 < size ∧ size < 2 ^ 31 := by
  rw [is_integer_opt_iff] at hsc
  rcases hsc with (h | h | h | h | h | h | h | h) | h | h <;> subst h
  case inl.inr.inr.inr.inr.inr.inr.inl => exact optsize_i_bounds fmt fmt1 size hs
  case inl.inr.inr.inr.inr.inr.inr.inr => exact optsize_i_bounds fmt fmt1 size hs
  all_goals
    have h1 := congrArg (fun r => match r with | Except.ok p => p.1 | Except.error _ => 0) hs
    simp [optsize, sizeof_char, sizeof_short, sizeof_long, sizeof_float, sizeof_double] at h1
    omega

/-! ## Small facts used by the scans -/

theorem mod_SIZE_MOD (n : Nat) (h : n < 2 ^ 64) : n % SIZE_MOD = n := Nat.mod_eq_of_lt h

theorem toInt64_small (n : Nat) (h : n < 2 ^ 63) : toInt64 n = (n : Int) := by
  unfold toInt64
  have : n % 2 ^ 64 = n := Nat.mod_eq_of_lt (by omega)
  rw [this, if_pos (by omega)]

theorem double_excess_small (fuel m : Nat) (h : m < 2 ^ 53) : double_excess fuel m = 0 := by
  cases fuel with
  | zero => rfl
  | succ fuel =>
    unfold double_excess
    rw [if_pos h]

/-- A natural number below `2 ^ 53` is a `double`. -/
theorem round_double_small (m : Nat) (h : m < 2 ^ 53) : round_double m = m := by
  unfold round_double
  rw [double_excess_small m m h]
  simp [Nat.mod_one]

theorem round_double_LONG_MAX : round_double LONG_MAX = 2 ^ 63 := by decide

theorem round_double_two_pow_53 : round_double (2 ^ 53) = 2 ^ 53 := by decide

/-- A natural number up to `2 ^ 53` is a `double`. -/
theorem to_double_natCast (n : Nat) (h : n ≤ 2 ^ 53) : to_double (n : Int) = (n : Int) := by
  show ((round_double n : Nat) : Int) = (n : Int)
  rcases Nat.lt_or_ge n (2 ^ 53) with hlt | hge
  · rw [round_double_small n hlt]
  · have : n = 2 ^ 53 := Nat.le_antisymm h hge
    rw [this, round_double_two_pow_53]

/-- An integer of magnitude up to `2 ^ 53` is a `double`. -/
theorem to_double_exact (n : Int) (h : n.natAbs ≤ 2 ^ 53) : to_double n = n := by
  cases n with
  | ofNat m => exact to_double_natCast m h
  | negSucc m =>
    show -((round_double (m + 1) : Nat) : Int) = Int.negSucc m
    have hm : m + 1 ≤ 2 ^ 53 := h
    have := to_double_natCast (m + 1) hm
    have e : ((round_double (m + 1) : Nat) : Int) = ((m + 1 : Nat) : Int) := this
    rw [e]
    rfl

theorem getinteger_byte (n e : Nat) (hn : n < 256) :
    getinteger [n] e false 1 = .ok (n : Int) := by
  have h1 : n % 256 = n := Nat.mod_eq_of_lt hn
  have h2 : n % SIZE_MOD = n := Nat.mod_eq_of_lt (by unfold SIZE_MOD; omega)
  have h3 : to_double (n : Int) = (n : Int) := to_double_natCast n (by omega)
  by_cases he : e = BIG <;> simp [getinteger, sizeof_long, he, List.range_succ, h1, h2, h3]

theorem memchr_append_zero (s t : List Nat) (hs : ∀ b ∈ s, b ≠ 0) :
    memchr (s ++ 0 :: t) = some s.length := by
  induction s with
  | nil => simp [memchr]
  | cons a s ih =>
    have ha : a ≠ 0 := hs a (List.mem_cons_self _ _)
    have := ih (fun b hb => hs b (List.mem_cons_of_mem _ hb))
    simp [memchr, ha, this]

theorem b_unpack_case_int (H : Host) (opt : Char) (fmt : List Char) (h : Header) (pos : Nat)
    (data : List Nat) (stack : List LuaValue) (size : Nat) (buff : List Nat) (res : Int)
    (hi : is_integer_opt opt = true) (hr : read_bytes data pos size = .ok buff)
    (hg : getinteger buff h.endian opt.isLower size = .ok res) :
    b_unpack_case H opt fmt h pos data stack size =
      .ok ⟨stack ++ [.number res], size, h, fmt⟩ := by
  unfold b_unpack_case
  rw [if_pos hi, hr]
  simp only [hg]

theorem b_unpack_case_c0 (H : Host) (fmt : List Char) (h : Header) (pos : Nat)
    (data : List Nat) (stack : List LuaValue) :
    b_unpack_case H 'c' fmt h pos data stack 0 =
      match lua_tonumber H stack.getLast? with
      | none => .error .needsPreviousSize
      | some n =>
        match ulong_of_number n with
        | .error e => .error e
        | .ok size1 =>
          if ¬ ((pos + size1) % SIZE_MOD ≤ data.length) then .error .dataTooShort
          else
            match read_bytes data pos size1 with
            | .error e => .error e
            | .ok s => .ok ⟨stack.dropLast ++ [.str s], size1, h, fmt⟩ := rfl


/-! ## Bytes and values -/

theorem digit_sum_lt (f : Nat → Nat) (n : Nat) (hf : ∀ i, i < n → f i < 256) :
    digit_sum f n < 256 ^ n := by
  induction n with
  | zero => simp [digit_sum]
  | succ n ih =>
    have h1 := ih (fun i hi => hf i (Nat.lt_succ_of_lt hi))
    have h2 := hf n (Nat.lt_succ_self n)
    have h3 : f n * 256 ^ n ≤ 255 * 256 ^ n := Nat.mul_le_mul_right _ (by omega)
    simp only [digit_sum, pow_succ]
    omega

theorem digit_sum_congr (f g : Nat → Nat) (n : Nat) (h : ∀ i, i < n → f i = g i) :
    digit_sum f n = digit_sum g n := by
  induction n with
  | zero => rfl
  | succ n ih =>
    simp only [digit_sum]
    rw [ih (fun i hi => h i (Nat.lt_succ_of_lt hi)), h n (Nat.lt_succ_self n)]

theorem digit_sum_shift (f : Nat → Nat) (n : Nat) :
    digit_sum f (n + 1) = f 0 + 256 * digit_sum (fun i => f (i + 1)) n := by
  induction n with
  | zero => simp [digit_sum]
  | succ n ih =>
    rw [digit_sum, ih]
    simp only [digit_sum, pow_succ]
    ring

theorem le_value_eq_digit_sum (bs : List Nat) :
    le_value bs = digit_sum (fun i => bs.getD i 0) bs.length := by
  induction bs with
  | nil => rfl
  | cons b bs ih =>
    rw [List.length_cons, digit_sum_shift, le_value, ih]
    simp

theorem le_value_map_range (g : Nat → Nat) (n : Nat) :
    le_value ((List.range n).map g) = digit_sum g n := by
  rw [le_value_eq_digit_sum]
  simp only [List.length_map, List.length_range]
  apply digit_sum_congr
  intro i hi
  simp [List.getD_eq_getElem?_getD, hi]

theorem digit_sum_div_mod (v n : Nat) :
    digit_sum (fun i => v / 256 ^ i % 256) n = v % 256 ^ n := by
  induction n with
  | zero => simp [digit_sum, Nat.mod_one]
  | succ n ih =>
    rw [digit_sum, ih, Nat.mod_pow_succ]
    ring

theorem byte_of_shift (v i : Nat) : (v >>> (8 * i)) &&& 0xff = v / 256 ^ i % 256 := by
  have h : (0xff : Nat) = 2 ^ 8 - 1 := by norm_num
  rw [h, Nat.and_pow_two_sub_one_eq_mod, Nat.shiftRight_eq_div_pow, pow_mul]
  norm_num

theorem le_value_lt (bs : List Nat) (hb : ∀ b ∈ bs, b < 256) :
    le_value bs < 256 ^ bs.length := by
  induction bs with
  | nil => simp [le_value]
  | cons b bs ih =>
    have h1 := ih (fun x hx => hb x (List.mem_cons_of_mem _ hx))
    have h2 := hb b (List.mem_cons_self _ _)
    simp only [le_value, List.length_cons, pow_succ]
    omega

/-- The accumulation loops of `getinteger` compute a digit sum. -/
theorem fold_or_eq_digit_sum (f : Nat → Nat) (n : Nat) (hn : n ≤ 8)
    (hf : ∀ i, i < n → f i < 256) :
    (List.range n).foldl (fun l i => l ||| ((f i % 256) <<< (i * 8)) % SIZE_MOD) 0 =
      digit_sum f n := by
  induction n with
  | zero => rfl
  | succ n ih =>
    have hlt := digit_sum_lt f n (fun i hi => hf i (Nat.lt_succ_of_lt hi))
    have hfn := hf n (Nat.lt_succ_self n)
    rw [List.range_succ, List.foldl_append, ih (by omega) (fun i hi => hf i (Nat.lt_succ_of_lt hi))]
    simp only [List.foldl_cons, List.foldl_nil, digit_sum]
    have e1 : (256 : Nat) ^ n = 2 ^ (n * 8) := by
      rw [Nat.mul_comm, pow_mul]; norm_num
    have hpow : (2 : Nat) ^ (n * 8) ≤ 2 ^ 56 := Nat.pow_le_pow_right (by norm_num) (by omega)
    have hsh : (f n % 256) <<< (n * 8) = 2 ^ (n * 8) * f n := by
      rw [Nat.mod_eq_of_lt hfn, Nat.shiftLeft_eq, Nat.mul_comm]
    have hbound : 2 ^ (n * 8) * f n < SIZE_MOD := by
      have : 2 ^ (n * 8) * f n ≤ 2 ^ 56 * 255 := Nat.mul_le_mul hpow (by omega)
      unfold SIZE_MOD
      omega
    rw [hsh, Nat.mod_eq_of_lt hbound, Nat.or_comm, ← Nat.mul_add_lt_is_or (by rw [← e1]; exact hlt),
      e1]
    ring

theorem getinteger_fold_little (buff : List Nat) (size : Nat) (hlen : buff.length = size)
    (hs : size ≤ 8) (hb : ∀ b ∈ buff, b < 256) :
    (List.range size).foldl
      (fun l i => l ||| ((buff.getD i 0 % 256) <<< (i * 8)) % SIZE_MOD) 0 = le_value buff := by
  rw [fold_or_eq_digit_sum (fun i => buff.getD i 0) size hs, le_value_eq_digit_sum, hlen]
  intro i hi
  rw [List.getD_eq_getElem?_getD, List.getElem?_eq_getElem (by omega)]
  exact hb _ (List.getElem_mem _)

theorem getinteger_fold_big (buff : List Nat) (size : Nat) (hlen : buff.length = size)
    (hs : size ≤ 8) (hb : ∀ b ∈ buff, b < 256) :
    (List.range size).foldl
      (fun l i => l ||| ((buff.getD (size - i - 1) 0 % 256) <<< (i * 8)) % SIZE_MOD) 0 =
      le_value buff.reverse := by
  have hrev : ∀ i, i < size → buff.getD (size - i - 1) 0 = buff.reverse.getD i 0 := by
    intro i hi
    rw [List.getD_eq_getElem?_getD, List.getD_eq_getElem?_getD,
      List.getElem?_reverse (by omega), hlen]
    congr 2
    omega
  rw [fold_or_eq_digit_sum (fun i => buff.getD (size - i - 1) 0) size hs, le_value_eq_digit_sum,
    List.length_reverse, hlen]
  · exact digit_sum_congr _ _ _ hrev
  · intro i hi
    show buff.getD (size - i - 1) 0 < 256
    rw [List.getD_eq_getElem?_getD, List.getElem?_eq_getElem (by omega)]
    exact hb _ (List.getElem_mem _)

/-- The unsigned value `getinteger` assembles from `buff` in the given byte order. -/
theorem getinteger_unsigned (buff : List Nat) (e size : Nat) (hlen : buff.length = size)
    (hs : size ≤ 8) (hb : ∀ b ∈ buff, b < 256) :
    getinteger buff e false size =
      .ok (to_double ((if e = BIG then le_value buff.reverse else le_value buff : Nat) : Int)) := by
  unfold getinteger
  rw [if_neg (by simp [sizeof_long]; omega)]
  by_cases he : e = BIG
  · simp only [he, if_true, getinteger_fold_big buff size hlen hs hb]
    rfl
  · simp only [he, if_false, getinteger_fold_little buff size hlen hs hb]
    rfl

theorem testBit_split (m a b j : Nat) (hb : b < 2 ^ m) :
    (2 ^ m * a + b).testBit j = if j < m then b.testBit j else a.testBit (j - m) := by
  rw [Nat.testBit_mul_pow_two_add a hb j]

theorem and_split (m a b c d : Nat) (hb : b < 2 ^ m) (hd : d < 2 ^ m) :
    (2 ^ m * a + b) &&& (2 ^ m * c + d) = 2 ^ m * (a &&& c) + (b &&& d) := by
  apply Nat.eq_of_testBit_eq
  intro j
  rw [Nat.testBit_and, testBit_split m a b j hb, testBit_split m c d j hd,
    testBit_split m _ _ j (Nat.and_lt_two_pow b hd)]
  by_cases hj : j < m <;> simp [hj]

theorem or_split (m a b c d : Nat) (hb : b < 2 ^ m) (hd : d < 2 ^ m) :
    (2 ^ m * a + b) ||| (2 ^ m * c + d) = 2 ^ m * (a ||| c) + (b ||| d) := by
  apply Nat.eq_of_testBit_eq
  intro j
  rw [Nat.testBit_or, testBit_split m a b j hb, testBit_split m c d j hd,
    testBit_split m _ _ j (Nat.or_lt_two_pow hb hd)]
  by_cases hj : j < m <;> simp [hj]

theorem one_or_ones (k : Nat) (hk : 0 < k) : 1 ||| (2 ^ k - 1) = 2 ^ k - 1 := by
  apply Nat.eq_of_testBit_eq
  intro j
  rw [Nat.testBit_or, Nat.testBit_two_pow_sub_one]
  by_cases hj : j < k
  · simp [hj]
  · have : j ≠ 0 := by omega
    have h1 : Nat.testBit 1 j = false := by
      rw [show (1 : Nat) = 2 ^ 0 by norm_num, Nat.testBit_two_pow]
      simp; omega
    simp [hj, h1]

/-- The sign test of `getinteger`: the mask meets `l` exactly when the top bit is set. -/
theorem mask_and (m k l : Nat) (hk : 0 < k) (hl : l < 2 ^ (m + 1)) :
    l &&& (2 ^ m * (2 ^ k - 1)) = 0 ↔ l < 2 ^ m := by
  have hr : l % 2 ^ m < 2 ^ m := Nat.mod_lt _ (Nat.two_pow_pos m)
  have hq : l / 2 ^ m < 2 := by
    rw [Nat.div_lt_iff_lt_mul (Nat.two_pow_pos m)]
    rw [pow_succ] at hl
    omega
  have hdec : l = 2 ^ m * (l / 2 ^ m) + l % 2 ^ m := (Nat.div_add_mod l (2 ^ m)).symm
  have h0 : 2 ^ m * (2 ^ k - 1) = 2 ^ m * (2 ^ k - 1) + 0 := rfl
  have hk2 : 2 ^ k ≥ 2 := by
    calc 2 ^ k ≥ 2 ^ 1 := Nat.pow_le_pow_right (by norm_num) hk
      _ = 2 := by norm_num
  have hand : l &&& (2 ^ m * (2 ^ k - 1)) = 2 ^ m * (l / 2 ^ m) := by
    conv_lhs => rw [hdec, h0]
    rw [and_split m _ _ _ _ hr (Nat.two_pow_pos m), Nat.and_pow_two_sub_one_eq_mod,
      Nat.mod_eq_of_lt (by omega)]
    simp
  rw [hand]
  constructor
  · intro h
    have h2 : l / 2 ^ m = 0 := by
      rcases Nat.mul_eq_zero.mp h with h | h
      · exact absurd h (by positivity)
      · exact h
    rw [hdec, h2]
    simpa using hr
  · intro h
    rw [Nat.div_eq_of_lt h, Nat.mul_zero]

/-- The sign extension of `getinteger`: or-ing the mask into a value with the top bit set. -/
theorem mask_or (m k l : Nat) (hk : 0 < k) (hl : l < 2 ^ (m + 1)) (hm : 2 ^ m ≤ l) :
    l ||| (2 ^ m * (2 ^ k - 1)) = 2 ^ m * (2 ^ k - 1) + (l - 2 ^ m) := by
  have hr : l - 2 ^ m < 2 ^ m := by
    rw [pow_succ] at hl
    omega
  have hdec : l = 2 ^ m * 1 + (l - 2 ^ m) := by omega
  have h0 : 2 ^ m * (2 ^ k - 1) = 2 ^ m * (2 ^ k - 1) + 0 := rfl
  conv_lhs => rw [hdec, h0]
  rw [or_split m _ _ _ _ hr (Nat.two_pow_pos m), one_or_ones k hk]
  simp

theorem sign_mask_eq (size : Nat) (hs : size = 1 ∨ size = 2 ∨ size = 4 ∨ size = 8) :
    ((SIZE_MOD - 1) <<< (size * 8 - 1)) % SIZE_MOD =
      2 ^ (8 * size - 1) * (2 ^ (65 - 8 * size) - 1) := by
  rcases hs with h | h | h | h <;> subst h <;> decide

/-- The signed branch of `getinteger` on an assembled value `l` of `size` bytes. -/
theorem sign_extend_correct (size l : Nat) (hs : size = 1 ∨ size = 2 ∨ size = 4 ∨ size = 8)
    (hl : l < 256 ^ size) :
    toInt64 (if l &&& ((SIZE_MOD - 1) <<< (size * 8 - 1)) % SIZE_MOD ≠ 0
      then l ||| ((SIZE_MOD - 1) <<< (size * 8 - 1)) % SIZE_MOD else l) = sign_extend size l := by
  have hk : 0 < 65 - 8 * size := by rcases hs with h | h | h | h <;> subst h <;> decide
  have h8 : (256 : Nat) ^ size = 2 ^ (8 * size - 1 + 1) := by
    rcases hs with h | h | h | h <;> subst h <;> decide
  have hl' : l < 2 ^ (8 * size - 1 + 1) := h8 ▸ hl
  have hle : 8 * size - 1 + 1 ≤ 64 := by rcases hs with h | h | h | h <;> subst h <;> decide
  have htot : 2 ^ (8 * size - 1) * (2 ^ (65 - 8 * size) - 1) + 2 ^ (8 * size - 1) = 2 ^ 64 := by
    rcases hs with h | h | h | h <;> subst h <;> decide
  have hp : (2 : Nat) ^ (8 * size - 1 + 1) = 2 * 2 ^ (8 * size - 1) := by
    rw [pow_succ]; omega
  have hp63 : (2 : Nat) ^ (8 * size - 1) ≤ 2 ^ 63 :=
    Nat.pow_le_pow_right (by norm_num) (by omega)
  rw [sign_mask_eq size hs]
  unfold sign_extend
  by_cases hlt : l < 2 ^ (8 * size - 1)
  · have h0 := (mask_and (8 * size - 1) (65 - 8 * size) l hk hl').mpr hlt
    rw [if_neg (by simp [h0]), if_pos hlt, toInt64_small l (by omega)]
  · have hor := mask_or (8 * size - 1) (65 - 8 * size) l hk hl' (by omega)
    have hne : l &&& 2 ^ (8 * size - 1) * (2 ^ (65 - 8 * size) - 1) ≠ 0 :=
      fun h => hlt ((mask_and (8 * size - 1) (65 - 8 * size) l hk hl').mp h)
    rw [if_pos hne, if_neg hlt, hor]
    unfold toInt64
    have hv : 2 ^ (8 * size - 1) * (2 ^ (65 - 8 * size) - 1) + (l - 2 ^ (8 * size - 1)) < 2 ^ 64 := by
      omega
    have hv2 : ¬ 2 ^ (8 * size - 1) * (2 ^ (65 - 8 * size) - 1) + (l - 2 ^ (8 * size - 1)) < 2 ^ 63 := by
      omega
    rw [Nat.mod_eq_of_lt hv, if_neg hv2]
    have e8 : (2 : Int) ^ (8 * size) = 2 * 2 ^ (8 * size - 1) := by
      have : 8 * size = 8 * size - 1 + 1 := by omega
      conv_lhs => rw [this, pow_succ]
      ring
    have hc : ((2 ^ (8 * size - 1) * (2 ^ (65 - 8 * size) - 1) + (l - 2 ^ (8 * size - 1)) : Nat) : Int)
        = (2 : Int) ^ 64 - 2 * 2 ^ (8 * size - 1) + l := by
      have : 2 ^ (8 * size - 1) * (2 ^ (65 - 8 * size) - 1) + (l - 2 ^ (8 * size - 1)) + 2 * 2 ^ (8 * size - 1)
          = 2 ^ 64 + l := by omega
      have := congrArg (Nat.cast : Nat → Int) this
      push_cast at this ⊢
      linarith
    rw [hc, e8]
    ring

/-- The value `getinteger` returns for a signed directive. -/
theorem getinteger_signed (buff : List Nat) (e size : Nat) (hlen : buff.length = size)
    (hs : size = 1 ∨ size = 2 ∨ size = 4 ∨ size = 8) (hb : ∀ b ∈ buff, b < 256) :
    getinteger buff e true size =
      .ok (to_double
        (sign_extend size (if e = BIG then le_value buff.reverse else le_value buff))) := by
  have hs8 : size ≤ 8 := by rcases hs with h | h | h | h <;> omega
  have hb' : ∀ b ∈ buff.reverse, b < 256 := fun b hx => hb b (List.mem_reverse.mp hx)
  unfold getinteger
  rw [if_neg (by simp [sizeof_long]; omega)]
  by_cases he : e = BIG
  · simp only [he, if_true, getinteger_fold_big buff size hlen hs8 hb]
    have hl := le_value_lt buff.reverse hb'
    rw [List.length_reverse, hlen] at hl
    exact congrArg (fun x => Except.ok (to_double x)) (sign_extend_correct size _ hs hl)
  · simp only [he, if_false, getinteger_fold_little buff size hlen hs8 hb]
    have hl := le_value_lt buff hb
    rw [hlen] at hl
    exact congrArg (fun x => Except.ok (to_double x)) (sign_extend_correct size _ hs hl)

/-! ## Single directives -/

theorem b_unpack_loop_nil (H : Host) (fuel : Nat) (h : Header) (pos : Nat) (data : List Nat)
    (stack : List LuaValue) :
    b_unpack_loop H fuel [] h pos data stack = .ok (b_unpack_finish pos stack) := by
  cases fuel <;> rfl

theorem b_pack_loop_nil (H : Host) (fuel : Nat) (h : Header) (totalsize : Nat) (b : List Nat)
    (args : List LuaValue) : b_pack_loop H fuel [] h totalsize b args = .ok b := by
  cases fuel <;> rfl

theorem read_bytes_all (data : List Nat) : read_bytes data 0 data.length = .ok data := by
  simp [read_bytes]

/-- Unpack scan over `<`: only the byte order changes. -/
theorem b_unpack_loop_little (H : Host) (fuel : Nat) (fmt : List Char) (h : Header) (pos : Nat)
    (data : List Nat) (stack : List LuaValue) (hpos : pos ≤ data.length)
    (hlt : pos < 2 ^ 64) :
    b_unpack_loop H (fuel + 1) ('<' :: fmt) h pos data stack =
      b_unpack_loop H fuel fmt { h with endian := LITTLE } pos data stack := by
  have hc : b_unpack_case H '<' fmt h ((pos + gettoalign pos h '<' 0) % SIZE_MOD) data stack 0 =
      .ok ⟨stack, 0, { h with endian := LITTLE }, fmt⟩ := rfl
  rw [b_unpack_loop_step H fuel '<' fmt fmt h pos 0 data stack _ (by decide) rfl
    (by simp [gettoalign_size_zero, mod_SIZE_MOD pos hlt, hpos]) hc]
  simp [gettoalign_size_zero, mod_SIZE_MOD pos hlt]

/-- Unpack scan over `>`: only the byte order changes. -/
theorem b_unpack_loop_big (H : Host) (fuel : Nat) (fmt : List Char) (h : Header) (pos : Nat)
    (data : List Nat) (stack : List LuaValue) (hpos : pos ≤ data.length)
    (hlt : pos < 2 ^ 64) :
    b_unpack_loop H (fuel + 1) ('>' :: fmt) h pos data stack =
      b_unpack_loop H fuel fmt { h with endian := BIG } pos data stack := by
  have hc : b_unpack_case H '>' fmt h ((pos + gettoalign pos h '>' 0) % SIZE_MOD) data stack 0 =
      .ok ⟨stack, 0, { h with endian := BIG }, fmt⟩ := rfl
  rw [b_unpack_loop_step H fuel '>' fmt fmt h pos 0 data stack _ (by decide) rfl
    (by simp [gettoalign_size_zero, mod_SIZE_MOD pos hlt, hpos]) hc]
  simp [gettoalign_size_zero, mod_SIZE_MOD pos hlt]

theorem getinteger_value (buff : List Nat) (e size : Nat) (sg : Bool)
    (hlen : buff.length = size) (hs : size = 1 ∨ size = 2 ∨ size = 4 ∨ size = 8)
    (hb : ∀ b ∈ buff, b < 256) :
    getinteger buff e sg size =
      .ok (to_double
        (if sg then sign_extend size (order_value e buff) else (order_value e buff : Int))) := by
  cases sg
  · rw [getinteger_unsigned buff e size hlen (by omega) hb]
    rfl
  · rw [getinteger_signed buff e size hlen hs hb]
    rfl

/-- Unpack of one integer directive at cursor 0 with alignment ceiling 1. -/
theorem b_unpack_loop_single_int (H : Host) (fuel : Nat) (opt : Char) (num : List Char)
    (h : Header) (w : Nat) (data : List Nat) (stack : List LuaValue)
    (ha : h.align = 1) (hi : is_integer_opt opt = true) (hs : optsize opt num = .ok (w, []))
    (hw : w = 1 ∨ w = 2 ∨ w = 4 ∨ w = 8) (hlen : data.length = w)
    (hb : ∀ b ∈ data, b < 256) :
    b_unpack_loop H (fuel + 1) (opt :: num) h 0 data stack =
      .ok ((stack ++ [LuaValue.number (to_double (if opt.isLower then
          sign_extend w (order_value h.endian data) else (order_value h.endian data : Int))),
        LuaValue.number (w + 1)]).drop 2) := by
  have hta : gettoalign 0 h opt w = 0 := gettoalign_align_one 0 h opt w ha
  have hw64 : w < 2 ^ 64 := by omega
  have hr : read_bytes data 0 w = .ok data := hlen ▸ read_bytes_all data
  have hc := b_unpack_case_int H opt [] h 0 data stack w data _ hi hr
    (getinteger_value data h.endian w opt.isLower hlen hw hb)
  rw [b_unpack_loop_step H fuel opt num [] h 0 w data stack _ (optsize_ne_NUL opt num [] w hs) hs
    (by rw [hta]; simp [mod_SIZE_MOD w hw64, hlen])
    (by rw [hta]; exact hc)]
  rw [b_unpack_loop_nil, hta]
  simp only [Nat.add_zero, Nat.zero_mod, Nat.zero_add, mod_SIZE_MOD w hw64, b_unpack_finish]
  rw [mod_SIZE_MOD (w + 1) (by omega), toInt64_small (w + 1) (by omega)]
  simp

theorem b_pack_loop_fail (H : Host) (fuel : Nat) (opt : Char) (fmt fmt1 : List Char)
    (h : Header) (totalsize size : Nat) (b : List Nat) (args : List LuaValue) (e : Err)
    (hopt : opt ≠ NUL) (hs : optsize opt fmt = .ok (size, fmt1))
    (hcase : b_pack_case H opt fmt1 h size args = .error e) :
    b_pack_loop H (fuel + 1) (opt :: fmt) h totalsize b args = .error e := by
  simp only [b_pack_loop, hopt, hs, hcase, if_false]

/-- Pack scan over `<`: only the byte order changes. -/
theorem b_pack_loop_little (H : Host) (fuel : Nat) (fmt : List Char) (h : Header)
    (totalsize : Nat) (b : List Nat) (args : List LuaValue) (hlt : totalsize < 2 ^ 64) :
    b_pack_loop H (fuel + 1) ('<' :: fmt) h totalsize b args =
      b_pack_loop H fuel fmt { h with endian := LITTLE } totalsize b args := by
  have hc : b_pack_case H '<' fmt h 0 args = .ok ⟨[], 0, { h with endian := LITTLE }, fmt, args⟩ :=
    rfl
  rw [b_pack_loop_step H fuel '<' fmt fmt h totalsize 0 b args _ (by decide) rfl hc]
  simp [gettoalign_size_zero, mod_SIZE_MOD totalsize hlt]

/-- Pack scan over `>`: only the byte order changes. -/
theorem b_pack_loop_big (H : Host) (fuel : Nat) (fmt : List Char) (h : Header)
    (totalsize : Nat) (b : List Nat) (args : List LuaValue) (hlt : totalsize < 2 ^ 64) :
    b_pack_loop H (fuel + 1) ('>' :: fmt) h totalsize b args =
      b_pack_loop H fuel fmt { h with endian := BIG } totalsize b args := by
  have hc : b_pack_case H '>' fmt h 0 args = .ok ⟨[], 0, { h with endian := BIG }, fmt, args⟩ :=
    rfl
  rw [b_pack_loop_step H fuel '>' fmt fmt h totalsize 0 b args _ (by decide) rfl hc]
  simp [gettoalign_size_zero, mod_SIZE_MOD totalsize hlt]

theorem b_pack_case_int (H : Host) (opt : Char) (fmt : List Char) (h : Header) (size : Nat)
    (args : List LuaValue) (hi : is_integer_opt opt = true) :
    b_pack_case H opt fmt h size args =
      match putinteger H args h.endian size with
      | .error e => .error e
      | .ok (bytes, rest) => .ok ⟨bytes, size, h, fmt, rest⟩ := by
  unfold b_pack_case
  rw [if_pos hi]

/-- Pack of one integer directive into an empty buffer with alignment ceiling 1. -/
theorem b_pack_loop_single_int (H : Host) (fuel : Nat) (opt : Char) (num : List Char)
    (h : Header) (w : Nat) (args : List LuaValue)
    (ha : h.align = 1) (hi : is_integer_opt opt = true) (hs : optsize opt num = .ok (w, [])) :
    b_pack_loop H (fuel + 1) (opt :: num) h 0 [] args =
      Except.map Prod.fst (putinteger H args h.endian w) := by
  have hta : gettoalign 0 h opt w = 0 := gettoalign_align_one 0 h opt w ha
  have hn := optsize_ne_NUL opt num [] w hs
  have hc := b_pack_case_int H opt [] h w args hi
  cases hp : putinteger H args h.endian w with
  | error e =>
    rw [hp] at hc
    rw [b_pack_loop_fail H fuel opt num [] h 0 w [] args e hn hs hc]
    rfl
  | ok r =>
    obtain ⟨bytes, rest⟩ := r
    rw [hp] at hc
    rw [b_pack_loop_step H fuel opt num [] h 0 w [] args _ hn hs hc, b_pack_loop_nil, hta]
    simp [Except.map]

theorem putinteger_bytes_big (value size : Nat) :
    putinteger_bytes value BIG size = Except.map List.reverse (putinteger_bytes value LITTLE size) := by
  unfold putinteger_bytes
  split
  · rfl
  · simp [BIG, LITTLE, Except.map, List.map_reverse]

theorem putinteger_big (H : Host) (args : List LuaValue) (size : Nat) :
    Except.map Prod.fst (putinteger H args BIG size) =
      Except.map List.reverse (Except.map Prod.fst (putinteger H args LITTLE size)) := by
  unfold putinteger
  cases luaL_checknumber H args with
  | error e => rfl
  | ok r =>
    obtain ⟨n, rest⟩ := r
    simp only []
    cases (if lt_LONG_MAX n = true then long_of_number n else ulong_of_number n) with
    | error e => rfl
    | ok value =>
      simp only []
      rw [putinteger_bytes_big]
      cases putinteger_bytes value LITTLE size with
      | error e => rfl
      | ok bytes => rfl

theorem putinteger_bytes_shape (value e size : Nat) (bytes : List Nat)
    (h : putinteger_bytes value e size = .ok bytes) :
    bytes.length = size ∧ ∀ b ∈ bytes, b < 256 := by
  have hlt : ∀ i, (value >>> (8 * i)) &&& 0xff < 256 := by
    intro i
    rw [byte_of_shift]
    exact Nat.mod_lt _ (by norm_num)
  unfold putinteger_bytes at h
  split at h
  · cases h
  · split at h <;> cases h
    · refine ⟨by simp, ?_⟩
      intro b hb
      obtain ⟨i, _, rfl⟩ := List.mem_map.mp hb
      exact hlt i
    · refine ⟨by simp, ?_⟩
      intro b hb
      obtain ⟨i, _, rfl⟩ := List.mem_map.mp hb
      exact hlt i

theorem putinteger_shape (H : Host) (args : List LuaValue) (e size : Nat) (bytes : List Nat)
    (h : Except.map Prod.fst (putinteger H args e size) = .ok bytes) :
    bytes.length = size ∧ ∀ b ∈ bytes, b < 256 := by
  unfold putinteger at h
  cases h1 : luaL_checknumber H args with
  | error e => rw [h1] at h; cases h
  | ok r =>
    obtain ⟨n, rest⟩ := r
    rw [h1] at h
    simp only [] at h
    cases h2 : (if lt_LONG_MAX n = true then long_of_number n else ulong_of_number n) with
    | error e => rw [h2] at h; cases h
    | ok value =>
      rw [h2] at h
      simp only [] at h
      cases h3 : putinteger_bytes value e size with
      | error e => rw [h3] at h; cases h
      | ok bs =>
        rw [h3] at h
        cases h
        exact putinteger_bytes_shape value e size bs h3

/-- Packing one integer directive under `>`. -/
theorem b_pack_big_int (H : Host) (opt : Char) (num : List Char) (w : Nat)
    (args : List LuaValue) (hi : is_integer_opt opt = true)
    (hs : optsize opt num = .ok (w, [])) :
    b_pack H ('>' :: opt :: num) args = Except.map Prod.fst (putinteger H args BIG w) := by
  unfold b_pack
  rw [List.length_cons, b_pack_loop_big H _ _ _ 0 [] _ (by norm_num), List.length_cons,
    b_pack_loop_single_int H _ opt num _ w _ rfl hi hs]

/-- Packing one integer directive under `<`. -/
theorem b_pack_little_int (H : Host) (opt : Char) (num : List Char) (w : Nat)
    (args : List LuaValue) (hi : is_integer_opt opt = true)
    (hs : optsize opt num = .ok (w, [])) :
    b_pack H ('<' :: opt :: num) args = Except.map Prod.fst (putinteger H args LITTLE w) := by
  unfold b_pack
  rw [List.length_cons, b_pack_loop_little H _ _ _ 0 [] _ (by norm_num), List.length_cons,
    b_pack_loop_single_int H _ opt num _ w _ rfl hi hs]

/-- Unpacking one integer directive under `<`. -/
theorem b_unpack_little_int (H : Host) (opt : Char) (num : List Char) (w : Nat)
    (data : List Nat) (hi : is_integer_opt opt = true) (hs : optsize opt num = .ok (w, []))
    (hw : w = 1 ∨ w = 2 ∨ w = 4 ∨ w = 8) (hlen : data.length = w)
    (hb : ∀ b ∈ data, b < 256) :
    b_unpack H ('<' :: opt :: num) data 1 =
      .ok [.number (to_double (if opt.isLower then sign_extend w (le_value data)
            else (le_value data : Int))), .number (w + 1)] := by
  have h0 : (((1 : Int) - 1) % 2 ^ 64).toNat = 0 := by decide
  unfold b_unpack
  rw [h0, List.length_cons, b_unpack_loop_little H _ _ _ 0 data _ (Nat.zero_le _) (by norm_num),
    List.length_cons, b_unpack_loop_single_int H _ opt num _ w data _ rfl hi hs hw hlen hb]
  rfl

/-! ## Numerals -/

theorem digit_step_mod (a a' : Nat) (c : Char) (hc : c.isDigit = true)
    (ha : a % SIZE_MOD = a' % SIZE_MOD) :
    (a * 10 + c.toNat - 48) % SIZE_MOD = (a' * 10 + (c.toNat - 48)) % SIZE_MOD := by
  have h48 : 48 ≤ c.toNat := by
    simp [Char.isDigit] at hc
    exact hc.1
  unfold SIZE_MOD at ha ⊢
  omega

theorem getnum_loop_spec (ds : List Char) (f : List Char) (a a' : Nat) (c : Char)
    (hc : c.isDigit = true) (hds : ∀ d ∈ ds, d.isDigit = true)
    (hf : ∀ d rest, f = d :: rest → d.isDigit = false) (ha : a % SIZE_MOD = a' % SIZE_MOD) :
    getnum_loop a c (ds ++ f) =
      ((c :: ds).foldl (fun a c => a * 10 + (c.toNat - 48)) a' % SIZE_MOD, f) := by
  induction ds generalizing a a' c with
  | nil =>
    have hstep := digit_step_mod a a' c hc ha
    cases f with
    | nil => simp [getnum_loop, hstep]
    | cons d rest =>
      have hd := hf d rest rfl
      simp [getnum_loop, hd, hstep]
  | cons d ds ih =>
    have hstep := digit_step_mod a a' c hc ha
    have hd : d.isDigit = true := hds d (List.mem_cons_self _ _)
    have h := ih ((a * 10 + c.toNat - 48) % SIZE_MOD) (a' * 10 + (c.toNat - 48)) d hd
      (fun x hx => hds x (List.mem_cons_of_mem _ hx)) (by rw [Nat.mod_mod, hstep])
    show getnum_loop a c (d :: (ds ++ f)) = _
    rw [getnum_loop, if_pos hd, h]
    rfl

/-- On a numeral followed by a non-digit, `getnum` returns its value modulo `2 ^ 64`. -/
theorem getnum_numeral (ds f : List Char) (df : Nat) (hn : is_numeral ds)
    (hf : ∀ d rest, f = d :: rest → d.isDigit = false) :
    getnum (ds ++ f) df = (numeral_value ds % SIZE_MOD, f) := by
  obtain ⟨hne, hds⟩ := hn
  cases ds with
  | nil => exact absurd rfl hne
  | cons c ds =>
    have hc : c.isDigit = true := hds c (List.mem_cons_self _ _)
    simp only [List.cons_append, getnum, hc, Bool.not_true, Bool.false_eq_true, if_false]
    rw [getnum_loop_spec ds f 0 0 c hc (fun x hx => hds x (List.mem_cons_of_mem _ hx)) hf rfl]
    rfl

theorem optsize_s (fmt : List Char) : optsize 's' fmt = .ok (0, fmt) := rfl

theorem b_pack_case_s (H : Host) (fmt : List Char) (h : Header) (s : List Nat)
    (rest : List LuaValue) :
    b_pack_case H 's' fmt h 0 (.str s :: rest) =
      .ok ⟨s.take s.length ++ [0], (s.length + 1) % SIZE_MOD, h, fmt, rest⟩ := by
  have h1 : b_pack_case H 's' fmt h 0 (.str s :: rest) =
      (if ¬ (s.length ≥ (if (0 : Nat) = 0 then s.length else 0)) then .error .stringTooShort
        else .ok ⟨s.take (if (0 : Nat) = 0 then s.length else 0) ++ [0],
          ((if (0 : Nat) = 0 then s.length else 0) + 1) % SIZE_MOD, h, fmt, rest⟩) := rfl
  rw [h1]
  simp

theorem b_unpack_case_s (H : Host) (fmt : List Char) (h : Header) (pos : Nat)
    (data : List Nat) (stack : List LuaValue) (size : Nat) :
    b_unpack_case H 's' fmt h pos data stack size =
      match memchr (data.drop pos) with
      | none => .error .unfinishedString
      | some k => .ok ⟨stack ++ [.str ((data.drop pos).take k)], k + 1, h, fmt⟩ := rfl


/-! ## Powers of two and padding -/

theorem pow2_of_and_pred (n : Nat) (hpos : 0 < n) (h : n &&& (n - 1) = 0) :
    ∃ k, n = 2 ^ k := by
  induction n using Nat.strong_induction_on with
  | _ n ih =>
    by_cases h1 : n = 1
    · exact ⟨0, by rw [h1]; rfl⟩
    · have hdiv : (n &&& (n - 1)) / 2 = n / 2 &&& (n - 1) / 2 := Nat.and_div_two
      rw [h] at hdiv
      rcases Nat.mod_two_eq_zero_or_one n with hev | hodd
      · have hm : (n - 1) / 2 = n / 2 - 1 := by omega
        rw [hm] at hdiv
        obtain ⟨k, hk⟩ := ih (n / 2) (by omega) (by omega) hdiv.symm
        exact ⟨k + 1, by rw [pow_succ]; omega⟩
      · have hm : (n - 1) / 2 = n / 2 := by omega
        rw [hm, Nat.and_self] at hdiv
        omega

theorem isp2_pow2 (x : Int) (h : isp2 x = true) : ∃ k, x.toNat = 2 ^ k := by
  have hpos := isp2_pos x h
  unfold isp2 at h
  simp only [Bool.and_eq_true, decide_eq_true_eq, beq_iff_eq] at h
  exact pow2_of_and_pred x.toNat (by omega) h.2

theorem pow2_exp_lt (k n : Nat) (h : 2 ^ k < 2 ^ n) : k < n := by
  by_contra hc
  have := Nat.pow_le_pow_right (show 0 < 2 by norm_num) (Nat.le_of_not_lt hc)
  omega

/-- A value `optsize` or `commoncases` accepts as a power of two is one, below `2 ^ 31`. -/
theorem isp2_toInt32 (a : Nat) (h : isp2 (toInt32 a) = true) :
    ∃ k, (toInt32 a).toNat = 2 ^ k ∧ k ≤ 30 := by
  obtain ⟨k, hk⟩ := isp2_pow2 _ h
  have h1 := toInt32_lt a
  have h2 := isp2_pos _ h
  have h3 : (toInt32 a).toNat < 2 ^ 31 := by omega
  exact ⟨k, hk, by have := pow2_exp_lt k 31 (hk ▸ h3); omega⟩

theorem min_pow2 (j k : Nat) : min (2 ^ j) (2 ^ k) = 2 ^ min j k := by
  rcases Nat.le_total j k with h | h
  · rw [Nat.min_eq_left h, Nat.min_eq_left (Nat.pow_le_pow_right (by norm_num) h)]
  · rw [Nat.min_eq_right h, Nat.min_eq_right (Nat.pow_le_pow_right (by norm_num) h)]

/-- The bit arithmetic of `gettoalign` is the padding formula, also when the running
total has wrapped modulo `2 ^ 64`. -/
theorem gettoalign_formula (len : Nat) (h : Header) (opt : Char) (size j k : Nat)
    (hs : size = 2 ^ j) (ha : h.align = 2 ^ k) (hj : j ≤ 64) (hc : opt ≠ 'c') :
    gettoalign (len % SIZE_MOD) h opt size =
      (min size h.align - len % min size h.align) % min size h.align := by
  have hs0 : size ≠ 0 := by rw [hs]; positivity
  have hmin : (if size > h.align then h.align else size) = min size h.align := by
    by_cases hgt : size > h.align
    · rw [if_pos hgt, Nat.min_eq_right (by omega)]
    · rw [if_neg hgt, Nat.min_eq_left (by omega)]
  unfold gettoalign
  rw [if_neg (by simp [hs0, hc])]
  simp only [hmin]
  rw [hs, ha, min_pow2, Nat.and_pow_two_sub_one_eq_mod, Nat.and_pow_two_sub_one_eq_mod]
  have hdvd : 2 ^ min j k ∣ SIZE_MOD :=
    Nat.pow_dvd_pow 2 (show min j k ≤ 64 by omega)
  rw [Nat.mod_mod_of_dvd _ hdvd]

/-- The padding count reaches a multiple of `e`, and no smaller count does. -/
theorem padding_least (e p : Nat) (he : 0 < e) :
    (p + (e - p % e) % e) % e = 0 ∧ ∀ k, k < (e - p % e) % e → (p + k) % e ≠ 0 := by
  have hr : p % e < e := Nat.mod_lt p he
  by_cases h0 : p % e = 0
  · rw [h0, Nat.sub_zero, Nat.mod_self]
    exact ⟨by simpa using h0, fun k hk => absurd hk (Nat.not_lt_zero k)⟩
  · have hlt : e - p % e < e := by omega
    rw [Nat.mod_eq_of_lt hlt]
    constructor
    · have : p + (e - p % e) = e * (p / e) + e := by
        have := Nat.div_add_mod p e
        omega
      rw [this]
      simp
    · intro k hk
      have hdec : p + k = e * (p / e) + (p % e + k) := by
        have := Nat.div_add_mod p e
        omega
      rw [hdec, Nat.mul_add_mod, Nat.mod_eq_of_lt (by omega)]
      omega

/-! ## What one round of the pack switch emits -/

theorem correctbytes_loop_length (fuel : Nat) (b : List Nat) (i size : Int) :
    (correctbytes_loop fuel b i size).length = b.length := by
  induction fuel generalizing b i size with
  | zero => rfl
  | succ fuel ih =>
    unfold correctbytes_loop
    split
    · rw [ih]
      simp
    · rfl

theorem correctbytes_length (H : Host) (b : List Nat) (size e : Nat) :
    (correctbytes H b size e).length = b.length := by
  unfold correctbytes
  split
  · exact correctbytes_loop_length _ _ _ _
  · rfl

theorem native_bytes_length (H : Host) (w bits : Nat) : (native_bytes H w bits).length = w := by
  unfold native_bytes
  split <;> simp

theorem is_scalar_opt_iff (opt : Char) :
    is_scalar_opt opt = true ↔ is_integer_opt opt = true ∨ opt = 'f' ∨ opt = 'd' := by
  simp [is_scalar_opt, or_assoc]

/-- The size `optsize` gives a scalar option is a power of two below `2 ^ 31`. -/
theorem optsize_scalar_pow2 (opt : Char) (fmt fmt1 : List Char) (size : Nat)
    (hsc : is_integer_opt opt = true ∨ opt = 'f' ∨ opt = 'd')
    (hs : optsize opt fmt = .ok (size, fmt1)) : ∃ j, size = 2 ^ j ∧ j ≤ 30 := by
  have hi : ∀ (f : List Char), (if !isp2 (toInt32 (getnum f sizeof_int).1) then
      Except.error Err.notPowerOf2
      else Except.ok ((toInt32 (getnum f sizeof_int).1).toNat, (getnum f sizeof_int).2)) =
      Except.ok (size, fmt1) → ∃ j, size = 2 ^ j ∧ j ≤ 30 := by
    intro f hf
    by_cases hp : isp2 (toInt32 (getnum f sizeof_int).1) = true
    · simp [hp] at hf
      obtain ⟨k, hk, hk30⟩ := isp2_toInt32 _ hp
      exact ⟨k, by rw [← hf.1, hk], hk30⟩
    · simp [hp] at hf
  rw [is_integer_opt_iff] at hsc
  rcases hsc with (h | h | h | h | h | h | h | h) | h | h <;> subst h
  case inl.inr.inr.inr.inr.inr.inr.inl => exact hi fmt hs
  case inl.inr.inr.inr.inr.inr.inr.inr => exact hi fmt hs
  all_goals
    have h1 := congrArg (fun r => match r with | Except.ok p => p.1 | Except.error _ => 0) hs
    simp [optsize, sizeof_char, sizeof_short, sizeof_long, sizeof_float, sizeof_double] at h1
    subst h1
  · exact ⟨0, rfl, by omega⟩
  · exact ⟨0, rfl, by omega⟩
  · exact ⟨1, rfl, by omega⟩
  · exact ⟨1, rfl, by omega⟩
  · exact ⟨3, rfl, by omega⟩
  · exact ⟨3, rfl, by omega⟩
  · exact ⟨2, rfl, by omega⟩
  · exact ⟨3, rfl, by omega⟩

theorem is_integer_opt_ne (opt : Char) (hi : is_integer_opt opt = true) :
    opt ≠ 'c' ∧ opt ≠ 'x' ∧ opt ≠ 'f' ∧ opt ≠ 'd' ∧ opt ≠ 's' := by
  rw [is_integer_opt_iff] at hi
  rcases hi with h | h | h | h | h | h | h | h <;> subst h <;> decide

/-- The header after one round keeps a power-of-two alignment ceiling. -/
theorem commoncases_align_pow2 (opt : Char) (fmt fmt' : List Char) (h h' : Header)
    (hc : commoncases opt fmt h = .ok (h', fmt'))
    (ha : ∃ k, h.align = 2 ^ k ∧ k ≤ 30) : ∃ k, h'.align = 2 ^ k ∧ k ≤ 30 := by
  unfold commoncases at hc
  by_cases h1 : opt = ' '
  · rw [if_pos h1] at hc
    cases hc
    exact ha
  rw [if_neg h1] at hc
  by_cases h2 : opt = '>'
  · rw [if_pos h2] at hc
    cases hc
    exact ha
  rw [if_neg h2] at hc
  by_cases h3 : opt = '<'
  · rw [if_pos h3] at hc
    cases hc
    exact ha
  rw [if_neg h3] at hc
  by_cases h4 : opt = '!'
  · rw [if_pos h4] at hc
    by_cases hp : isp2 (toInt32 (getnum fmt MAXALIGN).1) = true
    · simp only [hp, Bool.not_true, Bool.false_eq_true, if_false] at hc
      cases hc
      exact isp2_toInt32 _ hp
    · simp [hp] at hc
  · rw [if_neg h4] at hc
    cases hc

theorem commoncases_opt (opt : Char) (fmt fmt' : List Char) (h h' : Header)
    (hc : commoncases opt fmt h = .ok (h', fmt')) :
    opt = ' ' ∨ opt = '>' ∨ opt = '<' ∨ opt = '!' := by
  unfold commoncases at hc
  by_cases h1 : opt = ' '
  · exact Or.inl h1
  by_cases h2 : opt = '>'
  · exact Or.inr (Or.inl h2)
  by_cases h3 : opt = '<'
  · exact Or.inr (Or.inr (Or.inl h3))
  by_cases h4 : opt = '!'
  · exact Or.inr (Or.inr (Or.inr h4))
  rw [if_neg h1, if_neg h2, if_neg h3, if_neg h4] at hc
  cases hc

/-- One round of the pack switch: the bytes it emits number the size it reports (modulo
`2 ^ 64`), exactly the size of the option for a scalar, and the alignment ceiling stays
a power of two. -/
theorem b_pack_case_shape (H : Host) (opt : Char) (fmt fmt1 : List Char) (h : Header)
    (size : Nat) (args : List LuaValue) (st : PackStep)
    (hs : optsize opt fmt = .ok (size, fmt1))
    (hc : b_pack_case H opt fmt1 h size args = .ok st)
    (ha : ∃ k, h.align = 2 ^ k ∧ k ≤ 30) :
    st.bytes.length % SIZE_MOD = st.size % SIZE_MOD ∧ (∃ k, st.h.align = 2 ^ k ∧ k ≤ 30) ∧
      (is_scalar_opt opt = true → st.bytes.length = size) := by
  unfold b_pack_case at hc
  by_cases hi : is_integer_opt opt = true
  · rw [if_pos hi] at hc
    cases hp : putinteger H args h.endian size with
    | error e => rw [hp] at hc; cases hc
    | ok r =>
      obtain ⟨bytes, rest⟩ := r
      rw [hp] at hc
      cases hc
      have hsh := (putinteger_shape H args h.endian size bytes (by rw [hp]; rfl)).1
      exact ⟨by rw [hsh], ha, fun _ => hsh⟩
  rw [if_neg hi] at hc
  by_cases hx : opt = 'x'
  · rw [if_pos hx] at hc
    cases hc
    subst hx
    have : optsize 'x' fmt = .ok (1, fmt) := rfl
    rw [this] at hs
    cases hs
    exact ⟨rfl, ha, fun hsc => absurd hsc (by decide)⟩
  rw [if_neg hx] at hc
  by_cases hf : opt = 'f'
  · rw [if_pos hf] at hc
    subst hf
    have : optsize 'f' fmt = .ok (sizeof_float, fmt) := rfl
    rw [this] at hs
    cases hs
    cases hn : luaL_checknumber H args with
    | error e => rw [hn] at hc; cases hc
    | ok r =>
      obtain ⟨n, rest⟩ := r
      rw [hn] at hc
      cases hc
      have hl : ((correctbytes H (native_bytes H sizeof_float (H.float_bits n % 2 ^ 32))
          sizeof_float h.endian).take sizeof_float).length = sizeof_float := by
        rw [List.length_take, correctbytes_length, native_bytes_length, Nat.min_self]
      exact ⟨by rw [hl], ha, fun _ => hl⟩
  rw [if_neg hf] at hc
  by_cases hd : opt = 'd'
  · rw [if_pos hd] at hc
    subst hd
    have : optsize 'd' fmt = .ok (sizeof_double, fmt) := rfl
    rw [this] at hs
    cases hs
    cases hn : luaL_checknumber H args with
    | error e => rw [hn] at hc; cases hc
    | ok r =>
      obtain ⟨n, rest⟩ := r
      rw [hn] at hc
      cases hc
      have hl : ((correctbytes H (native_bytes H sizeof_double (H.double_bits n % 2 ^ 64))
          sizeof_double h.endian).take sizeof_double).length = sizeof_double := by
        rw [List.length_take, correctbytes_length, native_bytes_length, Nat.min_self]
      exact ⟨by rw [hl], ha, fun _ => hl⟩
  rw [if_neg hd] at hc
  have hnsc : ¬ is_scalar_opt opt = true := by
    rw [is_scalar_opt_iff]
    rintro (h1 | h1 | h1)
    · exact hi h1
    · exact hf h1
    · exact hd h1
  by_cases hcs : opt = 'c' ∨ opt = 's'
  · rw [if_pos hcs] at hc
    cases hl : luaL_checklstring H args with
    | error e => rw [hl] at hc; cases hc
    | ok r =>
      obtain ⟨s, rest⟩ := r
      rw [hl] at hc
      simp only [] at hc
      by_cases hshort : ¬ (s.length ≥ (if size = 0 then s.length else size))
      · rw [if_pos hshort] at hc
        cases hc
      · rw [if_neg hshort] at hc
        have hle : (if size = 0 then s.length else size) ≤ s.length := by omega
        by_cases hs' : opt = 's'
        · rw [if_pos hs'] at hc
          cases hc
          refine ⟨?_, ha, fun hsc => absurd hsc hnsc⟩
          simp only [List.length_append, List.length_take, List.length_singleton,
            Nat.min_eq_left hle, Nat.mod_mod]
        · rw [if_neg hs'] at hc
          cases hc
          refine ⟨?_, ha, fun hsc => absurd hsc hnsc⟩
          simp only [List.length_take, Nat.min_eq_left hle]
  · rw [if_neg hcs] at hc
    cases hcc : commoncases opt fmt1 h with
    | error e => rw [hcc] at hc; cases hc
    | ok r =>
      obtain ⟨h', fmt'⟩ := r
      rw [hcc] at hc
      cases hc
      have hsz : size = 0 := by
        have key : optsize opt fmt = .ok (0, fmt) := by
          rcases commoncases_opt opt fmt1 fmt' h h' hcc with h1 | h1 | h1 | h1 <;> subst h1 <;>
            rfl
        rw [key] at hs
        cases hs
        rfl
      subst hsz
      exact ⟨rfl, commoncases_align_pow2 opt fmt1 fmt' h h' hcc ha,
        fun hsc => absurd hsc hnsc⟩

/-! ## The recorded layout -/

/-- Forgetting the records of `b_pack_trace` gives `b_pack_loop`. -/
theorem b_pack_trace_erase (H : Host) (fuel : Nat) (fmt : List Char) (h : Header)
    (t : Nat) (b : List Nat) (args : List LuaValue) :
    b_pack_loop H fuel fmt h t b args = Except.map Prod.fst (b_pack_trace H fuel fmt h t b args) := by
  induction fuel generalizing fmt h t b args with
  | zero => cases fmt <;> rfl
  | succ fuel ih =>
    cases fmt with
    | nil => rfl
    | cons opt fmt =>
      simp only [b_pack_loop, b_pack_trace]
      by_cases hn : opt = NUL
      · rw [if_pos hn, if_pos hn]
        rfl
      · rw [if_neg hn, if_neg hn]
        cases optsize opt fmt with
        | error e => rfl
        | ok r =>
          obtain ⟨size, fmt1⟩ := r
          simp only []
          cases b_pack_case H opt fmt1 h size args with
          | error e => rfl
          | ok st =>
            simp only []
            rw [ih]
            cases b_pack_trace H fuel st.fmt st.h
              (((t + gettoalign t h opt size) % SIZE_MOD + st.size) % SIZE_MOD)
              (b ++ List.replicate (gettoalign t h opt size) 0 ++ st.bytes) st.args with
            | error e => rfl
            | ok r => rfl

theorem padding_bytes_zero (b bytes ext : List Nat) (n j : Nat) (h1 : b.length ≤ j)
    (h2 : j < b.length + n) :
    (b ++ List.replicate n 0 ++ bytes ++ ext)[j]? = some 0 := by
  rw [List.append_assoc, List.append_assoc, List.getElem?_append_right h1,
    List.getElem?_append_left (by simp; omega)]
  rw [List.getElem?_replicate, if_pos (by omega)]

/-- Every field recorded by `b_pack_trace` is laid out as `well_aligned` says, in an
output that extends the buffer the scan started from. -/
theorem b_pack_trace_aligned (H : Host) (fuel : Nat) :
    ∀ (fmt : List Char) (h : Header) (t : Nat) (b : List Nat) (args : List LuaValue)
      (out : List Nat) (log : List FieldRecord),
      (∃ k, h.align = 2 ^ k ∧ k ≤ 30) → t = b.length % SIZE_MOD →
      b_pack_trace H fuel fmt h t b args = .ok (out, log) →
      (∃ ext, out = b ++ ext) ∧ ∀ r ∈ log, well_aligned out r ∧ b.length ≤ r.before := by
  induction fuel with
  | zero =>
    intro fmt h t b args out log _ _ htr
    cases fmt with
    | nil =>
      cases htr
      exact ⟨⟨[], by simp⟩, fun r hr => absurd hr (List.not_mem_nil r)⟩
    | cons opt fmt => cases htr
  | succ fuel ih =>
    intro fmt h t b args out log ha ht htr
    cases fmt with
    | nil =>
      cases htr
      exact ⟨⟨[], by simp⟩, fun r hr => absurd hr (List.not_mem_nil r)⟩
    | cons opt fmt =>
      simp only [b_pack_trace] at htr
      by_cases hn : opt = NUL
      · rw [if_pos hn] at htr
        cases htr
        exact ⟨⟨[], by simp⟩, fun r hr => absurd hr (List.not_mem_nil r)⟩
      rw [if_neg hn] at htr
      cases hs : optsize opt fmt with
      | error e => rw [hs] at htr; cases htr
      | ok p =>
        obtain ⟨size, fmt1⟩ := p
        rw [hs] at htr
        simp only [] at htr
        cases hc : b_pack_case H opt fmt1 h size args with
        | error e => rw [hc] at htr; cases htr
        | ok st =>
          rw [hc] at htr
          simp only [] at htr
          obtain ⟨hmod, ha', hexact⟩ := b_pack_case_shape H opt fmt fmt1 h size args st hs hc ha
          have ht' : ((t + gettoalign t h opt size) % SIZE_MOD + st.size) % SIZE_MOD =
              (b ++ List.replicate (gettoalign t h opt size) 0 ++ st.bytes).length % SIZE_MOD := by
            simp only [List.length_append, List.length_replicate]
            rw [ht]
            unfold SIZE_MOD at hmod ⊢
            omega
          cases hrec : b_pack_trace H fuel st.fmt st.h
              (((t + gettoalign t h opt size) % SIZE_MOD + st.size) % SIZE_MOD)
              (b ++ List.replicate (gettoalign t h opt size) 0 ++ st.bytes) st.args with
          | error e => rw [hrec] at htr; cases htr
          | ok q =>
            obtain ⟨out', log'⟩ := q
            rw [hrec] at htr
            simp only [] at htr
            obtain ⟨⟨ext, hext⟩, hlog⟩ := ih _ _ _ _ _ _ _ ha' ht' hrec
            have hout : out' = out := by
              have := congrArg (fun r => match r with
                | Except.ok p => p.1 | Except.error _ => []) htr
              exact this
            subst hout
            have hrest : ∀ r ∈ log', well_aligned out' r ∧ b.length ≤ r.before := by
              intro r hr
              obtain ⟨h1, h2⟩ := hlog r hr
              refine ⟨h1, ?_⟩
              simp only [List.length_append] at h2
              omega
            refine ⟨⟨List.replicate (gettoalign t h opt size) 0 ++ st.bytes ++ ext, by
              rw [hext]; simp [List.append_assoc]⟩, ?_⟩
            by_cases hsc : is_scalar_opt opt = true
            · have hlogeq : log = ⟨opt, size, h.align, b.length, gettoalign t h opt size,
                  b.length + gettoalign t h opt size⟩ :: log' := by
                have := congrArg (fun r => match r with
                  | Except.ok p => p.2 | Except.error _ => []) htr
                simp only [hsc, if_true] at this
                exact this.symm
              subst hlogeq
              intro r hr
              rcases List.mem_cons.mp hr with hr0 | hr'
              · subst hr0
                refine ⟨?_, Nat.le_refl _⟩
                obtain ⟨j, hj, hj30⟩ := optsize_scalar_pow2 opt fmt fmt1 size
                  ((is_scalar_opt_iff opt).mp hsc) hs
                obtain ⟨k, hk, _⟩ := ha
                have hoc : opt ≠ 'c' := by
                  intro h0
                  subst h0
                  exact absurd hsc (by decide)
                have hform := gettoalign_formula b.length h opt size j k hj hk (by omega) hoc
                rw [← ht] at hform
                have hepos : 0 < min size h.align := by
                  rw [hj, hk, min_pow2]
                  positivity
                obtain ⟨hzero, hleast⟩ := padding_least (min size h.align) b.length hepos
                have hlen := hexact hsc
                refine ⟨hform, rfl, ?_, ?_, ?_, ?_⟩
                · show (b.length + gettoalign t h opt size) % min size h.align = 0
                  rw [hform]
                  exact hzero
                · intro i hi
                  exact hleast i (by rw [← hform]; exact hi)
                · intro i hi1 hi2
                  rw [hext]
                  exact padding_bytes_zero b st.bytes ext _ i hi1 hi2
                · show b.length + gettoalign t h opt size + size ≤ out'.length
                  rw [hext]
                  simp only [List.length_append, List.length_replicate, hlen]
                  omega
              · exact hrest r hr'
            · have hlogeq : log = log' := by
                have := congrArg (fun r => match r with
                  | Except.ok p => p.2 | Except.error _ => []) htr
                simp only [hsc, if_false] at this
                exact this.symm
              subst hlogeq
              exact hrest

/-! ## The scans never run out of fuel -/

theorem getnum_loop_length (l : List Char) (a : Nat) (c : Char) :
    (getnum_loop a c l).2.length ≤ l.length := by
  induction l generalizing a c with
  | nil => simp [getnum_loop]
  | cons d ds ih =>
    unfold getnum_loop
    split
    · exact Nat.le_succ_of_le (ih _ _)
    · exact Nat.le_refl _

theorem getnum_length (fmt : List Char) (df : Nat) : (getnum fmt df).2.length ≤ fmt.length := by
  cases fmt with
  | nil => simp [getnum]
  | cons c cs =>
    by_cases hd : c.isDigit = true
    · simp only [getnum, hd, Bool.not_true, Bool.false_eq_true, if_false, List.length_cons]
      exact Nat.le_succ_of_le (getnum_loop_length cs 0 c)
    · simp [getnum, hd]

/-- The function `optsize` consumes format characters and never reports `Err.fuel`. -/
theorem optsize_spec (opt : Char) (fmt : List Char) :
    (∀ size fmt1, optsize opt fmt = .ok (size, fmt1) → fmt1.length ≤ fmt.length) ∧
      optsize opt fmt ≠ .error .fuel := by
  unfold optsize
  by_cases h1 : opt = 'B' ∨ opt = 'b'
  · rw [if_pos h1]
    exact ⟨fun _ _ h => by cases h; exact Nat.le_refl _, fun h => by cases h⟩
  rw [if_neg h1]
  by_cases h2 : opt = 'H' ∨ opt = 'h'
  · rw [if_pos h2]
    exact ⟨fun _ _ h => by cases h; exact Nat.le_refl _, fun h => by cases h⟩
  rw [if_neg h2]
  by_cases h3 : opt = 'L' ∨ opt = 'l'
  · rw [if_pos h3]
    exact ⟨fun _ _ h => by cases h; exact Nat.le_refl _, fun h => by cases h⟩
  rw [if_neg h3]
  by_cases h4 : opt = 'f'
  · rw [if_pos h4]
    exact ⟨fun _ _ h => by cases h; exact Nat.le_refl _, fun h => by cases h⟩
  rw [if_neg h4]
  by_cases h5 : opt = 'd'
  · rw [if_pos h5]
    exact ⟨fun _ _ h => by cases h; exact Nat.le_refl _, fun h => by cases h⟩
  rw [if_neg h5]
  by_cases h6 : opt = 'x'
  · rw [if_pos h6]
    exact ⟨fun _ _ h => by cases h; exact Nat.le_refl _, fun h => by cases h⟩
  rw [if_neg h6]
  by_cases h7 : opt = 'c'
  · rw [if_pos h7]
    refine ⟨fun size fmt1 h => ?_, fun h => by cases h⟩
    have hlen := getnum_length fmt 1
    have e : getnum fmt 1 = (size, fmt1) := by injection h
    rw [e] at hlen
    exact hlen
  rw [if_neg h7]
  by_cases h8 : opt = 's' ∨ opt = ' ' ∨ opt = '<' ∨ opt = '>' ∨ opt = '!'
  · rw [if_pos h8]
    exact ⟨fun _ _ h => by cases h; exact Nat.le_refl _, fun h => by cases h⟩
  rw [if_neg h8]
  by_cases h9 : opt = 'i' ∨ opt = 'I'
  · rw [if_pos h9]
    by_cases hp : isp2 (toInt32 (getnum fmt sizeof_int).1) = true
    · simp only [hp, Bool.not_true, Bool.false_eq_true, if_false]
      refine ⟨fun size fmt1 h => ?_, fun h => by cases h⟩
      have hlen := getnum_length fmt sizeof_int
      have e : (getnum fmt sizeof_int).2 = fmt1 := by
        injection h with h
        exact congrArg Prod.snd h
      rw [e] at hlen
      exact hlen
    · simp only [hp, Bool.not_false, if_true]
      exact ⟨fun _ _ h => (by cases h), fun h => by cases h⟩
  · rw [if_neg h9]
    exact ⟨fun _ _ h => (by cases h), fun h => by cases h⟩

/-- The function `commoncases` consumes format characters and never reports `Err.fuel`. -/
theorem commoncases_spec (opt : Char) (fmt : List Char) (h : Header) :
    (∀ h' fmt', commoncases opt fmt h = .ok (h', fmt') → fmt'.length ≤ fmt.length) ∧
      commoncases opt fmt h ≠ .error .fuel := by
  unfold commoncases
  by_cases h1 : opt = ' '
  · rw [if_pos h1]
    exact ⟨fun _ _ h => by cases h; exact Nat.le_refl _, fun h => by cases h⟩
  rw [if_neg h1]
  by_cases h2 : opt = '>'
  · rw [if_pos h2]
    exact ⟨fun _ _ h => by cases h; exact Nat.le_refl _, fun h => by cases h⟩
  rw [if_neg h2]
  by_cases h3 : opt = '<'
  · rw [if_pos h3]
    exact ⟨fun _ _ h => by cases h; exact Nat.le_refl _, fun h => by cases h⟩
  rw [if_neg h3]
  by_cases h4 : opt = '!'
  · rw [if_pos h4]
    by_cases hp : isp2 (toInt32 (getnum fmt MAXALIGN).1) = true
    · simp only [hp, Bool.not_true, Bool.false_eq_true, if_false]
      refine ⟨fun h' fmt' hc => ?_, fun hc => by cases hc⟩
      have hlen := getnum_length fmt MAXALIGN
      have e : (getnum fmt MAXALIGN).2 = fmt' := by
        injection hc with hc
        exact congrArg Prod.snd hc
      rw [e] at hlen
      exact hlen
    · simp only [hp, Bool.not_false, if_true]
      exact ⟨fun _ _ h => (by cases h), fun h => by cases h⟩
  · rw [if_neg h4]
    exact ⟨fun _ _ h => (by cases h), fun h => by cases h⟩

theorem luaL_checknumber_ne_fuel (H : Host) (args : List LuaValue) :
    luaL_checknumber H args ≠ .error .fuel := by
  unfold luaL_checknumber
  split
  · intro h; cases h
  · split <;> intro h <;> cases h
  · intro h; cases h

theorem luaL_checklstring_ne_fuel (H : Host) (args : List LuaValue) :
    luaL_checklstring H args ≠ .error .fuel := by
  unfold luaL_checklstring
  split <;> intro h <;> cases h

theorem putinteger_ne_fuel (H : Host) (args : List LuaValue) (e size : Nat) :
    putinteger H args e size ≠ .error .fuel := by
  unfold putinteger
  cases h1 : luaL_checknumber H args with
  | error err =>
    intro h
    cases h
    exact luaL_checknumber_ne_fuel H args h1
  | ok r =>
    obtain ⟨n, rest⟩ := r
    simp only []
    cases h2 : (if lt_LONG_MAX n = true then long_of_number n else ulong_of_number n) with
    | error err =>
      intro h
      cases h
      cases n <;> simp only [lt_LONG_MAX, long_of_number, ulong_of_number] at h2 <;>
        split at h2 <;> (try split at h2) <;> cases h2
    | ok value =>
      simp only []
      cases h3 : putinteger_bytes value e size with
      | error err =>
        intro h
        cases h
        unfold putinteger_bytes at h3
        split at h3
        · cases h3
        · split at h3 <;> cases h3
      | ok bytes => intro h; cases h

theorem b_pack_case_spec (H : Host) (opt : Char) (fmt : List Char) (h : Header) (size : Nat)
    (args : List LuaValue) :
    (∀ st, b_pack_case H opt fmt h size args = .ok st → st.fmt.length ≤ fmt.length) ∧
      b_pack_case H opt fmt h size args ≠ .error .fuel := by
  unfold b_pack_case
  by_cases hi : is_integer_opt opt = true
  · rw [if_pos hi]
    cases hp : putinteger H args h.endian size with
    | error e =>
      refine ⟨fun st hc => (by cases hc), fun hc => ?_⟩
      cases hc
      exact putinteger_ne_fuel H args h.endian size hp
    | ok r => exact ⟨fun st hc => by cases hc; exact Nat.le_refl _, fun hc => by cases hc⟩
  rw [if_neg hi]
  by_cases hx : opt = 'x'
  · rw [if_pos hx]
    exact ⟨fun st hc => by cases hc; exact Nat.le_refl _, fun hc => by cases hc⟩
  rw [if_neg hx]
  by_cases hf : opt = 'f'
  · rw [if_pos hf]
    cases hn : luaL_checknumber H args with
    | error e =>
      refine ⟨fun st hc => (by cases hc), fun hc => ?_⟩
      cases hc
      exact luaL_checknumber_ne_fuel H args hn
    | ok r => exact ⟨fun st hc => by cases hc; exact Nat.le_refl _, fun hc => by cases hc⟩
  rw [if_neg hf]
  by_cases hd : opt = 'd'
  · rw [if_pos hd]
    cases hn : luaL_checknumber H args with
    | error e =>
      refine ⟨fun st hc => (by cases hc), fun hc => ?_⟩
      cases hc
      exact luaL_checknumber_ne_fuel H args hn
    | ok r => exact ⟨fun st hc => by cases hc; exact Nat.le_refl _, fun hc => by cases hc⟩
  rw [if_neg hd]
  by_cases hcs : opt = 'c' ∨ opt = 's'
  · rw [if_pos hcs]
    cases hl : luaL_checklstring H args with
    | error e =>
      refine ⟨fun st hc => (by cases hc), fun hc => ?_⟩
      cases hc
      exact luaL_checklstring_ne_fuel H args hl
    | ok r =>
      obtain ⟨s, rest⟩ := r
      simp only []
      by_cases hshort : ¬ (s.length ≥ (if size = 0 then s.length else size))
      · rw [if_pos hshort]
        exact ⟨fun st hc => (by cases hc), fun hc => by cases hc⟩
      · rw [if_neg hshort]
        by_cases hs' : opt = 's'
        · rw [if_pos hs']
          exact ⟨fun st hc => by cases hc; exact Nat.le_refl _, fun hc => by cases hc⟩
        · rw [if_neg hs']
          exact ⟨fun st hc => by cases hc; exact Nat.le_refl _, fun hc => by cases hc⟩
  · rw [if_neg hcs]
    obtain ⟨hlen, hne⟩ := commoncases_spec opt fmt h
    cases hcc : commoncases opt fmt h with
    | error e =>
      refine ⟨fun st hc => (by cases hc), fun hc => ?_⟩
      cases hc
      exact hne hcc
    | ok r =>
      obtain ⟨h', fmt'⟩ := r
      exact ⟨fun st hc => by cases hc; exact hlen h' fmt' hcc, fun hc => by cases hc⟩

theorem read_bytes_ne_fuel (data : List Nat) (pos n : Nat) :
    read_bytes data pos n ≠ .error .fuel := by
  unfold read_bytes
  split <;> intro h <;> cases h

theorem getinteger_ne_fuel (buff : List Nat) (e : Nat) (sg : Bool) (size : Nat) :
    getinteger buff e sg size ≠ .error .fuel := by
  unfold getinteger
  split
  · intro h; cases h
  · simp only []
    split <;> intro h <;> cases h

theorem ulong_of_number_ne_fuel (n : Int) : ulong_of_number n ≠ .error .fuel := by
  cases n <;> simp only [ulong_of_number]
  · split <;> intro h <;> cases h
  · intro h; cases h

theorem b_unpack_case_spec (H : Host) (opt : Char) (fmt : List Char) (h : Header) (pos : Nat)
    (data : List Nat) (stack : List LuaValue) (size : Nat) :
    (∀ st, b_unpack_case H opt fmt h pos data stack size = .ok st →
        st.fmt.length ≤ fmt.length) ∧
      b_unpack_case H opt fmt h pos data stack size ≠ .error .fuel := by
  unfold b_unpack_case
  by_cases hi : is_integer_opt opt = true
  · rw [if_pos hi]
    cases hr : read_bytes data pos size with
    | error e =>
      refine ⟨fun st hc => (by cases hc), fun hc => ?_⟩
      cases hc
      exact read_bytes_ne_fuel data pos size hr
    | ok buff =>
      simp only []
      cases hg : getinteger buff h.endian opt.isLower size with
      | error e =>
        refine ⟨fun st hc => (by cases hc), fun hc => ?_⟩
        cases hc
        exact getinteger_ne_fuel _ _ _ _ hg
      | ok res => exact ⟨fun st hc => by cases hc; exact Nat.le_refl _, fun hc => by cases hc⟩
  rw [if_neg hi]
  by_cases hx : opt = 'x'
  · rw [if_pos hx]
    exact ⟨fun st hc => by cases hc; exact Nat.le_refl _, fun hc => by cases hc⟩
  rw [if_neg hx]
  by_cases hf : opt = 'f'
  · rw [if_pos hf]
    cases hr : read_bytes data pos size with
    | error e =>
      refine ⟨fun st hc => (by cases hc), fun hc => ?_⟩
      cases hc
      exact read_bytes_ne_fuel data pos size hr
    | ok buff => exact ⟨fun st hc => by cases hc; exact Nat.le_refl _, fun hc => by cases hc⟩
  rw [if_neg hf]
  by_cases hd : opt = 'd'
  · rw [if_pos hd]
    cases hr : read_bytes data pos size with
    | error e =>
      refine ⟨fun st hc => (by cases hc), fun hc => ?_⟩
      cases hc
      exact read_bytes_ne_fuel data pos size hr
    | ok buff => exact ⟨fun st hc => by cases hc; exact Nat.le_refl _, fun hc => by cases hc⟩
  rw [if_neg hd]
  by_cases hc' : opt = 'c'
  · rw [if_pos hc']
    by_cases h0 : size = 0
    · rw [if_pos h0]
      cases hn : lua_tonumber H stack.getLast? with
      | none => exact ⟨fun st hc => (by cases hc), fun hc => by cases hc⟩
      | some n =>
        simp only []
        cases hu : ulong_of_number n with
        | error e =>
          refine ⟨fun st hc => (by cases hc), fun hc => ?_⟩
          cases hc
          exact ulong_of_number_ne_fuel n hu
        | ok size1 =>
          simp only []
          split
          · exact ⟨fun st hc => (by cases hc), fun hc => by cases hc⟩
          · cases hr : read_bytes data pos size1 with
            | error e =>
              refine ⟨fun st hc => (by cases hc), fun hc => ?_⟩
              cases hc
              exact read_bytes_ne_fuel data pos size1 hr
            | ok s =>
              exact ⟨fun st hc => by cases hc; exact Nat.le_refl _, fun hc => by cases hc⟩
    · rw [if_neg h0]
      cases hr : read_bytes data pos size with
      | error e =>
        refine ⟨fun st hc => (by cases hc), fun hc => ?_⟩
        cases hc
        exact read_bytes_ne_fuel data pos size hr
      | ok s => exact ⟨fun st hc => by cases hc; exact Nat.le_refl _, fun hc => by cases hc⟩
  rw [if_neg hc']
  by_cases hs : opt = 's'
  · rw [if_pos hs]
    cases memchr (data.drop pos) with
    | none => exact ⟨fun st hc => (by cases hc), fun hc => by cases hc⟩
    | some k => exact ⟨fun st hc => by cases hc; exact Nat.le_refl _, fun hc => by cases hc⟩
  · rw [if_neg hs]
    obtain ⟨hlen, hne⟩ := commoncases_spec opt fmt h
    cases hcc : commoncases opt fmt h with
    | error e =>
      refine ⟨fun st hc => (by cases hc), fun hc => ?_⟩
      cases hc
      exact hne hcc
    | ok r =>
      obtain ⟨h', fmt'⟩ := r
      exact ⟨fun st hc => by cases hc; exact hlen h' fmt' hcc, fun hc => by cases hc⟩

/-- With fuel for every format character, the pack scan does not run out of fuel. -/
theorem b_pack_loop_fuel (H : Host) (fuel : Nat) :
    ∀ (fmt : List Char) (h : Header) (t : Nat) (b : List Nat) (args : List LuaValue),
      fmt.length ≤ fuel → b_pack_loop H fuel fmt h t b args ≠ .error .fuel := by
  induction fuel with
  | zero =>
    intro fmt h t b args hlen
    cases fmt with
    | nil => intro hc; cases hc
    | cons c cs => simp at hlen
  | succ fuel ih =>
    intro fmt h t b args hlen
    cases fmt with
    | nil => intro hc; cases hc
    | cons opt fmt =>
      rw [List.length_cons] at hlen
      simp only [b_pack_loop]
      split
      · intro hc; cases hc
      · obtain ⟨hol, hone⟩ := optsize_spec opt fmt
        cases hs : optsize opt fmt with
        | error e =>
          intro hc
          cases hc
          exact hone hs
        | ok r =>
          obtain ⟨size, fmt1⟩ := r
          simp only []
          obtain ⟨hcl, hcne⟩ := b_pack_case_spec H opt fmt1 h size args
          cases hc : b_pack_case H opt fmt1 h size args with
          | error e =>
            intro hc'
            cases hc'
            exact hcne hc
          | ok st =>
            simp only []
            have h1 := hol size fmt1 hs
            have h2 := hcl st hc
            exact ih _ _ _ _ _ (by omega)

/-- With fuel for every format character, the unpack scan does not run out of fuel. -/
theorem b_unpack_loop_fuel (H : Host) (fuel : Nat) :
    ∀ (fmt : List Char) (h : Header) (pos : Nat) (data : List Nat) (stack : List LuaValue),
      fmt.length ≤ fuel → b_unpack_loop H fuel fmt h pos data stack ≠ .error .fuel := by
  induction fuel with
  | zero =>
    intro fmt h pos data stack hlen
    cases fmt with
    | nil => intro hc; cases hc
    | cons c cs => simp at hlen
  | succ fuel ih =>
    intro fmt h pos data stack hlen
    cases fmt with
    | nil => intro hc; cases hc
    | cons opt fmt =>
      rw [List.length_cons] at hlen
      simp only [b_unpack_loop]
      split
      · intro hc; cases hc
      · obtain ⟨hol, hone⟩ := optsize_spec opt fmt
        cases hs : optsize opt fmt with
        | error e =>
          intro hc
          cases hc
          exact hone hs
        | ok r =>
          obtain ⟨size, fmt1⟩ := r
          simp only []
          split
          · intro hc; cases hc
          · obtain ⟨hcl, hcne⟩ := b_unpack_case_spec H opt fmt1 h
              ((pos + gettoalign pos h opt size) % SIZE_MOD) data stack size
            cases hc : b_unpack_case H opt fmt1 h
                ((pos + gettoalign pos h opt size) % SIZE_MOD) data stack size with
            | error e =>
              intro hc'
              cases hc'
              exact hcne hc
            | ok st =>
              simp only []
              have h1 := hol size fmt1 hs
              have h2 := hcl st hc
              exact ih _ _ _ _ _ (by omega)

/-- The functions `b_pack` and `b_unpack` are total: neither ever reports `Err.fuel`. -/
theorem b_pack_b_unpack_total (H : Host) (fmt : List Char) (args : List LuaValue)
    (data : List Nat) (init : Int) :
    b_pack H fmt args ≠ .error .fuel ∧ b_unpack H fmt data init ≠ .error .fuel :=
  ⟨b_pack_loop_fuel H fmt.length fmt _ _ _ _ (Nat.le_refl _),
   b_unpack_loop_fuel H fmt.length fmt _ _ _ _ (Nat.le_refl _)⟩

/-! ## Characters that are no option -/

/-- Outside its seventeen options `optsize` raises "invalid format option". -/
theorem optsize_unknown (c : Char) (fmt : List Char)
    (hc : c ∉ ['>', '<', '!', 'x', 'b', 'B', 'h', 'H', 'l', 'L', 'i', 'I', 'c', 's', 'f', 'd',
      ' ']) : optsize c fmt = .error .invalidFormat := by
  simp only [List.mem_cons, List.mem_singleton, List.not_mem_nil, or_false, not_or] at hc
  obtain ⟨h1, h2, h3, h4, h5, h6, h7, h8, h9, h10, h11, h12, h13, h14, h15, h16, h17⟩ := hc
  unfold optsize
  rw [if_neg (by rintro (h | h) <;> contradiction),
    if_neg (by rintro (h | h) <;> contradiction),
    if_neg (by rintro (h | h) <;> contradiction),
    if_neg h15, if_neg h16, if_neg h4, if_neg h13,
    if_neg (by rintro (h | h | h | h | h) <;> contradiction),
    if_neg (by rintro (h | h) <;> contradiction)]

theorem digit_not_option (d : Char) (hd : d.isDigit = true) :
    d ∉ ['>', '<', '!', 'x', 'b', 'B', 'h', 'H', 'l', 'L', 'i', 'I', 'c', 's', 'f', 'd', ' ']
      ∧ d ≠ NUL := by
  constructor
  · intro h
    simp only [List.mem_cons, List.mem_singleton, List.not_mem_nil, or_false] at h
    rcases h with h | h | h | h | h | h | h | h | h | h | h | h | h | h | h | h | h <;>
      subst h <;> exact absurd hd (by decide)
  · intro h
    subst h
    exact absurd hd (by decide)

/-- A pack scan that meets a character that is no option fails. -/
theorem b_pack_loop_unknown (H : Host) (fuel : Nat) (c : Char) (fmt : List Char) (h : Header)
    (t : Nat) (b : List Nat) (args : List LuaValue)
    (hc : c ∉ ['>', '<', '!', 'x', 'b', 'B', 'h', 'H', 'l', 'L', 'i', 'I', 'c', 's', 'f', 'd',
      ' ']) (hn : c ≠ NUL) :
    b_pack_loop H (fuel + 1) (c :: fmt) h t b args = .error .invalidFormat := by
  simp only [b_pack_loop, hn, if_false, optsize_unknown c fmt hc]

/-- An unpack scan that meets a character that is no option fails. -/
theorem b_unpack_loop_unknown (H : Host) (fuel : Nat) (c : Char) (fmt : List Char)
    (h : Header) (pos : Nat) (data : List Nat) (stack : List LuaValue)
    (hc : c ∉ ['>', '<', '!', 'x', 'b', 'B', 'h', 'H', 'l', 'L', 'i', 'I', 'c', 's', 'f', 'd',
      ' ']) (hn : c ≠ NUL) :
    b_unpack_loop H (fuel + 1) (c :: fmt) h pos data stack = .error .invalidFormat := by
  simp only [b_unpack_loop, hn, if_false, optsize_unknown c fmt hc]

/-! ## Truncation of a packed integer -/

theorem le_bytes_length (w u : Nat) : (le_bytes w u).length = w := by
  simp [le_bytes]

theorem le_bytes_value (w u : Nat) : le_value (le_bytes w u) = u % 256 ^ w := by
  unfold le_bytes
  rw [le_value_map_range, digit_sum_div_mod]

theorem byte_of_truncated (x w i : Nat) (hi : i < w) :
    x % 256 ^ w / 256 ^ i % 256 = x / 256 ^ i % 256 := by
  have hsplit : 256 ^ w = 256 ^ i * 256 ^ (w - i) := by
    rw [← pow_add]
    congr 1
    omega
  have hdvd : 256 ∣ 256 ^ (w - i) := dvd_pow_self 256 (by omega)
  rw [hsplit, Nat.mod_mul_right_div_self, Nat.mod_mod_of_dvd _ hdvd]

theorem le_bytes_truncated (x w : Nat) : le_bytes w (x % 256 ^ w) = le_bytes w x := by
  unfold le_bytes
  apply List.map_congr_left
  intro i hi
  exact byte_of_truncated x w i (List.mem_range.mp hi)

/-- The conversion at the head of `putinteger`, for a number in the range of `long` or of
`unsigned long`. -/
theorem convert_number (v : Int) (h1 : -(2 ^ 63) ≤ v) (h2 : v < 2 ^ 64) :
    (if lt_LONG_MAX v = true then long_of_number v else ulong_of_number v) =
      .ok (v % 2 ^ 64).toNat := by
  cases v with
  | ofNat k =>
    have hk : k < 2 ^ 64 := by
      have : (k : Int) < 2 ^ 64 := h2
      omega
    have hval : (Int.ofNat k % 2 ^ 64).toNat = k := by
      have : (Int.ofNat k : Int) = (k : Int) := rfl
      rw [this]
      omega
    rw [hval]
    by_cases hlt : k < 2 ^ 63
    · have : lt_LONG_MAX (Int.ofNat k) = true := by
        simp only [lt_LONG_MAX, round_double_LONG_MAX, decide_eq_true_eq]
        exact hlt
      rw [this, if_pos rfl]
      show (if k < 2 ^ 63 then Except.ok k else Except.error Err.undefined) = _
      rw [if_pos hlt]
    · have : lt_LONG_MAX (Int.ofNat k) = false := by
        simp only [lt_LONG_MAX, round_double_LONG_MAX, decide_eq_false_iff_not]
        exact hlt
      rw [this, if_neg (by simp)]
      show (if k < 2 ^ 64 then Except.ok k else Except.error Err.undefined) = _
      rw [if_pos hk]
  | negSucc k =>
    have hk : k < 2 ^ 63 := by
      rw [Int.negSucc_eq] at h1
      omega
    have hval : (Int.negSucc k % 2 ^ 64).toNat = 2 ^ 64 - (k + 1) := by
      rw [Int.negSucc_eq]
      omega
    rw [hval]
    show (if true = true then (if k < 2 ^ 63 then Except.ok (2 ^ 64 - (k + 1))
      else Except.error Err.undefined) else _) = _
    rw [if_pos rfl, if_pos hk]

theorem truncated_value (v : Int) (w : Nat) (hw : w = 1 ∨ w = 2 ∨ w = 4 ∨ w = 8) :
    (v % 2 ^ 64).toNat % 256 ^ w = (v % 2 ^ (8 * w)).toNat := by
  rcases hw with h | h | h | h <;> subst h <;> norm_num <;> omega

/-- The bytes `putinteger` emits for a number whose `lua_Number` is in range: the
`size`-byte representation of that `lua_Number` modulo `2 ^ (8 size)`, in the selected
order. -/
theorem putinteger_truncates (H : Host) (v : Int) (rest : List LuaValue) (e w : Nat)
    (hw : w = 1 ∨ w = 2 ∨ w = 4 ∨ w = 8) (h1 : -(2 ^ 63) ≤ to_double v)
    (h2 : to_double v < 2 ^ 64) :
    putinteger H (.number v :: rest) e w =
      .ok (if e = LITTLE then le_bytes w (to_double v % 2 ^ (8 * w)).toNat
        else (le_bytes w (to_double v % 2 ^ (8 * w)).toNat).reverse, rest) := by
  have hg : (fun i => ((to_double v % 2 ^ 64).toNat >>> (8 * i)) &&& 0xff) =
      fun i => (to_double v % 2 ^ 64).toNat / 256 ^ i % 256 := funext (byte_of_shift _)
  have hb : putinteger_bytes (to_double v % 2 ^ 64).toNat e w =
      .ok (if e = LITTLE then le_bytes w (to_double v % 2 ^ (8 * w)).toNat
        else (le_bytes w (to_double v % 2 ^ (8 * w)).toNat).reverse) := by
    unfold putinteger_bytes
    rw [if_neg (by unfold sizeof_long; omega), ← truncated_value (to_double v) w hw,
      le_bytes_truncated]
    unfold le_bytes
    by_cases he : e = LITTLE
    · rw [if_pos he, if_pos he, hg]
    · rw [if_neg he, if_neg he, hg, List.map_reverse]
  unfold putinteger
  simp only [luaL_checknumber, convert_number (to_double v) h1 h2, hb]

/-! ## The fixed byte block -/

theorem optsize_c_numeral (ds : List Char) (hds : is_numeral ds) :
    optsize 'c' ds = .ok (numeral_value ds % SIZE_MOD, []) := by
  have h := getnum_numeral ds [] 1 hds (fun d rest hf => by cases hf)
  rw [List.append_nil] at h
  have : optsize 'c' ds = .ok (getnum ds 1) := rfl
  rw [this, h]

theorem b_pack_case_c (H : Host) (fmt : List Char) (h : Header) (size : Nat) (s : List Nat)
    (rest : List LuaValue) :
    b_pack_case H 'c' fmt h size (.str s :: rest) =
      if ¬ (s.length ≥ (if size = 0 then s.length else size)) then .error .stringTooShort
      else .ok ⟨s.take (if size = 0 then s.length else size),
          (if size = 0 then s.length else size), h, fmt, rest⟩ := rfl

theorem b_unpack_case_c (H : Host) (fmt : List Char) (h : Header) (pos : Nat)
    (data : List Nat) (stack : List LuaValue) (size : Nat) (hsz : size ≠ 0) :
    b_unpack_case H 'c' fmt h pos data stack size =
      match read_bytes data pos size with
      | .error e => .error e
      | .ok s => .ok ⟨stack ++ [.str s], size, h, fmt⟩ := by
  have : b_unpack_case H 'c' fmt h pos data stack size =
      if size = 0 then
        match lua_tonumber H stack.getLast? with
        | none => .error .needsPreviousSize
        | some n =>
          match ulong_of_number n with
          | .error e => .error e
          | .ok size1 =>
            if ¬ ((pos + size1) % SIZE_MOD ≤ data.length) then .error .dataTooShort
            else
              match read_bytes data pos size1 with
              | .error e => .error e
              | .ok s => .ok ⟨stack.dropLast ++ [.str s], size1, h, fmt⟩
      else
        match read_bytes data pos size with
        | .error e => .error e
        | .ok s => .ok ⟨stack ++ [.str s], size, h, fmt⟩ := rfl
  rw [this, if_neg hsz]

/-- Packing one byte string under `c` with a size below `2 ^ 64`. -/
theorem b_pack_c (H : Host) (ds : List Char) (n : Nat) (v : List Nat) (hds : is_numeral ds)
    (hn : numeral_value ds = n) (hlt : n < 2 ^ 64) :
    b_pack H ('c' :: ds) [.str v] =
      if v.length < n then .error .stringTooShort
      else .ok (v.take (if n = 0 then v.length else n)) := by
  have hs : optsize 'c' ds = .ok (n, []) := by
    rw [optsize_c_numeral ds hds, hn, mod_SIZE_MOD n hlt]
  have hc := b_pack_case_c H [] (defaultoptions H) n v []
  unfold b_pack
  rw [List.length_cons]
  by_cases hshort : v.length < n
  · rw [if_pos hshort]
    have hne : n ≠ 0 := by omega
    rw [if_neg hne, if_pos (by omega)] at hc
    exact b_pack_loop_fail H ds.length 'c' ds [] _ 0 n [] _ _ (by decide) hs hc
  · rw [if_neg hshort]
    have hge : ¬ ¬ (v.length ≥ (if n = 0 then v.length else n)) := by
      by_cases h0 : n = 0
      · simp [h0]
      · simp [h0]; omega
    rw [if_neg hge] at hc
    rw [b_pack_loop_step H ds.length 'c' ds [] _ 0 n [] _ _ (by decide) hs hc, b_pack_loop_nil,
      gettoalign_c]
    simp

/-- Unpacking exactly `n` bytes under `c` with the size `n`, `0 < n`. -/
theorem b_unpack_c (H : Host) (ds : List Char) (n : Nat) (data : List Nat)
    (hds : is_numeral ds) (hn : numeral_value ds = n) (hpos : 0 < n)
    (hlen : data.length = n) (hmax : n < MAX_SIZE) :
    b_unpack H ('c' :: ds) data 1 = .ok [.str data, .number (n + 1)] := by
  unfold MAX_SIZE at hmax
  have h0 : (((1 : Int) - 1) % 2 ^ 64).toNat = 0 := by decide
  have hs : optsize 'c' ds = .ok (n, []) := by
    rw [optsize_c_numeral ds hds, hn, mod_SIZE_MOD n (by omega)]
  have hr : read_bytes data 0 n = .ok data := hlen ▸ read_bytes_all data
  unfold b_unpack
  rw [h0, List.length_cons]
  rw [b_unpack_loop_step H ds.length 'c' ds [] _ 0 n data _
    ⟨[.str (('c' :: ds).map Char.toNat), .str data, .str data], n, defaultoptions H, []⟩
    (by decide) hs
    (by rw [gettoalign_c]; simp only [Nat.add_zero, Nat.zero_mod, Nat.zero_add]
        rw [mod_SIZE_MOD n (by omega)]; omega)
    (by rw [gettoalign_c, b_unpack_case_c H [] _ _ data _ n (by omega)]
        simp only [Nat.add_zero, Nat.zero_mod, hr]
        rfl)]
  rw [b_unpack_loop_nil, gettoalign_c]
  simp only [Nat.add_zero, Nat.zero_mod, Nat.zero_add, b_unpack_finish]
  rw [mod_SIZE_MOD n (by omega), mod_SIZE_MOD (n + 1) (by omega), toInt64_small (n + 1) (by omega)]
  simp

/-! ## The byte reversal of `correctbytes` -/

theorem getD_set_eq (l : List Nat) (n m a : Nat) :
    (l.set n a).getD m 0 = if m = n ∧ n < l.length then a else l.getD m 0 := by
  rw [List.getD_eq_getElem?_getD, List.getD_eq_getElem?_getD, List.getElem?_set]
  by_cases h : n = m
  · subst h
    by_cases hl : n < l.length
    · simp [hl]
    · simp [hl]
      rw [List.getElem?_eq_none (by omega)]
      rfl
  · have h' : ¬ m = n := fun e => h e.symm
    simp [h, h']

/-- The swap loop of `correctbytes` mirrors the window of indices from `i` up to
`size - 1` and leaves the other bytes alone. -/
theorem correctbytes_loop_getD (fuel : Nat) :
    ∀ (b : List Nat) (i s : Nat), s ≤ b.length → s ≤ i + fuel → ∀ j,
      (correctbytes_loop fuel b (i : Int) (s : Int)).getD j 0 =
        if i ≤ j ∧ j < s then b.getD (i + s - 1 - j) 0 else b.getD j 0 := by
  induction fuel with
  | zero =>
    intro b i s _ hf j
    rw [if_neg (by omega)]
    rfl
  | succ fuel ih =>
    intro b i s hs hf j
    unfold correctbytes_loop
    by_cases hlt : (i : Int) < (s : Int) - 1
    · have hlt' : i + 1 < s := by omega
      rw [if_pos hlt]
      have e1 : ((i : Int)).toNat = i := Int.toNat_ofNat i
      have e2 : ((s : Int) - 1).toNat = s - 1 := by omega
      have e3 : ((i : Int) + 1) = ((i + 1 : Nat) : Int) := by push_cast; rfl
      have e4 : ((s : Int) - 1) = ((s - 1 : Nat) : Int) := by omega
      rw [e1, e2, e3, e4, ih _ (i + 1) (s - 1) (by simp; omega) (by omega) j]
      simp only [getD_set_eq, List.length_set]
      by_cases hj : i + 1 ≤ j ∧ j < s - 1
      · rw [if_pos hj, if_neg (by omega), if_neg (by omega), if_pos (by omega)]
        congr 1
        omega
      · rw [if_neg hj]
        by_cases hj1 : j = s - 1
        · rw [if_pos ⟨hj1, by omega⟩, if_pos (by omega)]
          congr 1
          omega
        · rw [if_neg (by omega)]
          by_cases hj2 : j = i
          · rw [if_pos ⟨hj2, by omega⟩, if_pos (by omega)]
            congr 1
            omega
          · rw [if_neg (by omega), if_neg (by omega)]
    · rw [if_neg hlt]
      by_cases hj : i ≤ j ∧ j < s
      · rw [if_pos hj]
        congr 1
        omega
      · rw [if_neg hj]

/-- The swap loop of `correctbytes`, run over a whole byte run, reverses it. -/
theorem correctbytes_loop_reverse (b : List Nat) :
    correctbytes_loop b.length b 0 (b.length : Int) = b.reverse := by
  apply List.ext_getElem
  · rw [correctbytes_loop_length, List.length_reverse]
  · intro j h1 h2
    rw [correctbytes_loop_length] at h1
    have h := correctbytes_loop_getD b.length b 0 b.length (Nat.le_refl _) (by omega) j
    rw [if_pos ⟨Nat.zero_le _, h1⟩] at h
    rw [List.getD_eq_getElem?_getD, List.getD_eq_getElem?_getD,
      List.getElem?_eq_getElem (by rw [correctbytes_loop_length]; exact h1),
      List.getElem?_eq_getElem (by omega)] at h
    simp only [Option.getD_some] at h
    refine Eq.trans h ?_
    rw [List.getElem_reverse]
    congr 1
    omega

/-- The function `correctbytes` on a byte run of its full length. -/
theorem correctbytes_spec (H : Host) (b : List Nat) (e : Nat) :
    correctbytes H b b.length e = if e = native_endian H then b else b.reverse := by
  unfold correctbytes
  by_cases he : e = native_endian H
  · rw [if_neg (by simp [he]), if_pos he]
  · rw [if_pos he, if_neg he]
    exact correctbytes_loop_reverse b

theorem correctbytes_twice (H : Host) (b : List Nat) (e : Nat) :
    correctbytes H (correctbytes H b b.length e) b.length e = b := by
  have h := correctbytes_spec H (correctbytes H b b.length e) e
  rw [correctbytes_length] at h
  rw [h, correctbytes_spec]
  by_cases he : e = native_endian H
  · rw [if_pos he, if_pos he]
  · rw [if_neg he, if_neg he, List.reverse_reverse]

/-- Pack of one `f` directive with alignment ceiling 1. -/
theorem b_pack_loop_single_float (H : Host) (fuel : Nat) (h : Header) (x : Int)
    (ha : h.align = 1) :
    b_pack_loop H (fuel + 1) ['f'] h 0 [] [.number x] =
      .ok (if h.endian = native_endian H
        then native_bytes H sizeof_float (H.float_bits (to_double x) % 2 ^ 32)
        else (native_bytes H sizeof_float (H.float_bits (to_double x) % 2 ^ 32)).reverse) := by
  have hc : b_pack_case H 'f' [] h sizeof_float [.number x] =
      .ok ⟨(correctbytes H (native_bytes H sizeof_float (H.float_bits (to_double x) % 2 ^ 32)) sizeof_float
        h.endian).take sizeof_float, sizeof_float, h, [], []⟩ := rfl
  rw [b_pack_loop_step H fuel 'f' [] [] h 0 sizeof_float [] [.number x] _ (by decide) rfl hc,
    b_pack_loop_nil, gettoalign_align_one 0 h 'f' sizeof_float ha]
  have hs := correctbytes_spec H (native_bytes H sizeof_float (H.float_bits (to_double x) % 2 ^ 32)) h.endian
  rw [native_bytes_length] at hs
  have hl := correctbytes_length H (native_bytes H sizeof_float (H.float_bits (to_double x) % 2 ^ 32))
    sizeof_float h.endian
  rw [native_bytes_length] at hl
  simp only [List.replicate_zero, List.append_nil, List.nil_append]
  rw [List.take_of_length_le (by omega), hs]

/-- Pack of one `d` directive with alignment ceiling 1. -/
theorem b_pack_loop_single_double (H : Host) (fuel : Nat) (h : Header) (x : Int)
    (ha : h.align = 1) :
    b_pack_loop H (fuel + 1) ['d'] h 0 [] [.number x] =
      .ok (if h.endian = native_endian H
        then native_bytes H sizeof_double (H.double_bits (to_double x) % 2 ^ 64)
        else (native_bytes H sizeof_double (H.double_bits (to_double x) % 2 ^ 64)).reverse) := by
  have hc : b_pack_case H 'd' [] h sizeof_double [.number x] =
      .ok ⟨(correctbytes H (native_bytes H sizeof_double (H.double_bits (to_double x) % 2 ^ 64)) sizeof_double
        h.endian).take sizeof_double, sizeof_double, h, [], []⟩ := rfl
  rw [b_pack_loop_step H fuel 'd' [] [] h 0 sizeof_double [] [.number x] _ (by decide) rfl hc,
    b_pack_loop_nil, gettoalign_align_one 0 h 'd' sizeof_double ha]
  have hs := correctbytes_spec H (native_bytes H sizeof_double (H.double_bits (to_double x) % 2 ^ 64)) h.endian
  rw [native_bytes_length] at hs
  have hl := correctbytes_length H (native_bytes H sizeof_double (H.double_bits (to_double x) % 2 ^ 64))
    sizeof_double h.endian
  rw [native_bytes_length] at hl
  simp only [List.replicate_zero, List.append_nil, List.nil_append]
  rw [List.take_of_length_le (by omega), hs]

theorem native_endian_cases (H : Host) : native_endian H = LITTLE ∨ native_endian H = BIG := by
  unfold native_endian
  cases H.little
  · exact Or.inr rfl
  · exact Or.inl rfl

/-- The bytes of a big-endian `f` or `d` are those of the little-endian one, reversed. -/
theorem b_pack_real_reverse (H : Host) (opt : Char) (hopt : opt = 'f' ∨ opt = 'd') (x : Int) :
    ∃ bs, b_pack H ['<', opt] [.number x] = .ok bs ∧
      b_pack H ['>', opt] [.number x] = .ok bs.reverse := by
  have hl : ∀ fmt, b_pack H ('<' :: fmt) [.number x] =
      b_pack_loop H fmt.length fmt { defaultoptions H with endian := LITTLE } 0 []
        [.number x] := fun fmt =>
    b_pack_loop_little H fmt.length fmt (defaultoptions H) 0 [] [.number x] (by decide)
  have hb : ∀ fmt, b_pack H ('>' :: fmt) [.number x] =
      b_pack_loop H fmt.length fmt { defaultoptions H with endian := BIG } 0 []
        [.number x] := fun fmt =>
    b_pack_loop_big H fmt.length fmt (defaultoptions H) 0 [] [.number x] (by decide)
  rw [hl, hb]
  have hne1 : ¬ BIG = LITTLE := by decide
  have hne2 : ¬ LITTLE = BIG := by decide
  rcases hopt with rfl | rfl
  · rw [show (['f'] : List Char).length = 0 + 1 from rfl,
      b_pack_loop_single_float H 0 _ x rfl, b_pack_loop_single_float H 0 _ x rfl]
    rcases native_endian_cases H with hn | hn
    · refine ⟨_, by rw [if_pos hn.symm], ?_⟩
      rw [if_neg (by rw [hn]; exact hne1)]
    · refine ⟨_, by rw [if_neg (by rw [hn]; exact hne2)], ?_⟩
      rw [if_pos hn.symm, List.reverse_reverse]
  · rw [show (['d'] : List Char).length = 0 + 1 from rfl,
      b_pack_loop_single_double H 0 _ x rfl, b_pack_loop_single_double H 0 _ x rfl]
    rcases native_endian_cases H with hn | hn
    · refine ⟨_, by rw [if_pos hn.symm], ?_⟩
      rw [if_neg (by rw [hn]; exact hne1)]
    · refine ⟨_, by rw [if_neg (by rw [hn]; exact hne2)], ?_⟩
      rw [if_pos hn.symm, List.reverse_reverse]

/-! ## A format followed by more format -/

theorem getnum_loop_append (ds X : List Char) (a : Nat) (c : Char)
    (hX : ∀ d rest, X = d :: rest → d.isDigit = false) :
    getnum_loop a c (ds ++ X) = ((getnum_loop a c ds).1, (getnum_loop a c ds).2 ++ X) := by
  induction ds generalizing a c with
  | nil =>
    cases X with
    | nil => rfl
    | cons d rest =>
      have hd := hX d rest rfl
      simp [getnum_loop, hd]
  | cons d ds ih =>
    by_cases hd : d.isDigit = true
    · simp only [List.cons_append, getnum_loop, hd, if_true]
      exact ih _ _
    · simp [getnum_loop, hd]

/-- The number `getnum` reads does not depend on what follows a character that is no
digit. -/
theorem getnum_append (g X : List Char) (df : Nat)
    (hX : ∀ d rest, X = d :: rest → d.isDigit = false) :
    getnum (g ++ X) df = ((getnum g df).1, (getnum g df).2 ++ X) := by
  cases g with
  | nil =>
    cases X with
    | nil => rfl
    | cons d rest =>
      have hd := hX d rest rfl
      simp [getnum, hd]
  | cons c cs =>
    by_cases hc : c.isDigit = true
    · simp only [List.cons_append, getnum, hc, Bool.not_true, Bool.false_eq_true, if_false]
      exact getnum_loop_append cs X 0 c hX
    · simp [getnum, hc]

theorem optsize_append (opt : Char) (g X : List Char)
    (hX : ∀ d rest, X = d :: rest → d.isDigit = false) :
    optsize opt (g ++ X) = Except.map (fun r => (r.1, r.2 ++ X)) (optsize opt g) := by
  unfold optsize
  rw [getnum_append g X 1 hX, getnum_append g X sizeof_int hX]
  by_cases h1 : opt = 'B' ∨ opt = 'b'
  · rw [if_pos h1, if_pos h1]; rfl
  rw [if_neg h1, if_neg h1]
  by_cases h2 : opt = 'H' ∨ opt = 'h'
  · rw [if_pos h2, if_pos h2]; rfl
  rw [if_neg h2, if_neg h2]
  by_cases h3 : opt = 'L' ∨ opt = 'l'
  · rw [if_pos h3, if_pos h3]; rfl
  rw [if_neg h3, if_neg h3]
  by_cases h4 : opt = 'f'
  · rw [if_pos h4, if_pos h4]; rfl
  rw [if_neg h4, if_neg h4]
  by_cases h5 : opt = 'd'
  · rw [if_pos h5, if_pos h5]; rfl
  rw [if_neg h5, if_neg h5]
  by_cases h6 : opt = 'x'
  · rw [if_pos h6, if_pos h6]; rfl
  rw [if_neg h6, if_neg h6]
  by_cases h7 : opt = 'c'
  · rw [if_pos h7, if_pos h7]; rfl
  rw [if_neg h7, if_neg h7]
  by_cases h8 : opt = 's' ∨ opt = ' ' ∨ opt = '<' ∨ opt = '>' ∨ opt = '!'
  · rw [if_pos h8, if_pos h8]; rfl
  rw [if_neg h8, if_neg h8]
  by_cases h9 : opt = 'i' ∨ opt = 'I'
  · rw [if_pos h9, if_pos h9]
    by_cases hp : isp2 (toInt32 (getnum g sizeof_int).1) = true
    · simp only [hp, Bool.not_true, Bool.false_eq_true, if_false]
      rfl
    · simp only [hp, Bool.not_false, if_true]
      rfl
  · rw [if_neg h9, if_neg h9]
    rfl

theorem commoncases_append (opt : Char) (g X : List Char) (h : Header)
    (hX : ∀ d rest, X = d :: rest → d.isDigit = false) :
    commoncases opt (g ++ X) h = Except.map (fun r => (r.1, r.2 ++ X)) (commoncases opt g h) := by
  unfold commoncases
  rw [getnum_append g X MAXALIGN hX]
  by_cases h1 : opt = ' '
  · rw [if_pos h1, if_pos h1]; rfl
  rw [if_neg h1, if_neg h1]
  by_cases h2 : opt = '>'
  · rw [if_pos h2, if_pos h2]; rfl
  rw [if_neg h2, if_neg h2]
  by_cases h3 : opt = '<'
  · rw [if_pos h3, if_pos h3]; rfl
  rw [if_neg h3, if_neg h3]
  by_cases h4 : opt = '!'
  · rw [if_pos h4, if_pos h4]
    by_cases hp : isp2 (toInt32 (getnum g MAXALIGN).1) = true
    · simp only [hp, Bool.not_true, Bool.false_eq_true, if_false]
      rfl
    · simp only [hp, Bool.not_false, if_true]
      rfl
  · rw [if_neg h4, if_neg h4]
    rfl

/-- The `switch` of `b_pack` hands the format on untouched, but for the number of `!`. -/
theorem b_pack_case_append (H : Host) (opt : Char) (g X : List Char) (h : Header) (size : Nat)
    (args : List LuaValue) (hX : ∀ d rest, X = d :: rest → d.isDigit = false) :
    b_pack_case H opt (g ++ X) h size args =
      Except.map (fun st => ⟨st.bytes, st.size, st.h, st.fmt ++ X, st.args⟩)
        (b_pack_case H opt g h size args) := by
  unfold b_pack_case
  by_cases hi : is_integer_opt opt = true
  · rw [if_pos hi, if_pos hi]
    cases putinteger H args h.endian size <;> rfl
  rw [if_neg hi, if_neg hi]
  by_cases hx : opt = 'x'
  · rw [if_pos hx, if_pos hx]; rfl
  rw [if_neg hx, if_neg hx]
  by_cases hf : opt = 'f'
  · rw [if_pos hf, if_pos hf]
    cases luaL_checknumber H args <;> rfl
  rw [if_neg hf, if_neg hf]
  by_cases hd : opt = 'd'
  · rw [if_pos hd, if_pos hd]
    cases luaL_checknumber H args <;> rfl
  rw [if_neg hd, if_neg hd]
  by_cases hcs : opt = 'c' ∨ opt = 's'
  · rw [if_pos hcs, if_pos hcs]
    cases luaL_checklstring H args with
    | error e => rfl
    | ok r =>
      obtain ⟨s, rest⟩ := r
      simp only []
      by_cases hshort : ¬ (s.length ≥ (if size = 0 then s.length else size))
      · rw [if_pos hshort, if_pos hshort]; rfl
      · rw [if_neg hshort, if_neg hshort]
        by_cases hs' : opt = 's'
        · rw [if_pos hs', if_pos hs']; rfl
        · rw [if_neg hs', if_neg hs']; rfl
  · rw [if_neg hcs, if_neg hcs, commoncases_append opt g X h hX]
    cases commoncases opt g h <;> rfl

/-- The `switch` of `b_unpack` hands the format on untouched, but for the number of `!`. -/
theorem b_unpack_case_append (H : Host) (opt : Char) (g X : List Char) (h : Header) (pos : Nat)
    (data : List Nat) (stack : List LuaValue) (size : Nat)
    (hX : ∀ d rest, X = d :: rest → d.isDigit = false) :
    b_unpack_case H opt (g ++ X) h pos data stack size =
      Except.map (fun st => ⟨st.stack, st.size, st.h, st.fmt ++ X⟩)
        (b_unpack_case H opt g h pos data stack size) := by
  unfold b_unpack_case
  by_cases hi : is_integer_opt opt = true
  · rw [if_pos hi, if_pos hi]
    cases read_bytes data pos size with
    | error e => rfl
    | ok buff =>
      simp only []
      cases getinteger buff h.endian opt.isLower size <;> rfl
  rw [if_neg hi, if_neg hi]
  by_cases hx : opt = 'x'
  · rw [if_pos hx, if_pos hx]; rfl
  rw [if_neg hx, if_neg hx]
  by_cases hf : opt = 'f'
  · rw [if_pos hf, if_pos hf]
    cases read_bytes data pos size <;> rfl
  rw [if_neg hf, if_neg hf]
  by_cases hd : opt = 'd'
  · rw [if_pos hd, if_pos hd]
    cases read_bytes data pos size <;> rfl
  rw [if_neg hd, if_neg hd]
  by_cases hc' : opt = 'c'
  · rw [if_pos hc', if_pos hc']
    by_cases h0 : size = 0
    · rw [if_pos h0, if_pos h0]
      cases lua_tonumber H stack.getLast? with
      | none => rfl
      | some n =>
        simp only []
        cases ulong_of_number n with
        | error e => rfl
        | ok size1 =>
          simp only []
          by_cases hchk : ¬ ((pos + size1) % SIZE_MOD ≤ data.length)
          · rw [if_pos hchk, if_pos hchk]; rfl
          · rw [if_neg hchk, if_neg hchk]
            cases read_bytes data pos size1 <;> rfl
    · rw [if_neg h0, if_neg h0]
      cases read_bytes data pos size <;> rfl
  rw [if_neg hc', if_neg hc']
  by_cases hs : opt = 's'
  · rw [if_pos hs, if_pos hs]
    cases memchr (data.drop pos) <;> rfl
  · rw [if_neg hs, if_neg hs, commoncases_append opt g X h hX]
    cases commoncases opt g h <;> rfl

/-! ## The scans do not depend on spare fuel -/

theorem b_pack_loop_NUL (H : Host) (fuel : Nat) (fmt : List Char) (h : Header) (t : Nat)
    (b : List Nat) (args : List LuaValue) :
    b_pack_loop H (fuel + 1) (NUL :: fmt) h t b args = .ok b := rfl

theorem b_unpack_loop_NUL (H : Host) (fuel : Nat) (fmt : List Char) (h : Header) (pos : Nat)
    (data : List Nat) (stack : List LuaValue) :
    b_unpack_loop H (fuel + 1) (NUL :: fmt) h pos data stack =
      .ok (b_unpack_finish pos stack) := rfl

theorem b_pack_loop_bad (H : Host) (fuel : Nat) (opt : Char) (fmt : List Char) (h : Header)
    (t : Nat) (b : List Nat) (args : List LuaValue) (e : Err) (hopt : opt ≠ NUL)
    (hs : optsize opt fmt = .error e) :
    b_pack_loop H (fuel + 1) (opt :: fmt) h t b args = .error e := by
  simp only [b_pack_loop, hopt, hs, if_false]

theorem b_unpack_loop_bad (H : Host) (fuel : Nat) (opt : Char) (fmt : List Char) (h : Header)
    (pos : Nat) (data : List Nat) (stack : List LuaValue) (e : Err) (hopt : opt ≠ NUL)
    (hs : optsize opt fmt = .error e) :
    b_unpack_loop H (fuel + 1) (opt :: fmt) h pos data stack = .error e := by
  simp only [b_unpack_loop, hopt, hs, if_false]

theorem b_unpack_loop_fail (H : Host) (fuel : Nat) (opt : Char) (fmt fmt1 : List Char)
    (h : Header) (pos size : Nat) (data : List Nat) (stack : List LuaValue) (e : Err)
    (hopt : opt ≠ NUL) (hs : optsize opt fmt = .ok (size, fmt1))
    (hchk : ((pos + gettoalign pos h opt size) % SIZE_MOD + size) % SIZE_MOD ≤ data.length)
    (hcase : b_unpack_case H opt fmt1 h ((pos + gettoalign pos h opt size) % SIZE_MOD)
              data stack size = .error e) :
    b_unpack_loop H (fuel + 1) (opt :: fmt) h pos data stack = .error e := by
  simp only [b_unpack_loop, hopt, hs, hchk, hcase, if_false, not_true_eq_false]

/-- Fuel beyond the length of the format does not change the pack scan. -/
theorem b_pack_loop_fuel_eq (H : Host) (fuel : Nat) :
    ∀ (fuel1 : Nat) (fmt : List Char) (h : Header) (t : Nat) (b : List Nat)
      (args : List LuaValue), fmt.length ≤ fuel → fmt.length ≤ fuel1 →
      b_pack_loop H fuel fmt h t b args = b_pack_loop H fuel1 fmt h t b args := by
  induction fuel with
  | zero =>
    intro fuel1 fmt h t b args h1 h2
    cases fmt with
    | nil => rw [b_pack_loop_nil, b_pack_loop_nil]
    | cons c cs => simp at h1
  | succ fuel ih =>
    intro fuel1 fmt h t b args h1 h2
    cases fmt with
    | nil => rw [b_pack_loop_nil, b_pack_loop_nil]
    | cons opt g =>
      rw [List.length_cons] at h1 h2
      obtain ⟨m, rfl⟩ : ∃ m, fuel1 = m + 1 := ⟨fuel1 - 1, by omega⟩
      by_cases hopt : opt = NUL
      · subst hopt
        rw [b_pack_loop_NUL, b_pack_loop_NUL]
      cases hs : optsize opt g with
      | error e => rw [b_pack_loop_bad H _ opt g h t b args e hopt hs,
          b_pack_loop_bad H _ opt g h t b args e hopt hs]
      | ok r =>
        obtain ⟨size, g1⟩ := r
        have hl1 := (optsize_spec opt g).1 size g1 hs
        cases hc : b_pack_case H opt g1 h size args with
        | error e => rw [b_pack_loop_fail H _ opt g g1 h t size b args e hopt hs hc,
            b_pack_loop_fail H _ opt g g1 h t size b args e hopt hs hc]
        | ok st =>
          have hl2 := (b_pack_case_spec H opt g1 h size args).1 st hc
          rw [b_pack_loop_step H _ opt g g1 h t size b args st hopt hs hc,
            b_pack_loop_step H _ opt g g1 h t size b args st hopt hs hc]
          exact ih m _ _ _ _ _ (by omega) (by omega)

/-- Fuel beyond the length of the format does not change the unpack scan. -/
theorem b_unpack_loop_fuel_eq (H : Host) (fuel : Nat) :
    ∀ (fuel1 : Nat) (fmt : List Char) (h : Header) (pos : Nat) (data : List Nat)
      (stack : List LuaValue), fmt.length ≤ fuel → fmt.length ≤ fuel1 →
      b_unpack_loop H fuel fmt h pos data stack = b_unpack_loop H fuel1 fmt h pos data stack := by
  induction fuel with
  | zero =>
    intro fuel1 fmt h pos data stack h1 h2
    cases fmt with
    | nil => rw [b_unpack_loop_nil, b_unpack_loop_nil]
    | cons c cs => simp at h1
  | succ fuel ih =>
    intro fuel1 fmt h pos data stack h1 h2
    cases fmt with
    | nil => rw [b_unpack_loop_nil, b_unpack_loop_nil]
    | cons opt g =>
      rw [List.length_cons] at h1 h2
      obtain ⟨m, rfl⟩ : ∃ m, fuel1 = m + 1 := ⟨fuel1 - 1, by omega⟩
      by_cases hopt : opt = NUL
      · subst hopt
        rw [b_unpack_loop_NUL, b_unpack_loop_NUL]
      cases hs : optsize opt g with
      | error e => rw [b_unpack_loop_bad H _ opt g h pos data stack e hopt hs,
          b_unpack_loop_bad H _ opt g h pos data stack e hopt hs]
      | ok r =>
        obtain ⟨size, g1⟩ := r
        have hl1 := (optsize_spec opt g).1 size g1 hs
        by_cases hchk : ((pos + gettoalign pos h opt size) % SIZE_MOD + size) % SIZE_MOD ≤
            data.length
        · cases hc : b_unpack_case H opt g1 h ((pos + gettoalign pos h opt size) % SIZE_MOD)
              data stack size with
          | error e => rw [b_unpack_loop_fail H _ opt g g1 h pos size data stack e hopt hs hchk hc,
              b_unpack_loop_fail H _ opt g g1 h pos size data stack e hopt hs hchk hc]
          | ok st =>
            have hl2 := (b_unpack_case_spec H opt g1 h _ data stack size).1 st hc
            rw [b_unpack_loop_step H _ opt g g1 h pos size data stack st hopt hs hchk hc,
              b_unpack_loop_step H _ opt g g1 h pos size data stack st hopt hs hchk hc]
            exact ih m _ _ _ _ _ (by omega) (by omega)
        · rw [b_unpack_loop_short H _ opt g g1 h pos size data stack hopt hs hchk,
            b_unpack_loop_short H _ opt g g1 h pos size data stack hopt hs hchk]

/-! ## Scanning a format in front of two continuations -/

theorem optsize_append_ok (opt : Char) (g g1 X : List Char) (size : Nat)
    (hX : ∀ d rest, X = d :: rest → d.isDigit = false)
    (hs : optsize opt g = .ok (size, g1)) : optsize opt (g ++ X) = .ok (size, g1 ++ X) := by
  rw [optsize_append opt g X hX, hs]
  rfl

theorem optsize_append_error (opt : Char) (g X : List Char) (e : Err)
    (hX : ∀ d rest, X = d :: rest → d.isDigit = false)
    (hs : optsize opt g = .error e) : optsize opt (g ++ X) = .error e := by
  rw [optsize_append opt g X hX, hs]
  rfl

theorem b_pack_case_append_ok (H : Host) (opt : Char) (g X : List Char) (h : Header)
    (size : Nat) (args : List LuaValue) (st : PackStep)
    (hX : ∀ d rest, X = d :: rest → d.isDigit = false)
    (hc : b_pack_case H opt g h size args = .ok st) :
    b_pack_case H opt (g ++ X) h size args =
      .ok ⟨st.bytes, st.size, st.h, st.fmt ++ X, st.args⟩ := by
  rw [b_pack_case_append H opt g X h size args hX, hc]
  rfl

theorem b_pack_case_append_error (H : Host) (opt : Char) (g X : List Char) (h : Header)
    (size : Nat) (args : List LuaValue) (e : Err)
    (hX : ∀ d rest, X = d :: rest → d.isDigit = false)
    (hc : b_pack_case H opt g h size args = .error e) :
    b_pack_case H opt (g ++ X) h size args = .error e := by
  rw [b_pack_case_append H opt g X h size args hX, hc]
  rfl

theorem b_unpack_case_append_ok (H : Host) (opt : Char) (g X : List Char) (h : Header)
    (pos : Nat) (data : List Nat) (stack : List LuaValue) (size : Nat) (st : UnpackStep)
    (hX : ∀ d rest, X = d :: rest → d.isDigit = false)
    (hc : b_unpack_case H opt g h pos data stack size = .ok st) :
    b_unpack_case H opt (g ++ X) h pos data stack size =
      .ok ⟨st.stack, st.size, st.h, st.fmt ++ X⟩ := by
  rw [b_unpack_case_append H opt g X h pos data stack size hX, hc]
  rfl

theorem b_unpack_case_append_error (H : Host) (opt : Char) (g X : List Char) (h : Header)
    (pos : Nat) (data : List Nat) (stack : List LuaValue) (size : Nat) (e : Err)
    (hX : ∀ d rest, X = d :: rest → d.isDigit = false)
    (hc : b_unpack_case H opt g h pos data stack size = .error e) :
    b_unpack_case H opt (g ++ X) h pos data stack size = .error e := by
  rw [b_unpack_case_append H opt g X h pos data stack size hX, hc]
  rfl

/-- Two continuations on which the pack scan agrees can be exchanged behind any format. -/
theorem b_pack_loop_context (H : Host) (X Y : List Char)
    (hX : ∀ d rest, X = d :: rest → d.isDigit = false)
    (hY : ∀ d rest, Y = d :: rest → d.isDigit = false)
    (hXY : ∀ (h : Header) (t : Nat) (b : List Nat) (args : List LuaValue), t < SIZE_MOD →
      b_pack_loop H X.length X h t b args = b_pack_loop H Y.length Y h t b args) (n : Nat) :
    ∀ (f1 : List Char) (h : Header) (t : Nat) (b : List Nat) (args : List LuaValue),
      f1.length ≤ n → t < SIZE_MOD →
      b_pack_loop H (f1 ++ X).length (f1 ++ X) h t b args =
        b_pack_loop H (f1 ++ Y).length (f1 ++ Y) h t b args := by
  induction n with
  | zero =>
    intro f1 h t b args hl ht
    have : f1 = [] := List.length_eq_zero.mp (Nat.le_zero.mp hl)
    subst this
    exact hXY h t b args ht
  | succ n ih =>
    intro f1 h t b args hl ht
    cases f1 with
    | nil => exact hXY h t b args ht
    | cons opt g =>
      rw [List.length_cons] at hl
      rw [List.cons_append, List.cons_append, List.length_cons, List.length_cons]
      by_cases hopt : opt = NUL
      · subst hopt
        rw [b_pack_loop_NUL, b_pack_loop_NUL]
      cases hs : optsize opt g with
      | error e =>
        rw [b_pack_loop_bad H _ opt _ h t b args e hopt (optsize_append_error opt g X e hX hs),
          b_pack_loop_bad H _ opt _ h t b args e hopt (optsize_append_error opt g Y e hY hs)]
      | ok r =>
        obtain ⟨size, g1⟩ := r
        have hl1 := (optsize_spec opt g).1 size g1 hs
        cases hc : b_pack_case H opt g1 h size args with
        | error e =>
          rw [b_pack_loop_fail H _ opt _ _ h t size b args e hopt
              (optsize_append_ok opt g g1 X size hX hs)
              (b_pack_case_append_error H opt g1 X h size args e hX hc),
            b_pack_loop_fail H _ opt _ _ h t size b args e hopt
              (optsize_append_ok opt g g1 Y size hY hs)
              (b_pack_case_append_error H opt g1 Y h size args e hY hc)]
        | ok st =>
          have hl2 := (b_pack_case_spec H opt g1 h size args).1 st hc
          rw [b_pack_loop_step H _ opt _ _ h t size b args _ hopt
              (optsize_append_ok opt g g1 X size hX hs)
              (b_pack_case_append_ok H opt g1 X h size args st hX hc),
            b_pack_loop_step H _ opt _ _ h t size b args _ hopt
              (optsize_append_ok opt g g1 Y size hY hs)
              (b_pack_case_append_ok H opt g1 Y h size args st hY hc)]
          simp only []
          rw [b_pack_loop_fuel_eq H (g ++ X).length (st.fmt ++ X).length _ _ _ _ _
              (by simp only [List.length_append]; omega) (Nat.le_refl _),
            b_pack_loop_fuel_eq H (g ++ Y).length (st.fmt ++ Y).length _ _ _ _ _
              (by simp only [List.length_append]; omega) (Nat.le_refl _)]
          exact ih st.fmt _ _ _ _ (by omega) (Nat.mod_lt _ (by decide))

theorem memchr_lt (l : List Nat) (k : Nat) (h : memchr l = some k) : k < l.length := by
  induction l generalizing k with
  | nil => cases h
  | cons b bs ih =>
    unfold memchr at h
    by_cases hb : b = 0
    · rw [if_pos hb] at h
      cases h
      simp
    · rw [if_neg hb] at h
      cases hm : memchr bs with
      | none => rw [hm] at h; cases h
      | some j =>
        rw [hm] at h
        cases h
        have := ih j hm
        simp only [List.length_cons]
        omega

/-- After a directive that passed the bounds check the cursor is inside the data. -/
theorem b_unpack_case_pos (H : Host) (opt : Char) (fmt : List Char) (h : Header) (p : Nat)
    (data : List Nat) (stack : List LuaValue) (size : Nat) (st : UnpackStep)
    (hchk : (p + size) % SIZE_MOD ≤ data.length)
    (hc : b_unpack_case H opt fmt h p data stack size = .ok st) :
    (p + st.size) % SIZE_MOD ≤ data.length := by
  unfold b_unpack_case at hc
  by_cases hi : is_integer_opt opt = true
  · rw [if_pos hi] at hc
    cases hr : read_bytes data p size with
    | error e => rw [hr] at hc; cases hc
    | ok buff =>
      rw [hr] at hc
      simp only [] at hc
      cases hg : getinteger buff h.endian opt.isLower size with
      | error e => rw [hg] at hc; cases hc
      | ok res => rw [hg] at hc; cases hc; exact hchk
  rw [if_neg hi] at hc
  by_cases hx : opt = 'x'
  · rw [if_pos hx] at hc
    cases hc
    exact hchk
  rw [if_neg hx] at hc
  by_cases hf : opt = 'f'
  · rw [if_pos hf] at hc
    cases hr : read_bytes data p size with
    | error e => rw [hr] at hc; cases hc
    | ok buff => rw [hr] at hc; cases hc; exact hchk
  rw [if_neg hf] at hc
  by_cases hd : opt = 'd'
  · rw [if_pos hd] at hc
    cases hr : read_bytes data p size with
    | error e => rw [hr] at hc; cases hc
    | ok buff => rw [hr] at hc; cases hc; exact hchk
  rw [if_neg hd] at hc
  by_cases hc' : opt = 'c'
  · rw [if_pos hc'] at hc
    by_cases h0 : size = 0
    · rw [if_pos h0] at hc
      cases hn : lua_tonumber H stack.getLast? with
      | none => rw [hn] at hc; cases hc
      | some n =>
        rw [hn] at hc
        simp only [] at hc
        cases hu : ulong_of_number n with
        | error e => rw [hu] at hc; cases hc
        | ok size1 =>
          rw [hu] at hc
          simp only [] at hc
          by_cases hk : ¬ ((p + size1) % SIZE_MOD ≤ data.length)
          · rw [if_pos hk] at hc; cases hc
          · rw [if_neg hk] at hc
            cases hr : read_bytes data p size1 with
            | error e => rw [hr] at hc; cases hc
            | ok s => rw [hr] at hc; cases hc; exact not_not.mp hk
    · rw [if_neg h0] at hc
      cases hr : read_bytes data p size with
      | error e => rw [hr] at hc; cases hc
      | ok s => rw [hr] at hc; cases hc; exact hchk
  rw [if_neg hc'] at hc
  by_cases hs : opt = 's'
  · rw [if_pos hs] at hc
    cases hm : memchr (data.drop p) with
    | none => rw [hm] at hc; cases hc
    | some k =>
      rw [hm] at hc
      cases hc
      have hk := memchr_lt _ k hm
      rw [List.length_drop] at hk
      have hle : p + (k + 1) ≤ data.length := by omega
      exact Nat.le_trans (Nat.mod_le _ _) hle
  · rw [if_neg hs] at hc
    cases hcc : commoncases opt fmt h with
    | error e => rw [hcc] at hc; cases hc
    | ok r =>
      obtain ⟨h1, fmt1⟩ := r
      rw [hcc] at hc
      cases hc
      exact hchk

/-- Two continuations on which the unpack scan agrees inside the data can be exchanged
behind any format; behind the empty format the cursor has to lie inside the data. -/
theorem b_unpack_loop_context (H : Host) (X Y : List Char) (data : List Nat)
    (hX : ∀ d rest, X = d :: rest → d.isDigit = false)
    (hY : ∀ d rest, Y = d :: rest → d.isDigit = false)
    (hXY : ∀ (h : Header) (pos : Nat) (stack : List LuaValue), pos < SIZE_MOD →
      pos ≤ data.length →
      b_unpack_loop H X.length X h pos data stack = b_unpack_loop H Y.length Y h pos data stack)
    (n : Nat) :
    ∀ (f1 : List Char) (h : Header) (pos : Nat) (stack : List LuaValue),
      f1.length ≤ n → pos < SIZE_MOD → (f1 ≠ [] ∨ pos ≤ data.length) →
      b_unpack_loop H (f1 ++ X).length (f1 ++ X) h pos data stack =
        b_unpack_loop H (f1 ++ Y).length (f1 ++ Y) h pos data stack := by
  induction n with
  | zero =>
    intro f1 h pos stack hl hp hin
    have : f1 = [] := List.length_eq_zero.mp (Nat.le_zero.mp hl)
    subst this
    rcases hin with hin | hin
    · exact absurd rfl hin
    · exact hXY h pos stack hp hin
  | succ n ih =>
    intro f1 h pos stack hl hp hin
    cases f1 with
    | nil =>
      rcases hin with hin | hin
      · exact absurd rfl hin
      · exact hXY h pos stack hp hin
    | cons opt g =>
      rw [List.length_cons] at hl
      rw [List.cons_append, List.cons_append, List.length_cons, List.length_cons]
      by_cases hopt : opt = NUL
      · subst hopt
        rw [b_unpack_loop_NUL, b_unpack_loop_NUL]
      cases hs : optsize opt g with
      | error e =>
        rw [b_unpack_loop_bad H _ opt _ h pos data stack e hopt
            (optsize_append_error opt g X e hX hs),
          b_unpack_loop_bad H _ opt _ h pos data stack e hopt
            (optsize_append_error opt g Y e hY hs)]
      | ok r =>
        obtain ⟨size, g1⟩ := r
        have hl1 := (optsize_spec opt g).1 size g1 hs
        by_cases hchk : ((pos + gettoalign pos h opt size) % SIZE_MOD + size) % SIZE_MOD ≤
            data.length
        · cases hc : b_unpack_case H opt g1 h ((pos + gettoalign pos h opt size) % SIZE_MOD)
              data stack size with
          | error e =>
            rw [b_unpack_loop_fail H _ opt _ _ h pos size data stack e hopt
                (optsize_append_ok opt g g1 X size hX hs) hchk
                (b_unpack_case_append_error H opt g1 X h _ data stack size e hX hc),
              b_unpack_loop_fail H _ opt _ _ h pos size data stack e hopt
                (optsize_append_ok opt g g1 Y size hY hs) hchk
                (b_unpack_case_append_error H opt g1 Y h _ data stack size e hY hc)]
          | ok st =>
            have hl2 := (b_unpack_case_spec H opt g1 h _ data stack size).1 st hc
            have hpos := b_unpack_case_pos H opt g1 h _ data stack size st hchk hc
            rw [b_unpack_loop_step H _ opt _ _ h pos size data stack _ hopt
                (optsize_append_ok opt g g1 X size hX hs) hchk
                (b_unpack_case_append_ok H opt g1 X h _ data stack size st hX hc),
              b_unpack_loop_step H _ opt _ _ h pos size data stack _ hopt
                (optsize_append_ok opt g g1 Y size hY hs) hchk
                (b_unpack_case_append_ok H opt g1 Y h _ data stack size st hY hc)]
            simp only []
            rw [b_unpack_loop_fuel_eq H (g ++ X).length (st.fmt ++ X).length _ _ _ _ _
                (by simp only [List.length_append]; omega) (Nat.le_refl _),
              b_unpack_loop_fuel_eq H (g ++ Y).length (st.fmt ++ Y).length _ _ _ _ _
                (by simp only [List.length_append]; omega) (Nat.le_refl _)]
            exact ih st.fmt _ _ _ (by omega) (Nat.mod_lt _ (by decide)) (Or.inr hpos)
        · rw [b_unpack_loop_short H _ opt _ _ h pos size data stack hopt
              (optsize_append_ok opt g g1 X size hX hs) hchk,
            b_unpack_loop_short H _ opt _ _ h pos size data stack hopt
              (optsize_append_ok opt g g1 Y size hY hs) hchk]

/-! ## The format argument under the values of an unpack -/

/-- The `switch` of `b_unpack` never looks below the top of a stack of two or more. -/
theorem b_unpack_case_bottom (H : Host) (opt : Char) (fmt : List Char) (h : Header) (pos : Nat)
    (data : List Nat) (a x : LuaValue) (s : List LuaValue) (size : Nat) :
    b_unpack_case H opt fmt h pos data (a :: x :: s) size =
        Except.map (fun st => ⟨a :: st.stack, st.size, st.h, st.fmt⟩)
          (b_unpack_case H opt fmt h pos data (x :: s) size) ∧
      ∀ st, b_unpack_case H opt fmt h pos data (x :: s) size = .ok st → st.stack ≠ [] := by
  have hlast : (a :: x :: s).getLast? = (x :: s).getLast? := List.getLast?_cons_cons
  unfold b_unpack_case
  by_cases hi : is_integer_opt opt = true
  · rw [if_pos hi, if_pos hi]
    cases read_bytes data pos size with
    | error e => exact ⟨rfl, fun st hc => by cases hc⟩
    | ok buff =>
      simp only []
      cases getinteger buff h.endian opt.isLower size with
      | error e => exact ⟨rfl, fun st hc => by cases hc⟩
      | ok res => exact ⟨rfl, fun st hc => by cases hc; simp⟩
  rw [if_neg hi, if_neg hi]
  by_cases hx : opt = 'x'
  · rw [if_pos hx, if_pos hx]
    exact ⟨rfl, fun st hc => by cases hc; simp⟩
  rw [if_neg hx, if_neg hx]
  by_cases hf : opt = 'f'
  · rw [if_pos hf, if_pos hf]
    cases read_bytes data pos size with
    | error e => exact ⟨rfl, fun st hc => by cases hc⟩
    | ok buff => exact ⟨rfl, fun st hc => by cases hc; simp⟩
  rw [if_neg hf, if_neg hf]
  by_cases hd : opt = 'd'
  · rw [if_pos hd, if_pos hd]
    cases read_bytes data pos size with
    | error e => exact ⟨rfl, fun st hc => by cases hc⟩
    | ok buff => exact ⟨rfl, fun st hc => by cases hc; simp⟩
  rw [if_neg hd, if_neg hd]
  by_cases hc' : opt = 'c'
  · rw [if_pos hc', if_pos hc']
    by_cases h0 : size = 0
    · rw [if_pos h0, if_pos h0, hlast]
      cases lua_tonumber H (x :: s).getLast? with
      | none => exact ⟨rfl, fun st hc => by cases hc⟩
      | some n =>
        simp only []
        cases ulong_of_number n with
        | error e => exact ⟨rfl, fun st hc => by cases hc⟩
        | ok size1 =>
          simp only []
          by_cases hchk : ¬ ((pos + size1) % SIZE_MOD ≤ data.length)
          · rw [if_pos hchk, if_pos hchk]
            exact ⟨rfl, fun st hc => by cases hc⟩
          · rw [if_neg hchk, if_neg hchk]
            cases read_bytes data pos size1 with
            | error e => exact ⟨rfl, fun st hc => by cases hc⟩
            | ok r => exact ⟨rfl, fun st hc => by cases hc; simp⟩
    · rw [if_neg h0, if_neg h0]
      cases read_bytes data pos size with
      | error e => exact ⟨rfl, fun st hc => by cases hc⟩
      | ok r => exact ⟨rfl, fun st hc => by cases hc; simp⟩
  rw [if_neg hc', if_neg hc']
  by_cases hs : opt = 's'
  · rw [if_pos hs, if_pos hs]
    cases memchr (data.drop pos) with
    | none => exact ⟨rfl, fun st hc => by cases hc⟩
    | some k => exact ⟨rfl, fun st hc => by cases hc; simp⟩
  · rw [if_neg hs, if_neg hs]
    cases commoncases opt fmt h with
    | error e => exact ⟨rfl, fun st hc => by cases hc⟩
    | ok r => exact ⟨rfl, fun st hc => by cases hc; simp⟩

/-- The results of an unpack scan do not depend on the lowest entry of a stack of two or
more: it is the format argument, which is not returned. -/
theorem b_unpack_loop_bottom (H : Host) (data : List Nat) (a b : LuaValue) (fuel : Nat) :
    ∀ (fmt : List Char) (h : Header) (pos : Nat) (x : LuaValue) (s : List LuaValue),
      b_unpack_loop H fuel fmt h pos data (a :: x :: s) =
        b_unpack_loop H fuel fmt h pos data (b :: x :: s) := by
  induction fuel with
  | zero =>
    intro fmt h pos x s
    cases fmt <;> rfl
  | succ fuel ih =>
    intro fmt h pos x s
    cases fmt with
    | nil => rfl
    | cons opt g =>
      by_cases hopt : opt = NUL
      · subst hopt
        rw [b_unpack_loop_NUL, b_unpack_loop_NUL]
        rfl
      cases hs : optsize opt g with
      | error e =>
        rw [b_unpack_loop_bad H _ opt g h pos data _ e hopt hs,
          b_unpack_loop_bad H _ opt g h pos data _ e hopt hs]
      | ok r =>
        obtain ⟨size, g1⟩ := r
        by_cases hchk : ((pos + gettoalign pos h opt size) % SIZE_MOD + size) % SIZE_MOD ≤
            data.length
        · obtain ⟨ha, hne⟩ := b_unpack_case_bottom H opt g1 h
            ((pos + gettoalign pos h opt size) % SIZE_MOD) data a x s size
          obtain ⟨hb, _⟩ := b_unpack_case_bottom H opt g1 h
            ((pos + gettoalign pos h opt size) % SIZE_MOD) data b x s size
          cases hc : b_unpack_case H opt g1 h ((pos + gettoalign pos h opt size) % SIZE_MOD)
              data (x :: s) size with
          | error e =>
            rw [hc] at ha hb
            rw [b_unpack_loop_fail H _ opt g g1 h pos size data _ e hopt hs hchk ha,
              b_unpack_loop_fail H _ opt g g1 h pos size data _ e hopt hs hchk hb]
          | ok st =>
            rw [hc] at ha hb
            rw [b_unpack_loop_step H _ opt g g1 h pos size data _ _ hopt hs hchk ha,
              b_unpack_loop_step H _ opt g g1 h pos size data _ _ hopt hs hchk hb]
            obtain ⟨y, s1, hst⟩ := List.exists_cons_of_ne_nil (hne st hc)
            simp only [hst]
            exact ih _ _ _ y s1
        · rw [b_unpack_loop_short H _ opt g g1 h pos size data _ hopt hs hchk,
            b_unpack_loop_short H _ opt g g1 h pos size data _ hopt hs hchk]

/-! ## The space directive -/

theorem space_not_digit (f2 : List Char) :
    ∀ d rest, ' ' :: f2 = d :: rest → d.isDigit = false := by
  intro d rest h
  cases h
  decide

/-- Pack scan over a space: nothing changes. -/
theorem b_pack_loop_space (H : Host) (fuel : Nat) (fmt : List Char) (h : Header)
    (totalsize : Nat) (b : List Nat) (args : List LuaValue) (hlt : totalsize < 2 ^ 64) :
    b_pack_loop H (fuel + 1) (' ' :: fmt) h totalsize b args =
      b_pack_loop H fuel fmt h totalsize b args := by
  have hc : b_pack_case H ' ' fmt h 0 args = .ok ⟨[], 0, h, fmt, args⟩ := rfl
  rw [b_pack_loop_step H fuel ' ' fmt fmt h totalsize 0 b args _ (by decide) rfl hc]
  simp [gettoalign_size_zero, mod_SIZE_MOD totalsize hlt]

/-- Unpack scan over a space with the cursor inside the data: nothing changes. -/
theorem b_unpack_loop_space (H : Host) (fuel : Nat) (fmt : List Char) (h : Header) (pos : Nat)
    (data : List Nat) (stack : List LuaValue) (hpos : pos ≤ data.length)
    (hlt : pos < 2 ^ 64) :
    b_unpack_loop H (fuel + 1) (' ' :: fmt) h pos data stack =
      b_unpack_loop H fuel fmt h pos data stack := by
  have hc : b_unpack_case H ' ' fmt h ((pos + gettoalign pos h ' ' 0) % SIZE_MOD) data stack 0 =
      .ok ⟨stack, 0, h, fmt⟩ := rfl
  rw [b_unpack_loop_step H fuel ' ' fmt fmt h pos 0 data stack _ (by decide) rfl
    (by simp [gettoalign_size_zero, mod_SIZE_MOD pos hlt, hpos]) hc]
  simp [gettoalign_size_zero, mod_SIZE_MOD pos hlt]

/-- A space in a format leaves the pack scan of what surrounds it unchanged. -/
theorem b_pack_space (H : Host) (f1 f2 : List Char) (args : List LuaValue)
    (hf2 : ∀ d rest, f2 = d :: rest → d.isDigit = false) :
    b_pack H (f1 ++ ' ' :: f2) args = b_pack H (f1 ++ f2) args :=
  b_pack_loop_context H (' ' :: f2) f2 (space_not_digit f2) hf2
    (fun h t b args ht => b_pack_loop_space H f2.length f2 h t b args ht)
    f1.length f1 (defaultoptions H) 0 [] args (Nat.le_refl _) (by decide)

/-- A space in a format leaves the unpack scan of what surrounds it unchanged when it is
not the first character or the scan starts inside the data. -/
theorem b_unpack_space (H : Host) (f1 f2 : List Char) (data : List Nat) (init : Int)
    (hf2 : ∀ d rest, f2 = d :: rest → d.isDigit = false)
    (hin : f1 ≠ [] ∨ ((init - 1) % 2 ^ 64).toNat ≤ data.length) :
    b_unpack H (f1 ++ ' ' :: f2) data init = b_unpack H (f1 ++ f2) data init := by
  have hp : ((init - 1) % 2 ^ 64).toNat < SIZE_MOD := by
    have h1 : (init - 1) % 2 ^ 64 < 2 ^ 64 := Int.emod_lt_of_pos _ (by norm_num)
    have h2 : 0 ≤ (init - 1) % 2 ^ 64 := Int.emod_nonneg _ (by norm_num)
    have h3 : SIZE_MOD = 2 ^ 64 := rfl
    omega
  unfold b_unpack
  rw [b_unpack_loop_bottom H data (.str ((f1 ++ ' ' :: f2).map Char.toNat))
    (.str ((f1 ++ f2).map Char.toNat))]
  exact b_unpack_loop_context H (' ' :: f2) f2 data (space_not_digit f2) hf2
    (fun h pos stack hlt hle => b_unpack_loop_space H f2.length f2 h pos data stack hle hlt)
    f1.length f1 (defaultoptions H) _ _ (Nat.le_refl _) hp hin

/-! ## What a directive leaves of the format and of the arguments -/

theorem getnum_loop_suffix (l : List Char) (a : Nat) (c : Char) :
    (getnum_loop a c l).2 <:+ l := by
  induction l generalizing a c with
  | nil => exact List.suffix_refl _
  | cons d ds ih =>
    unfold getnum_loop
    split
    · exact List.IsSuffix.trans (ih _ _) (List.suffix_cons d ds)
    · exact List.suffix_refl _

theorem getnum_suffix (fmt : List Char) (df : Nat) : (getnum fmt df).2 <:+ fmt := by
  cases fmt with
  | nil => exact List.suffix_refl _
  | cons c cs =>
    by_cases hd : c.isDigit = true
    · simp only [getnum, hd, Bool.not_true, Bool.false_eq_true, if_false]
      exact List.IsSuffix.trans (getnum_loop_suffix cs 0 c) (List.suffix_cons c cs)
    · simp only [getnum, hd, Bool.not_false, if_true]
      exact List.suffix_refl _

/-- What `optsize` leaves of the format is its end. -/
theorem optsize_suffix (opt : Char) (fmt fmt1 : List Char) (size : Nat)
    (hs : optsize opt fmt = .ok (size, fmt1)) : fmt1 <:+ fmt := by
  unfold optsize at hs
  by_cases h1 : opt = 'B' ∨ opt = 'b'
  · rw [if_pos h1] at hs; cases hs; exact List.suffix_refl _
  rw [if_neg h1] at hs
  by_cases h2 : opt = 'H' ∨ opt = 'h'
  · rw [if_pos h2] at hs; cases hs; exact List.suffix_refl _
  rw [if_neg h2] at hs
  by_cases h3 : opt = 'L' ∨ opt = 'l'
  · rw [if_pos h3] at hs; cases hs; exact List.suffix_refl _
  rw [if_neg h3] at hs
  by_cases h4 : opt = 'f'
  · rw [if_pos h4] at hs; cases hs; exact List.suffix_refl _
  rw [if_neg h4] at hs
  by_cases h5 : opt = 'd'
  · rw [if_pos h5] at hs; cases hs; exact List.suffix_refl _
  rw [if_neg h5] at hs
  by_cases h6 : opt = 'x'
  · rw [if_pos h6] at hs; cases hs; exact List.suffix_refl _
  rw [if_neg h6] at hs
  by_cases h7 : opt = 'c'
  · rw [if_pos h7] at hs
    have hsuf := getnum_suffix fmt 1
    have e : getnum fmt 1 = (size, fmt1) := by injection hs
    rw [e] at hsuf
    exact hsuf
  rw [if_neg h7] at hs
  by_cases h8 : opt = 's' ∨ opt = ' ' ∨ opt = '<' ∨ opt = '>' ∨ opt = '!'
  · rw [if_pos h8] at hs; cases hs; exact List.suffix_refl _
  rw [if_neg h8] at hs
  by_cases h9 : opt = 'i' ∨ opt = 'I'
  · rw [if_pos h9] at hs
    by_cases hp : isp2 (toInt32 (getnum fmt sizeof_int).1) = true
    · simp only [hp, Bool.not_true, Bool.false_eq_true, if_false] at hs
      have hsuf := getnum_suffix fmt sizeof_int
      have e : (getnum fmt sizeof_int).2 = fmt1 := by
        injection hs with hs
        exact congrArg Prod.snd hs
      rw [e] at hsuf
      exact hsuf
    · simp only [hp, Bool.not_false, if_true] at hs
      cases hs
  · rw [if_neg h9] at hs
    cases hs

/-- What `commoncases` leaves of the format is its end; only `!` changes the ceiling. -/
theorem commoncases_suffix (opt : Char) (fmt fmt1 : List Char) (h h1 : Header)
    (hc : commoncases opt fmt h = .ok (h1, fmt1)) :
    fmt1 <:+ fmt ∧ (opt ≠ '!' → h1.align = h.align) := by
  unfold commoncases at hc
  by_cases c1 : opt = ' '
  · rw [if_pos c1] at hc; cases hc; exact ⟨List.suffix_refl _, fun _ => rfl⟩
  rw [if_neg c1] at hc
  by_cases c2 : opt = '>'
  · rw [if_pos c2] at hc; cases hc; exact ⟨List.suffix_refl _, fun _ => rfl⟩
  rw [if_neg c2] at hc
  by_cases c3 : opt = '<'
  · rw [if_pos c3] at hc; cases hc; exact ⟨List.suffix_refl _, fun _ => rfl⟩
  rw [if_neg c3] at hc
  by_cases c4 : opt = '!'
  · rw [if_pos c4] at hc
    by_cases hp : isp2 (toInt32 (getnum fmt MAXALIGN).1) = true
    · simp only [hp, Bool.not_true, Bool.false_eq_true, if_false] at hc
      have hsuf := getnum_suffix fmt MAXALIGN
      have e : (getnum fmt MAXALIGN).2 = fmt1 := by
        injection hc with hc
        exact congrArg Prod.snd hc
      rw [e] at hsuf
      exact ⟨hsuf, fun hne => absurd c4 hne⟩
    · simp only [hp, Bool.not_false, if_true] at hc
      cases hc
  · rw [if_neg c4] at hc
    cases hc

theorem luaL_checknumber_frame (H : Host) (args rest extra : List LuaValue) (n : Int)
    (hn : luaL_checknumber H args = .ok (n, rest)) :
    luaL_checknumber H (args ++ extra) = .ok (n, rest ++ extra) := by
  cases args with
  | nil => cases hn
  | cons v vs =>
    cases v with
    | nil => cases hn
    | number m =>
      cases hn
      rfl
    | str s =>
      simp only [luaL_checknumber, List.cons_append] at hn ⊢
      cases hv : H.str2number s with
      | none => rw [hv] at hn; cases hn
      | some m =>
        rw [hv] at hn
        cases hn
        rfl

theorem luaL_checklstring_frame (H : Host) (args rest extra : List LuaValue) (s : List Nat)
    (hn : luaL_checklstring H args = .ok (s, rest)) :
    luaL_checklstring H (args ++ extra) = .ok (s, rest ++ extra) := by
  cases args with
  | nil => cases hn
  | cons v vs =>
    cases v with
    | nil => cases hn
    | number m =>
      cases hn
      rfl
    | str s =>
      cases hn
      rfl

theorem putinteger_frame (H : Host) (args rest extra : List LuaValue) (e size : Nat)
    (bytes : List Nat) (hp : putinteger H args e size = .ok (bytes, rest)) :
    putinteger H (args ++ extra) e size = .ok (bytes, rest ++ extra) := by
  unfold putinteger at hp ⊢
  cases hn : luaL_checknumber H args with
  | error err => rw [hn] at hp; cases hp
  | ok r =>
    obtain ⟨n, rest1⟩ := r
    rw [hn] at hp
    rw [luaL_checknumber_frame H args rest1 extra n hn]
    simp only [] at hp ⊢
    cases hv : (if lt_LONG_MAX n = true then long_of_number n else ulong_of_number n) with
    | error err => rw [hv] at hp; cases hp
    | ok value =>
      rw [hv] at hp
      simp only [] at hp ⊢
      cases hb : putinteger_bytes value e size with
      | error err => rw [hb] at hp; cases hp
      | ok bs =>
        rw [hb] at hp
        cases hp
        rfl

/-- One round of the `switch` of `b_pack`: what is left of the format is its end, only `!`
changes the alignment ceiling, and arguments behind the one consumed are handed on. -/
theorem b_pack_case_frame (H : Host) (opt : Char) (g : List Char) (h : Header) (size : Nat)
    (args extra : List LuaValue) (st : PackStep)
    (hc : b_pack_case H opt g h size args = .ok st) :
    st.fmt <:+ g ∧ (opt ≠ '!' → st.h.align = h.align) ∧
      b_pack_case H opt g h size (args ++ extra) =
        .ok ⟨st.bytes, st.size, st.h, st.fmt, st.args ++ extra⟩ := by
  unfold b_pack_case at hc ⊢
  by_cases hi : is_integer_opt opt = true
  · rw [if_pos hi] at hc ⊢
    cases hp : putinteger H args h.endian size with
    | error e => rw [hp] at hc; cases hc
    | ok r =>
      obtain ⟨bytes, rest⟩ := r
      rw [hp] at hc
      rw [putinteger_frame H args rest extra h.endian size bytes hp]
      cases hc
      exact ⟨List.suffix_refl _, fun _ => rfl, rfl⟩
  rw [if_neg hi] at hc ⊢
  by_cases hx : opt = 'x'
  · rw [if_pos hx] at hc ⊢
    cases hc
    exact ⟨List.suffix_refl _, fun _ => rfl, rfl⟩
  rw [if_neg hx] at hc ⊢
  by_cases hf : opt = 'f'
  · rw [if_pos hf] at hc ⊢
    cases hn : luaL_checknumber H args with
    | error e => rw [hn] at hc; cases hc
    | ok r =>
      obtain ⟨n, rest⟩ := r
      rw [hn] at hc
      rw [luaL_checknumber_frame H args rest extra n hn]
      cases hc
      exact ⟨List.suffix_refl _, fun _ => rfl, rfl⟩
  rw [if_neg hf] at hc ⊢
  by_cases hd : opt = 'd'
  · rw [if_pos hd] at hc ⊢
    cases hn : luaL_checknumber H args with
    | error e => rw [hn] at hc; cases hc
    | ok r =>
      obtain ⟨n, rest⟩ := r
      rw [hn] at hc
      rw [luaL_checknumber_frame H args rest extra n hn]
      cases hc
      exact ⟨List.suffix_refl _, fun _ => rfl, rfl⟩
  rw [if_neg hd] at hc ⊢
  by_cases hcs : opt = 'c' ∨ opt = 's'
  · rw [if_pos hcs] at hc ⊢
    cases hl : luaL_checklstring H args with
    | error e => rw [hl] at hc; cases hc
    | ok r =>
      obtain ⟨s, rest⟩ := r
      rw [hl] at hc
      rw [luaL_checklstring_frame H args rest extra s hl]
      simp only [] at hc ⊢
      by_cases hshort : ¬ (s.length ≥ (if size = 0 then s.length else size))
      · rw [if_pos hshort] at hc; cases hc
      · rw [if_neg hshort] at hc ⊢
        by_cases hs' : opt = 's'
        · rw [if_pos hs'] at hc ⊢
          cases hc
          exact ⟨List.suffix_refl _, fun _ => rfl, rfl⟩
        · rw [if_neg hs'] at hc ⊢
          cases hc
          exact ⟨List.suffix_refl _, fun _ => rfl, rfl⟩
  · rw [if_neg hcs] at hc ⊢
    cases hcc : commoncases opt g h with
    | error e => rw [hcc] at hc; cases hc
    | ok r =>
      obtain ⟨h1, g1⟩ := r
      rw [hcc] at hc
      obtain ⟨hsuf, hal⟩ := commoncases_suffix opt g g1 h h1 hcc
      cases hc
      exact ⟨hsuf, hal, rfl⟩

/-! ## Packing two formats one after the other -/

theorem b_pack_scan_nil (H : Host) (fuel : Nat) (h : Header) (t : Nat) (b : List Nat)
    (args : List LuaValue) : b_pack_scan H fuel [] h t b args = .ok (b, args) := by
  cases fuel <;> rfl

theorem b_pack_scan_step (H : Host) (fuel : Nat) (opt : Char) (fmt fmt1 : List Char)
    (h : Header) (totalsize size : Nat) (b : List Nat) (args : List LuaValue) (st : PackStep)
    (hopt : opt ≠ NUL) (hs : optsize opt fmt = .ok (size, fmt1))
    (hcase : b_pack_case H opt fmt1 h size args = .ok st) :
    b_pack_scan H (fuel + 1) (opt :: fmt) h totalsize b args =
      b_pack_scan H fuel st.fmt st.h
        (((totalsize + gettoalign totalsize h opt size) % SIZE_MOD + st.size) % SIZE_MOD)
        (b ++ List.replicate (gettoalign totalsize h opt size) 0 ++ st.bytes) st.args := by
  simp only [b_pack_scan, hopt, hs, hcase, if_false]

theorem b_pack_scan_bad (H : Host) (fuel : Nat) (opt : Char) (fmt : List Char) (h : Header)
    (t : Nat) (b : List Nat) (args : List LuaValue) (e : Err) (hopt : opt ≠ NUL)
    (hs : optsize opt fmt = .error e) :
    b_pack_scan H (fuel + 1) (opt :: fmt) h t b args = .error e := by
  simp only [b_pack_scan, hopt, hs, if_false]

theorem b_pack_scan_fail (H : Host) (fuel : Nat) (opt : Char) (fmt fmt1 : List Char)
    (h : Header) (totalsize size : Nat) (b : List Nat) (args : List LuaValue) (e : Err)
    (hopt : opt ≠ NUL) (hs : optsize opt fmt = .ok (size, fmt1))
    (hcase : b_pack_case H opt fmt1 h size args = .error e) :
    b_pack_scan H (fuel + 1) (opt :: fmt) h totalsize b args = .error e := by
  simp only [b_pack_scan, hopt, hs, hcase, if_false]

/-- The scan that returns the arguments left over produces the output of `b_pack`. -/
theorem b_pack_scan_erase (H : Host) (fuel : Nat) :
    ∀ (fmt : List Char) (h : Header) (t : Nat) (b : List Nat) (args : List LuaValue),
      b_pack_loop H fuel fmt h t b args =
        Except.map Prod.fst (b_pack_scan H fuel fmt h t b args) := by
  induction fuel with
  | zero =>
    intro fmt h t b args
    cases fmt <;> rfl
  | succ fuel ih =>
    intro fmt h t b args
    cases fmt with
    | nil => rfl
    | cons opt g =>
      by_cases hopt : opt = NUL
      · subst hopt
        rfl
      cases hs : optsize opt g with
      | error e =>
        rw [b_pack_loop_bad H _ opt g h t b args e hopt hs,
          b_pack_scan_bad H _ opt g h t b args e hopt hs]
        rfl
      | ok r =>
        obtain ⟨size, g1⟩ := r
        cases hc : b_pack_case H opt g1 h size args with
        | error e =>
          rw [b_pack_loop_fail H _ opt g g1 h t size b args e hopt hs hc,
            b_pack_scan_fail H _ opt g g1 h t size b args e hopt hs hc]
          rfl
        | ok st =>
          rw [b_pack_loop_step H _ opt g g1 h t size b args st hopt hs hc,
            b_pack_scan_step H _ opt g g1 h t size b args st hopt hs hc]
          exact ih _ _ _ _ _

/-- A pack scan that gets through the format `f1`, which holds neither a NUL nor a `!`,
goes on with what follows `f1`, the output of `f1` in the buffer and the arguments `f1` has
left over. -/
theorem b_pack_scan_append (H : Host) (X : List Char) (extra : List LuaValue)
    (hX : ∀ d rest, X = d :: rest → d.isDigit = false) (fuel : Nat) :
    ∀ (f1 : List Char) (h : Header) (t : Nat) (b : List Nat) (args : List LuaValue)
      (o1 : List Nat) (rest : List LuaValue),
      (∀ c ∈ f1, c ≠ NUL ∧ c ≠ '!') → h.align = 1 →
      b_pack_scan H fuel f1 h t b args = .ok (o1, rest) →
      ∃ h1 t1, h1.align = 1 ∧ ∀ fuelA, (f1 ++ X).length ≤ fuelA →
        b_pack_loop H fuelA (f1 ++ X) h t b (args ++ extra) =
          b_pack_loop H X.length X h1 t1 o1 (rest ++ extra) := by
  induction fuel with
  | zero =>
    intro f1 h t b args o1 rest hf hal hsc
    cases f1 with
    | nil =>
      rw [b_pack_scan_nil] at hsc
      cases hsc
      exact ⟨h, t, hal, fun fuelA hl => b_pack_loop_fuel_eq H fuelA _ _ _ _ _ _ hl (Nat.le_refl _)⟩
    | cons c cs => cases hsc
  | succ fuel ih =>
    intro f1 h t b args o1 rest hf hal hsc
    cases f1 with
    | nil =>
      rw [b_pack_scan_nil] at hsc
      cases hsc
      exact ⟨h, t, hal, fun fuelA hl => b_pack_loop_fuel_eq H fuelA _ _ _ _ _ _ hl (Nat.le_refl _)⟩
    | cons opt g =>
      obtain ⟨hopt, hbang⟩ := hf opt (List.mem_cons_self _ _)
      cases hs : optsize opt g with
      | error e =>
        rw [b_pack_scan_bad H _ opt g h t b args e hopt hs] at hsc
        cases hsc
      | ok r =>
        obtain ⟨size, g1⟩ := r
        have hsuf1 := optsize_suffix opt g g1 size hs
        have hl1 := (optsize_spec opt g).1 size g1 hs
        cases hc : b_pack_case H opt g1 h size args with
        | error e =>
          rw [b_pack_scan_fail H _ opt g g1 h t size b args e hopt hs hc] at hsc
          cases hsc
        | ok st =>
          rw [b_pack_scan_step H _ opt g g1 h t size b args st hopt hs hc] at hsc
          obtain ⟨hsuf2, hal2, hframe⟩ := b_pack_case_frame H opt g1 h size args extra st hc
          have hl2 := (b_pack_case_spec H opt g1 h size args).1 st hc
          have hmem : ∀ c ∈ st.fmt, c ≠ NUL ∧ c ≠ '!' := fun c hcm =>
            hf c (List.mem_cons_of_mem _ (hsuf1.subset (hsuf2.subset hcm)))
          obtain ⟨h1, t1, hal1, heq⟩ := ih st.fmt st.h _ _ st.args o1 rest hmem
            ((hal2 hbang).trans hal) hsc
          refine ⟨h1, t1, hal1, fun fuelA hl => ?_⟩
          rw [List.cons_append, List.length_cons] at hl
          obtain ⟨m, rfl⟩ : ∃ m, fuelA = m + 1 := ⟨fuelA - 1, by omega⟩
          rw [List.cons_append,
            b_pack_loop_step H m opt _ _ h t size b (args ++ extra) _ hopt
              (optsize_append_ok opt g g1 X size hX hs)
              (b_pack_case_append_ok H opt g1 X h size (args ++ extra) _ hX hframe)]
          simp only []
          exact heq m (by
            simp only [List.length_append] at hl ⊢
            omega)

theorem except_map_append (b c : List Nat) (r : Except Err (List Nat)) :
    Except.map (fun o => b ++ o) (Except.map (fun o => c ++ o) r) =
      Except.map (fun o => b ++ c ++ o) r := by
  cases r with
  | error e => rfl
  | ok o => simp [Except.map]

/-- Without an alignment ceiling above 1 the pack scan only appends to its buffer. -/
theorem b_pack_loop_buffer (H : Host) (fuel : Nat) :
    ∀ (fmt : List Char) (h : Header) (t : Nat) (b : List Nat) (args : List LuaValue),
      h.align = 1 → (∀ c ∈ fmt, c ≠ '!') →
      b_pack_loop H fuel fmt h t b args =
        Except.map (fun o => b ++ o) (b_pack_loop H fuel fmt h 0 [] args) := by
  induction fuel with
  | zero =>
    intro fmt h t b args hal hf
    cases fmt with
    | nil => simp [b_pack_loop, Except.map]
    | cons c cs => rfl
  | succ fuel ih =>
    intro fmt h t b args hal hf
    cases fmt with
    | nil => simp [b_pack_loop, Except.map]
    | cons opt g =>
      by_cases hopt : opt = NUL
      · subst hopt
        rw [b_pack_loop_NUL, b_pack_loop_NUL]
        simp [Except.map]
      have hbang := hf opt (List.mem_cons_self _ _)
      cases hs : optsize opt g with
      | error e =>
        rw [b_pack_loop_bad H _ opt g h t b args e hopt hs,
          b_pack_loop_bad H _ opt g h 0 [] args e hopt hs]
        rfl
      | ok r =>
        obtain ⟨size, g1⟩ := r
        have hsuf1 := optsize_suffix opt g g1 size hs
        cases hc : b_pack_case H opt g1 h size args with
        | error e =>
          rw [b_pack_loop_fail H _ opt g g1 h t size b args e hopt hs hc,
            b_pack_loop_fail H _ opt g g1 h 0 size [] args e hopt hs hc]
          rfl
        | ok st =>
          obtain ⟨hsuf2, hal2, _⟩ := b_pack_case_frame H opt g1 h size args [] st hc
          have hmem : ∀ c ∈ st.fmt, c ≠ '!' := fun c hcm =>
            hf c (List.mem_cons_of_mem _ (hsuf1.subset (hsuf2.subset hcm)))
          have hal3 : st.h.align = 1 := (hal2 hbang).trans hal
          rw [b_pack_loop_step H _ opt g g1 h t size b args st hopt hs hc,
            b_pack_loop_step H _ opt g g1 h 0 size [] args st hopt hs hc,
            gettoalign_align_one t h opt size hal, gettoalign_align_one 0 h opt size hal]
          simp only [List.replicate_zero, List.append_nil, List.nil_append]
          rw [ih st.fmt st.h _ (b ++ st.bytes) st.args hal3 hmem,
            ih st.fmt st.h _ st.bytes st.args hal3 hmem, except_map_append]

/-- Packing `f1 ++ f2`, where `f1` holds neither a NUL nor a `!`, `f2` holds no `!` and
begins with a byte-order directive, and `f1` consumes exactly the values `v1`. -/
theorem b_pack_concat (H : Host) (f1 f2 r : List Char) (v1 v2 : List LuaValue)
    (o1 o2 : List Nat) (hf1 : ∀ c ∈ f1, c ≠ NUL ∧ c ≠ '!') (hf2 : ∀ c ∈ f2, c ≠ '!')
    (hr : f2 = '<' :: r ∨ f2 = '>' :: r)
    (h1 : b_pack_scan H f1.length f1 (defaultoptions H) 0 [] v1 = .ok (o1, []))
    (h2 : b_pack H f2 v2 = .ok o2) :
    b_pack H (f1 ++ f2) (v1 ++ v2) = .ok (o1 ++ o2) := by
  have hX : ∀ d rest, f2 = d :: rest → d.isDigit = false := by
    intro d rest hd
    rcases hr with hr | hr <;> rw [hr] at hd <;> cases hd <;> decide
  obtain ⟨h1a, t1, hal, heq⟩ := b_pack_scan_append H f2 v2 hX f1.length f1 (defaultoptions H)
    0 [] v1 o1 [] hf1 rfl h1
  unfold b_pack
  rw [heq _ (Nat.le_refl _), List.nil_append, b_pack_loop_buffer H _ f2 h1a t1 o1 v2 hal hf2]
  have hsame : b_pack_loop H f2.length f2 h1a 0 [] v2 = .ok o2 := by
    rw [← h2]
    unfold b_pack
    rcases hr with hr | hr
    · subst hr
      rw [List.length_cons, b_pack_loop_little H _ _ _ 0 [] _ (by norm_num),
        b_pack_loop_little H _ _ _ 0 [] _ (by norm_num)]
      have : ({ h1a with endian := LITTLE } : Header) =
          { defaultoptions H with endian := LITTLE } := by
        show Header.mk LITTLE h1a.align = Header.mk LITTLE 1
        rw [hal]
      rw [this]
    · subst hr
      rw [List.length_cons, b_pack_loop_big H _ _ _ 0 [] _ (by norm_num),
        b_pack_loop_big H _ _ _ 0 [] _ (by norm_num)]
      have : ({ h1a with endian := BIG } : Header) =
          { defaultoptions H with endian := BIG } := by
        show Header.mk BIG h1a.align = Header.mk BIG 1
        rw [hal]
      rw [this]
  rw [hsame]
  rfl

/-- The scan of "<H" over the value 1, on any host. -/
theorem b_pack_scan_little_short_one (H : Host) :
    b_pack_scan H "<H".toList.length "<H".toList (defaultoptions H) 0 [] [.number 1] =
      .ok ([1, 0], []) := by
  have hg : ∀ h : Header, h.align = 1 →
      b_pack_scan H 2 ['<', 'H'] h 0 [] [.number 1] = .ok ([1, 0], []) := by
    intro h ha
    rw [b_pack_scan_step H 1 '<' ['H'] ['H'] h 0 0 [] [.number 1]
      ⟨[], 0, { h with endian := LITTLE }, ['H'], [.number 1]⟩ (by decide) rfl rfl]
    simp only []
    rw [b_pack_scan_step H 0 'H' [] [] { h with endian := LITTLE } _ 2 _ [.number 1]
      ⟨[1, 0], 2, { h with endian := LITTLE }, [], []⟩ (by decide) rfl rfl]
    simp only []
    rw [b_pack_scan_nil, gettoalign_align_one _ { h with endian := LITTLE } 'H' 2 ha]
    rfl
  exact hg _ rfl

/-- The bytes of `pack(">H", 1)`, on any host. -/
theorem b_pack_big_short_one (H : Host) : b_pack H ">H".toList [.number 1] = .ok [0, 1] :=
  (b_pack_big_int H 'H' [] 2 [.number 1] rfl rfl).trans rfl

/-! ## Integer fields that a `lua_Number` holds exactly -/

theorem order_value_lt (e : Nat) (data : List Nat) (hb : ∀ b ∈ data, b < 256) :
    order_value e data < 256 ^ data.length := by
  unfold order_value
  by_cases he : e = BIG
  · rw [if_pos he]
    have := le_value_lt data.reverse (fun b hx => hb b (List.mem_reverse.mp hx))
    rw [List.length_reverse] at this
    exact this
  · rw [if_neg he]
    exact le_value_lt data hb

/-- The value of a field of 1, 2 or 4 bytes, signed or not, is a `double`. -/
theorem to_double_field (sg : Bool) (w u : Nat) (hw : w = 1 ∨ w = 2 ∨ w = 4)
    (hu : u < 256 ^ w) :
    to_double (if sg then sign_extend w u else (u : Int)) =
      (if sg then sign_extend w u else (u : Int)) := by
  apply to_double_exact
  cases sg
  · rcases hw with h | h | h <;> subst h <;> simp only [Bool.false_eq_true, if_false] <;>
      norm_num at hu <;> omega
  · rcases hw with h | h | h <;> subst h <;> simp only [if_true, sign_extend] <;>
      norm_num at hu ⊢ <;> split <;> omega

/-! ## The properties of the specification -/

/-- C2 (amended): sign extension on unpack. For an integer directive `opt` followed by
`num` that `optsize` gives width `w` in {1, 2, 4, 8}, in the native order or after `<` or
`>`, and for `w` bytes `data` whose unsigned value in that order is
`u = order_value e data`: an unsigned directive (`B`, `H`, `L`, `I`, upper case) unpacks to
the `lua_Number` (the nearest `double`) of `u`; the signed directive of the same width
(`b`, `h`, `l`, `i`, lower case) unpacks to the `lua_Number` of `u` when
`u < 2 ^ (8 w - 1)` and of `u - 2 ^ (8 w)` otherwise. The next position is `w + 1`. The
`lua_Number` is the value itself for `w` in {1, 2, 4}, and for every value of magnitude
up to `2 ^ 53`. -/
theorem unpack_sign_extension (H : Host) (pre : List Char) (e : Nat) (opt : Char)
    (num : List Char) (w : Nat) (data : List Nat)
    (hpre : (pre = [] ∧ e = native_endian H) ∨ (pre = ['<'] ∧ e = LITTLE) ∨
      (pre = ['>'] ∧ e = BIG))
    (hi : is_integer_opt opt = true) (hs : optsize opt num = .ok (w, []))
    (hw : w = 1 ∨ w = 2 ∨ w = 4 ∨ w = 8) (hlen : data.length = w)
    (hb : ∀ b ∈ data, b < 256) :
    b_unpack H (pre ++ opt :: num) data 1 =
      .ok [.number (to_double (if opt.isLower then
              (if order_value e data < 2 ^ (8 * w - 1) then (order_value e data : Int)
               else (order_value e data : Int) - 2 ^ (8 * w))
            else (order_value e data : Int))),
           .number (w + 1)] ∧
    (w = 1 ∨ w = 2 ∨ w = 4 →
      to_double (if opt.isLower then
              (if order_value e data < 2 ^ (8 * w - 1) then (order_value e data : Int)
               else (order_value e data : Int) - 2 ^ (8 * w))
            else (order_value e data : Int)) =
        (if opt.isLower then
              (if order_value e data < 2 ^ (8 * w - 1) then (order_value e data : Int)
               else (order_value e data : Int) - 2 ^ (8 * w))
            else (order_value e data : Int))) ∧
    (∀ x : Int, x.natAbs ≤ 2 ^ 53 → to_double x = x) := by
  refine ⟨?_, fun hw4 => to_double_field opt.isLower w (order_value e data) hw4
    (hlen ▸ order_value_lt e data hb), to_double_exact⟩
  have h0 : (((1 : Int) - 1) % 2 ^ 64).toNat = 0 := by decide
  unfold b_unpack
  rw [h0]
  rcases hpre with ⟨hp, he⟩ | ⟨hp, he⟩ | ⟨hp, he⟩ <;> subst hp <;> subst he
  · simp only [List.nil_append, List.length_cons]
    rw [b_unpack_loop_single_int H _ opt num (defaultoptions H) w data _ rfl hi hs hw hlen hb]
    rfl
  · simp only [List.cons_append, List.nil_append, List.length_cons]
    rw [b_unpack_loop_little H _ _ _ 0 data _ (Nat.zero_le _) (by norm_num),
      b_unpack_loop_single_int H _ opt num _ w data _ rfl hi hs
        hw hlen hb]
    rfl
  · simp only [List.cons_append, List.nil_append, List.length_cons]
    rw [b_unpack_loop_big H _ _ _ 0 data _ (Nat.zero_le _) (by norm_num),
      b_unpack_loop_single_int H _ opt num _ w data _ rfl hi hs
        hw hlen hb]
    rfl

/-- C2, the instances of the specification: `unpack("b", [0xFF])` is -1 and
`unpack("B", [0xFF])` is 255, each followed by the next position 2. -/
theorem unpack_sign_extension_witness :
    b_unpack refHost "b".toList [0xFF] 1 = .ok [.number (-1), .number 2] ∧
    b_unpack refHost "B".toList [0xFF] 1 = .ok [.number 255, .number 2] :=
  ⟨(unpack_sign_extension refHost [] LITTLE 'b' [] 1 [0xFF] (Or.inl ⟨rfl, rfl⟩) (by decide)
      (by decide) (by decide) (by decide) (by decide)).1,
   (unpack_sign_extension refHost [] LITTLE 'B' [] 1 [0xFF] (Or.inl ⟨rfl, rfl⟩) (by decide)
      (by decide) (by decide) (by decide) (by decide)).1⟩

/-- C2 as stated fails at width 8: the eight bytes 0xFF have the unsigned value
`2 ^ 64 - 1`, and `unpack("<L", ...)` returns the `lua_Number` `2 ^ 64`; the bytes
0xFF (seven times), 0x7F have the value `2 ^ 63 - 1`, below `2 ^ 63`, and
`unpack("<l", ...)` returns `2 ^ 63`. -/
theorem unpack_sign_extension_counterexample :
    (order_value LITTLE [255, 255, 255, 255, 255, 255, 255, 255] = 18446744073709551615 ∧
      b_unpack refHost "<L".toList [255, 255, 255, 255, 255, 255, 255, 255] 1 =
        .ok [.number 18446744073709551616, .number 9]) ∧
    (order_value LITTLE [255, 255, 255, 255, 255, 255, 255, 127] = 9223372036854775807 ∧
      b_unpack refHost "<l".toList [255, 255, 255, 255, 255, 255, 255, 127] 1 =
        .ok [.number 9223372036854775808, .number 9]) := by
  decide

/-- C3 (amended): endian symmetry. For an integer directive `opt` followed by `num` of
width `w` in {1, 2, 4, 8} and every integer `v`, the result of packing under `>` is the
byte-wise reverse of the result of packing under `<` (the same error when `v` cannot be
converted), and unpacking the big-endian bytes under `<` returns the `lua_Number` (the
nearest `double`) of the byte-swapped value, that is of the little-endian reading of those
bytes (sign-extended for a signed directive); for `w` in {1, 2, 4} that `lua_Number` is
the byte-swapped value itself. With a 4-byte `int`: `pack(">i", 1) = [0,0,0,1]`,
`pack("<i", 1) = [1,0,0,0]` and `unpack("<i", pack(">i", 1))` returns 16777216. -/
theorem pack_endian_symmetry (H : Host) (opt : Char) (num : List Char) (w : Nat) (v : Int)
    (hi : is_integer_opt opt = true) (hs : optsize opt num = .ok (w, []))
    (hw : w = 1 ∨ w = 2 ∨ w = 4 ∨ w = 8) :
    b_pack H ('>' :: opt :: num) [.number v] =
      Except.map List.reverse (b_pack H ('<' :: opt :: num) [.number v]) ∧
    (∀ bytes, b_pack H ('>' :: opt :: num) [.number v] = .ok bytes →
      b_unpack H ('<' :: opt :: num) bytes 1 =
        .ok [.number (to_double (if opt.isLower then sign_extend w (le_value bytes)
              else (le_value bytes : Int))), .number (w + 1)] ∧
      (w = 1 ∨ w = 2 ∨ w = 4 →
        to_double (if opt.isLower then sign_extend w (le_value bytes)
              else (le_value bytes : Int)) =
          (if opt.isLower then sign_extend w (le_value bytes) else (le_value bytes : Int)))) ∧
    b_pack H ">i".toList [.number 1] = .ok [0, 0, 0, 1] ∧
    b_pack H "<i".toList [.number 1] = .ok [1, 0, 0, 0] ∧
    b_unpack H "<i".toList [0, 0, 0, 1] 1 = .ok [.number 16777216, .number 5] := by
  have hbig := b_pack_big_int H opt num w [.number v] hi hs
  have hlittle := b_pack_little_int H opt num w [.number v] hi hs
  refine ⟨?_, ?_, ?_, ?_, ?_⟩
  · rw [hbig, hlittle, putinteger_big]
  · intro bytes hbytes
    rw [hbig] at hbytes
    obtain ⟨hlen, hb⟩ := putinteger_shape H _ BIG w bytes hbytes
    exact ⟨b_unpack_little_int H opt num w bytes hi hs hw hlen hb,
      fun hw4 => to_double_field opt.isLower w (le_value bytes) hw4
        (hlen ▸ le_value_lt bytes hb)⟩
  · exact (b_pack_big_int H 'i' [] 4 [.number 1] (by decide) (by decide)).trans rfl
  · exact (b_pack_little_int H 'i' [] 4 [.number 1] (by decide) (by decide)).trans rfl
  · exact (b_unpack_little_int H 'i' [] 4 [0, 0, 0, 1] (by decide) (by decide) (by decide)
      (by decide) (by decide)).trans rfl

/-- C3 at the 4-byte `int` and the value 1. -/
theorem pack_endian_symmetry_witness :
    b_pack refHost ">i".toList [.number 1] =
      Except.map List.reverse (b_pack refHost "<i".toList [.number 1]) ∧
    b_unpack refHost "<i".toList [0, 0, 0, 1] 1 = .ok [.number 16777216, .number 5] :=
  ⟨(pack_endian_symmetry refHost 'i' [] 4 1 (by decide) (by decide) (by decide)).1,
   ((pack_endian_symmetry refHost 'i' [] 4 1 (by decide) (by decide) (by decide)).2.1
      [0, 0, 0, 1] (by decide)).1⟩

/-- C3 as stated fails at width 8: `pack(">l", 2 ^ 48 + 128)` is the bytes
0, 1, 0, 0, 0, 0, 0, 128, whose little-endian reading as a signed `long`, the byte-swapped
value, is `-2 ^ 63 + 256`; `unpack("<l", ...)` returns its `lua_Number`, `-2 ^ 63`. -/
theorem pack_endian_symmetry_counterexample :
    b_pack refHost ">l".toList [.number 281474976710784] = .ok [0, 1, 0, 0, 0, 0, 0, 128] ∧
    sign_extend 8 (le_value [0, 1, 0, 0, 0, 0, 0, 128]) = -9223372036854775552 ∧
    b_unpack refHost "<l".toList [0, 1, 0, 0, 0, 0, 0, 128] 1 =
      .ok [.number (-9223372036854775808), .number 9] := by
  decide

/-- C4: alignment. Whenever pack succeeds with output `out`, the scan lays out every
integer, float or double field (the records of `b_pack_trace`, which runs the same scan
and returns the same output) as follows, with `s` the size of the field, `a` the
alignment ceiling in force, `p` the output offset before the padding and
`e = min(s, a)`: the padding bytes number `(e - (p mod e)) mod e`, the least count that
reaches a multiple of `e`; the field starts at `p` plus that count, a multiple of `e`;
the bytes inserted before it are all zero; and the `s` bytes of the field lie inside
`out`. -/
theorem pack_alignment (H : Host) (fmt : List Char) (args : List LuaValue) (out : List Nat)
    (hp : b_pack H fmt args = .ok out) :
    ∃ log, b_pack_trace H fmt.length fmt (defaultoptions H) 0 [] args = .ok (out, log) ∧
      ∀ r ∈ log,
        r.toalign = (min r.size r.align - r.before % min r.size r.align) % min r.size r.align ∧
        r.start = r.before + r.toalign ∧
        r.start % min r.size r.align = 0 ∧
        (∀ k, k < r.toalign → (r.before + k) % min r.size r.align ≠ 0) ∧
        (∀ j, r.before ≤ j → j < r.start → out[j]? = some 0) ∧
        r.start + r.size ≤ out.length := by
  unfold b_pack at hp
  rw [b_pack_trace_erase] at hp
  cases htr : b_pack_trace H fmt.length fmt (defaultoptions H) 0 [] args with
  | error e => rw [htr] at hp; cases hp
  | ok q =>
    obtain ⟨out', log⟩ := q
    rw [htr] at hp
    cases hp
    refine ⟨log, rfl, ?_⟩
    intro r hr
    exact ((b_pack_trace_aligned H fmt.length fmt (defaultoptions H) 0 [] args out' log
      ⟨0, rfl, by omega⟩ rfl htr).2 r hr).1

/-- C4 on `pack("!4bi", 1, 2)` with a 4-byte `int`: the output is 8 bytes long, the
byte field is at offset 0, three zero bytes follow at offsets 1, 2, 3 and the `int`
starts at offset 4. -/
theorem pack_alignment_witness :
    b_pack refHost "!4bi".toList [.number 1, .number 2] = .ok [1, 0, 0, 0, 2, 0, 0, 0] ∧
    ∃ log, b_pack_trace refHost 4 "!4bi".toList (defaultoptions refHost) 0 []
        [.number 1, .number 2] = .ok ([1, 0, 0, 0, 2, 0, 0, 0], log) ∧
      log = [⟨'b', 1, 4, 0, 0, 0⟩, ⟨'i', 4, 4, 1, 3, 4⟩] ∧
      ∀ r ∈ log,
        r.toalign = (min r.size r.align - r.before % min r.size r.align) % min r.size r.align ∧
        r.start = r.before + r.toalign ∧
        r.start % min r.size r.align = 0 ∧
        (∀ k, k < r.toalign → (r.before + k) % min r.size r.align ≠ 0) ∧
        (∀ j, r.before ≤ j → j < r.start → [1, 0, 0, 0, 2, 0, 0, 0][j]? = some 0) ∧
        r.start + r.size ≤ [1, 0, 0, 0, 2, 0, 0, 0].length := by
  refine ⟨by decide, ?_⟩
  obtain ⟨log, hlog, hall⟩ := pack_alignment refHost "!4bi".toList [.number 1, .number 2]
    [1, 0, 0, 0, 2, 0, 0, 0] (by decide)
  refine ⟨log, hlog, ?_, hall⟩
  have hev : b_pack_trace refHost "!4bi".toList.length "!4bi".toList (defaultoptions refHost) 0 []
      [.number 1, .number 2] =
      .ok ([1, 0, 0, 0, 2, 0, 0, 0], [⟨'b', 1, 4, 0, 0, 0⟩, ⟨'i', 4, 4, 1, 3, 4⟩]) := by decide
  rw [hev] at hlog
  cases hlog
  rfl

/-- C5 (amended): length from the prior value. For every `n` in 0..255 and every byte
string `s` of length `n`, `unpack("Bc0", [n] ++ s)` returns the single value `s`
followed by the next position `n + 2`: the number read by `B` is popped when `c0` takes
it as the length, so it is not among the results. -/
theorem unpack_Bc0 (H : Host) (n : Nat) (s : List Nat) (hn : n ≤ 255) (hs : s.length = n) :
    b_unpack H "Bc0".toList (n :: s) 1 = .ok [.str s, .number (n + 2)] := by
  show b_unpack_loop H 3 ['B', 'c', '0'] (defaultoptions H) 0 (n :: s)
    [.str [66, 99, 48], .str (n :: s)] = _
  have hB : optsize 'B' ['c', '0'] = .ok (1, ['c', '0']) := rfl
  have hc : optsize 'c' ['0'] = .ok (0, []) := rfl
  have ha : ∀ p opt size, gettoalign p (defaultoptions H) opt size = 0 :=
    fun p opt size => gettoalign_align_one p _ opt size rfl
  have hcase1 : b_unpack_case H 'B' ['c', '0'] (defaultoptions H) 0 (n :: s)
      [.str [66, 99, 48], .str (n :: s)] 1 =
      .ok ⟨[.str [66, 99, 48], .str (n :: s), .number n], 1, defaultoptions H, ['c', '0']⟩ :=
    b_unpack_case_int H 'B' _ _ 0 _ _ 1 [n] n (by decide) (by simp [read_bytes])
      (getinteger_byte n _ (by omega))
  have hcase2 : b_unpack_case H 'c' [] (defaultoptions H) 1 (n :: s)
      [.str [66, 99, 48], .str (n :: s), .number n] 0 =
      .ok ⟨[.str [66, 99, 48], .str (n :: s), .str s], n, defaultoptions H, []⟩ := by
    have hr : read_bytes (n :: s) 1 n = .ok s := by
      subst hs
      simp [read_bytes, Nat.add_comm]
    have hu : ulong_of_number (n : Int) = .ok n := by
      show (if n < 2 ^ 64 then Except.ok n else Except.error Err.undefined) = _
      rw [if_pos (by omega)]
    have hm : (1 + n) % SIZE_MOD ≤ (n :: s).length := by
      rw [mod_SIZE_MOD _ (by omega), List.length_cons, hs]; omega
    rw [b_unpack_case_c0]
    simp only [lua_tonumber, to_double_natCast n (by omega), hu, hm, hr,
      List.getLast?_cons_cons, List.getLast?_singleton, not_true_eq_false, if_false]
    rfl
  rw [b_unpack_loop_step H 2 'B' _ _ _ 0 1 _ _ _ (by decide) hB
    (by rw [ha]; simp [SIZE_MOD]) (by rw [ha]; exact hcase1)]
  simp only [ha, Nat.add_zero, Nat.zero_add, Nat.zero_mod, mod_SIZE_MOD 1 (by omega)]
  rw [b_unpack_loop_step H 1 'c' _ _ _ 1 0 _ _ _ (by decide) hc
    (by rw [ha]; simp [SIZE_MOD]) (by rw [ha]; exact hcase2)]
  simp only [ha, Nat.add_zero, mod_SIZE_MOD 1 (by omega), b_unpack_loop, b_unpack_finish]
  rw [mod_SIZE_MOD (1 + n) (by omega), mod_SIZE_MOD (1 + n + 1) (by omega),
    toInt64_small _ (by omega)]
  simp
  omega

/-- C5 (amended) on the bytes 5, "hello". -/
theorem unpack_Bc0_witness :
    b_unpack refHost "Bc0".toList [5, 104, 101, 108, 108, 111] 1 =
      .ok [.str [104, 101, 108, 108, 111], .number 7] :=
  unpack_Bc0 refHost 5 [104, 101, 108, 108, 111] (by decide) (by decide)

/-- C5 as stated fails: `unpack("Bc0", [5, "hello"])` does not return the two values
5 and "hello" followed by the next position 7. -/
theorem unpack_Bc0_counterexample :
    b_unpack refHost "Bc0".toList [5, 104, 101, 108, 108, 111] 1 ≠
      .ok [.number 5, .str [104, 101, 108, 108, 111], .number 7] := by
  decide

/-- C6 (code defect): `unpack("c0", "1")` does not fail with "format c0 needs a previous
size". No value has been produced, so `lua_isnumber(L, -1)` inspects the data argument
itself; the text "1" reads as a number, is popped and used as the length, and the call
returns only the next position 2. Data that does not read as a number is rejected. -/
theorem unpack_c0_numeric_data :
    b_unpack refHost "c0".toList [49] 1 = .ok [.number 2] ∧
    b_unpack refHost "c0".toList [65] 1 = .error .needsPreviousSize := by
  decide

/-- C7: zero-terminated string round trip. For every byte string `str` that contains
no zero byte (and whose packing is a Lua string), `pack("s", str)` is `str` followed by
exactly one zero byte, and unpacking it returns `str` followed by the next position
`length(str) + 2`. -/
theorem pack_unpack_s (H : Host) (str : List Nat) (hz : ∀ b ∈ str, b ≠ 0)
    (hlen : (str ++ [0]).length < MAX_SIZE) :
    b_pack H "s".toList [.str str] = .ok (str ++ [0]) ∧
    b_unpack H "s".toList (str ++ [0]) 1 = .ok [.str str, .number (str.length + 2)] := by
  have hlen' : str.length + 1 < 2 ^ 63 - 1 := by
    simpa [MAX_SIZE] using hlen
  constructor
  · show b_pack_loop H 1 ['s'] (defaultoptions H) 0 [] [.str str] = _
    rw [b_pack_loop_step H 0 's' [] [] _ 0 0 [] _ _ (by decide) (optsize_s _)
      (b_pack_case_s H [] _ str [])]
    simp [gettoalign_size_zero, b_pack_loop]
  · show b_unpack_loop H 1 ['s'] (defaultoptions H) 0 (str ++ [0])
      [.str [115], .str (str ++ [0])] = _
    have hcase : b_unpack_case H 's' [] (defaultoptions H) 0 (str ++ [0])
        [.str [115], .str (str ++ [0])] 0 =
        .ok ⟨[.str [115], .str (str ++ [0]), .str str], str.length + 1, defaultoptions H, []⟩ := by
      rw [b_unpack_case_s]
      simp only [List.drop_zero, memchr_append_zero str [] hz]
      simp
    rw [b_unpack_loop_step H 0 's' [] [] _ 0 0 _ _ _ (by decide) (optsize_s _)
      (by simp [gettoalign_size_zero, SIZE_MOD])
      (by rw [gettoalign_size_zero]; exact hcase)]
    simp only [gettoalign_size_zero, Nat.add_zero, Nat.zero_mod, Nat.zero_add, b_unpack_loop,
      b_unpack_finish]
    rw [mod_SIZE_MOD (str.length + 1) (by omega), mod_SIZE_MOD (str.length + 1 + 1) (by omega),
      toInt64_small _ (by omega)]
    simp
    omega

/-- C7 on "hi": `pack("s", "hi")` is the 3 bytes `h`, `i`, 0 and unpacking them returns
"hi" and the next position 4. -/
theorem pack_unpack_s_witness :
    b_pack refHost "s".toList [.str [104, 105]] = .ok [104, 105, 0] ∧
    b_unpack refHost "s".toList [104, 105, 0] 1 = .ok [.str [104, 105], .number 4] :=
  pack_unpack_s refHost [104, 105] (by decide) (by decide)

/-- C8 (code defect): with start position 0 the cursor is `(size_t)(0 - 1) = 2 ^ 64 - 1`;
for the one-byte directive `b` the sum `pos + size` wraps to 0, the check
`pos + size <= ld` passes and the byte is read outside the data. -/
theorem unpack_position_zero_reads_outside :
    b_unpack refHost "b".toList [65] 0 = .error .outOfBounds ∧
    (((0 : Int) - 1) % 2 ^ 64).toNat = 2 ^ 64 - 1 ∧
    ¬ ((2 ^ 64 - 1) + 1 ≤ [65].length) ∧
    ((2 ^ 64 - 1 + gettoalign (2 ^ 64 - 1) (defaultoptions refHost) 'b' 1) % SIZE_MOD + 1)
      % SIZE_MOD ≤ [65].length := by
  decide

/-- C9: short buffer. For every integer, float or double directive `opt` (with its
numeral, if any) to which `optsize` gives size `size`: unpacking it from position 1 on
data shorter than `size` fails with "data string too short"; and, more generally, met
at any cursor `pos` inside a Lua string `data`, the directive fails in the same way
whenever the length of the data minus the aligned cursor is less than `size`. An error
returns no values. -/
theorem unpack_short_buffer (H : Host) (opt : Char) (fmt fmt1 : List Char) (size : Nat)
    (data : List Nat) (hsc : is_integer_opt opt = true ∨ opt = 'f' ∨ opt = 'd')
    (hs : optsize opt fmt = .ok (size, fmt1)) :
    (data.length < size → b_unpack H (opt :: fmt) data 1 = .error .dataTooShort) ∧
    (∀ (fuel : Nat) (h : Header) (pos : Nat) (stack : List LuaValue),
      pos ≤ data.length → data.length < MAX_SIZE →
      data.length - (pos + gettoalign pos h opt size) < size →
      b_unpack_loop H (fuel + 1) (opt :: fmt) h pos data stack = .error .dataTooShort) := by
  have hb := optsize_scalar_bounds opt fmt fmt1 size hsc hs
  have hn := optsize_ne_NUL opt fmt fmt1 size hs
  have key : ∀ (fuel : Nat) (h : Header) (pos : Nat) (stack : List LuaValue),
      pos ≤ data.length → data.length < MAX_SIZE →
      data.length - (pos + gettoalign pos h opt size) < size →
      b_unpack_loop H (fuel + 1) (opt :: fmt) h pos data stack = .error .dataTooShort := by
    intro fuel h pos stack hpos hld hshort
    apply b_unpack_loop_short H fuel opt fmt fmt1 h pos size data stack hn hs
    have hta := gettoalign_lt pos h opt size hb.1
    unfold MAX_SIZE at hld
    unfold SIZE_MOD
    omega
  refine ⟨fun hlt => ?_, key⟩
  have h0 : ((1 : Int) - 1) % 2 ^ 64 = 0 := by decide
  unfold b_unpack
  rw [h0]
  exact key fmt.length (defaultoptions H) 0 _ (Nat.zero_le _) (by unfold MAX_SIZE; omega)
    (by rw [gettoalign_align_one 0 _ opt size rfl]; omega)

/-- C9 on `unpack("i", two bytes)` with a 4-byte `int`, and on the `i` of `!4bi` met
at cursor 1 of six bytes (aligned cursor 4). -/
theorem unpack_short_buffer_witness :
    b_unpack refHost "i".toList [1, 2] 1 = .error .dataTooShort ∧
    b_unpack_loop refHost 1 ['i'] ⟨LITTLE, 4⟩ 1 [1, 0, 0, 0, 2, 0] [] = .error .dataTooShort :=
  ⟨(unpack_short_buffer refHost 'i' [] [] 4 [1, 2] (by decide) (by decide)).1 (by decide),
   (unpack_short_buffer refHost 'i' [] [] 4 [1, 0, 0, 0, 2, 0] (by decide) (by decide)).2
      0 ⟨LITTLE, 4⟩ 1 [] (by decide) (by decide) (by decide)⟩

/-- C10 (code defect): the numeral 4294967300 = 2 ^ 32 + 4 is not a power of two, yet
`getnum` returns it as a `size_t` and `optsize` / `commoncases` store it in an `int`,
which keeps 4: `pack("i4294967300", 1)` emits a 4-byte integer, unpack reads one, and
`!4294967300` sets the alignment ceiling to 4, where the claim asks for a rejection.
Smaller non-powers of two such as 3 are rejected. -/
theorem wide_numeral_accepted :
    b_pack refHost "i4294967300".toList [.number 1] = .ok [1, 0, 0, 0] ∧
    b_unpack refHost "I4294967300".toList [1, 0, 0, 0] 1 = .ok [.number 1, .number 5] ∧
    b_pack refHost "!4294967300bi".toList [.number 1, .number 2] =
      .ok [1, 0, 0, 0, 2, 0, 0, 0] ∧
    b_pack refHost "i3".toList [.number 1] = .error .notPowerOf2 := by
  decide

/-- C11 (amended): the padding directive takes no numeric suffix. `pack("x")` yields
exactly one zero byte, and `unpack("x", data)` on data of length at least 1 produces no
value and returns the next position 2. A numeral after `x` is not part of the
directive: `optsize` reads no number for `x`, the first digit is scanned as an option
of its own, and for every numeral `n` both `pack("x" ++ n)` and `unpack("x" ++ n, data)`
fail with "invalid format option". -/
theorem pad_directive (H : Host) (ds : List Char) (args : List LuaValue) (data : List Nat)
    (hds : is_numeral ds) (hlen : 1 ≤ data.length) :
    b_pack H ['x'] args = .ok [0] ∧
    b_unpack H ['x'] data 1 = .ok [.number 2] ∧
    b_pack H ('x' :: ds) args = .error .invalidFormat ∧
    b_unpack H ('x' :: ds) data 1 = .error .invalidFormat := by
  have h0 : (((1 : Int) - 1) % 2 ^ 64).toNat = 0 := by decide
  have hta : ∀ t, gettoalign t (defaultoptions H) 'x' 1 = 0 :=
    fun t => gettoalign_align_one t _ 'x' 1 rfl
  have hchk : ∀ fmt : List Char, ((0 + gettoalign 0 (defaultoptions H) 'x' 1) % SIZE_MOD + 1)
      % SIZE_MOD ≤ data.length := by
    intro fmt
    rw [hta]
    have : ((0 + 0) % SIZE_MOD + 1) % SIZE_MOD = 1 := by decide
    rw [this]
    exact hlen
  have hpack : ∀ fmt : List Char, b_pack_loop H (fmt.length + 1) ('x' :: fmt)
      (defaultoptions H) 0 [] args =
      b_pack_loop H fmt.length fmt (defaultoptions H) 1 [0] args := by
    intro fmt
    rw [b_pack_loop_step H fmt.length 'x' fmt fmt _ 0 1 [] args
      ⟨[0], 1, defaultoptions H, fmt, args⟩ (by decide) rfl rfl, hta]
    rfl
  have hunpack : ∀ fmt : List Char, b_unpack_loop H (fmt.length + 1) ('x' :: fmt)
      (defaultoptions H) 0 data [.str (('x' :: fmt).map Char.toNat), .str data] =
      b_unpack_loop H fmt.length fmt (defaultoptions H) 1 data
        [.str (('x' :: fmt).map Char.toNat), .str data] := by
    intro fmt
    rw [b_unpack_loop_step H fmt.length 'x' fmt fmt _ 0 1 data _
      ⟨[.str (('x' :: fmt).map Char.toNat), .str data], 1, defaultoptions H, fmt⟩
      (by decide) rfl (hchk fmt) rfl, hta]
    rfl
  obtain ⟨hne, hdig⟩ := hds
  refine ⟨?_, ?_, ?_, ?_⟩
  · exact (hpack []).trans rfl
  · unfold b_unpack
    rw [h0]
    exact (hunpack []).trans rfl
  · cases ds with
    | nil => exact absurd rfl hne
    | cons d ds =>
      obtain ⟨hd1, hd2⟩ := digit_not_option d (hdig d (List.mem_cons_self _ _))
      exact (hpack (d :: ds)).trans (b_pack_loop_unknown H ds.length d ds _ _ _ _ hd1 hd2)
  · cases ds with
    | nil => exact absurd rfl hne
    | cons d ds =>
      obtain ⟨hd1, hd2⟩ := digit_not_option d (hdig d (List.mem_cons_self _ _))
      unfold b_unpack
      rw [h0]
      exact (hunpack (d :: ds)).trans
        (b_unpack_loop_unknown H ds.length d ds _ _ _ _ hd1 hd2)

/-- C11 (amended) on `x`, `x4` and one byte of data. -/
theorem pad_directive_witness :
    b_pack refHost ['x'] [] = .ok [0] ∧
    b_unpack refHost ['x'] [7] 1 = .ok [.number 2] ∧
    b_pack refHost "x4".toList [] = .error .invalidFormat ∧
    b_unpack refHost "x4".toList [7] 1 = .error .invalidFormat :=
  pad_directive refHost ['4'] [] [7] ⟨by decide, by decide⟩ (by decide)

/-- C11 as stated fails: with the numeral 4, `pack("x4")` does not yield one zero byte and
`unpack("x4", data)` on one byte does not return the next position 2. -/
theorem pad_directive_counterexample :
    b_pack refHost "x4".toList [] ≠ .ok [0] ∧
    b_unpack refHost "x4".toList [7] 1 ≠ .ok [.number 2] := by
  decide

/-- C12 (amended): fixed byte block on pack. For every numeral of value `n` below
`2 ^ 64` (the size is a `size_t`) and every byte string `v`: when `n >= 1`,
`pack("c" ++ n, v)` fails with "string too short" if and only if `length(v) < n`, and
otherwise emits exactly the first `n` bytes of `v`, with no padding and no length
prefix; when `n = 0`, it emits exactly `v`. -/
theorem pack_block (H : Host) (ds : List Char) (n : Nat) (v : List Nat)
    (hds : is_numeral ds) (hn : numeral_value ds = n) (hlt : n < 2 ^ 64) :
    (1 ≤ n →
      (b_pack H ('c' :: ds) [.str v] = .error .stringTooShort ↔ v.length < n) ∧
      (¬ v.length < n → b_pack H ('c' :: ds) [.str v] = .ok (v.take n))) ∧
    (n = 0 → b_pack H ('c' :: ds) [.str v] = .ok v) := by
  have hp := b_pack_c H ds n v hds hn hlt
  refine ⟨fun h1 => ⟨⟨fun herr => ?_, fun hshort => ?_⟩, fun hlong => ?_⟩, fun h0 => ?_⟩
  · by_contra hlong
    rw [hp, if_neg hlong] at herr
    cases herr
  · rw [hp, if_pos hshort]
  · rw [hp, if_neg hlong, if_neg (by omega)]
  · rw [hp, if_neg (by omega), if_pos h0, List.take_length]

/-- C12 (amended) on `c3` with "hello" and with "hi", and on `c0` with "hello". -/
theorem pack_block_witness :
    b_pack refHost "c3".toList [.str [104, 101, 108, 108, 111]] = .ok [104, 101, 108] ∧
    b_pack refHost "c3".toList [.str [104, 105]] = .error .stringTooShort ∧
    b_pack refHost "c0".toList [.str [104, 101, 108, 108, 111]] =
      .ok [104, 101, 108, 108, 111] :=
  ⟨((pack_block refHost ['3'] 3 [104, 101, 108, 108, 111] ⟨by decide, by decide⟩
      (by decide) (by decide)).1 (by decide)).2 (by decide),
   ((pack_block refHost ['3'] 3 [104, 105] ⟨by decide, by decide⟩
      (by decide) (by decide)).1 (by decide)).1.mpr (by decide),
   (pack_block refHost ['0'] 0 [104, 101, 108, 108, 111] ⟨by decide, by decide⟩
      (by decide) (by decide)).2 rfl⟩

/-- C12 as stated fails for a numeral that does not fit a `size_t`:
18446744073709551616 is `2 ^ 64`, the two bytes of "ab" are fewer, yet `getnum` wraps
to 0 and pack emits the whole string instead of failing. -/
theorem pack_block_counterexample :
    numeral_value "18446744073709551616".toList = 2 ^ 64 ∧
    b_pack refHost "c18446744073709551616".toList [.str [97, 98]] = .ok [97, 98] := by
  decide

/-- C13 (amended): fixed byte block round trip. For every numeral of value `n` with
`1 <= n < 2 ^ 64` and every byte string `v` (a Lua string) on which `pack("c" ++ n, v)`
succeeds, that is with `length(v) >= n`, the packing is the first `n` bytes of `v` and
`unpack("c" ++ n, pack("c" ++ n, v))` returns those first `n` bytes, which are `v`
itself exactly when `length(v) = n`, followed by the next position `n + 1`. -/
theorem block_roundtrip (H : Host) (ds : List Char) (n : Nat) (v : List Nat)
    (hds : is_numeral ds) (hn : numeral_value ds = n) (h1 : 1 ≤ n) (hlt : n < 2 ^ 64)
    (hv : v.length < MAX_SIZE) (hok : ∃ out, b_pack H ('c' :: ds) [.str v] = .ok out) :
    b_pack H ('c' :: ds) [.str v] = .ok (v.take n) ∧
    b_unpack H ('c' :: ds) (v.take n) 1 = .ok [.str (v.take n), .number (n + 1)] ∧
    (v.take n = v ↔ v.length = n) := by
  have hp := b_pack_c H ds n v hds hn hlt
  have hge : n ≤ v.length := by
    by_contra hshort
    obtain ⟨out, hout⟩ := hok
    rw [hp, if_pos (by omega)] at hout
    cases hout
  refine ⟨?_, ?_, ?_⟩
  · rw [hp, if_neg (by omega), if_neg (by omega)]
  · exact b_unpack_c H ds n (v.take n) hds hn (by omega)
      (by rw [List.length_take]; omega) (by omega)
  · constructor
    · intro h
      have := congrArg List.length h
      rw [List.length_take] at this
      omega
    · intro h
      rw [← h, List.take_length]

/-- C13 (amended) on `c2` with "hi" and with "hello". -/
theorem block_roundtrip_witness :
    (b_pack refHost "c2".toList [.str [104, 105]] = .ok [104, 105] ∧
      b_unpack refHost "c2".toList [104, 105] 1 = .ok [.str [104, 105], .number 3]) ∧
    (b_pack refHost "c2".toList [.str [104, 101, 108, 108, 111]] = .ok [104, 101] ∧
      b_unpack refHost "c2".toList [104, 101] 1 = .ok [.str [104, 101], .number 3]) :=
  ⟨⟨(block_roundtrip refHost ['2'] 2 [104, 105] ⟨by decide, by decide⟩ (by decide)
      (by decide) (by decide) (by decide) ⟨[104, 105], by decide⟩).1,
    (block_roundtrip refHost ['2'] 2 [104, 105] ⟨by decide, by decide⟩ (by decide)
      (by decide) (by decide) (by decide) ⟨[104, 105], by decide⟩).2.1⟩,
   ⟨(block_roundtrip refHost ['2'] 2 [104, 101, 108, 108, 111] ⟨by decide, by decide⟩
      (by decide) (by decide) (by decide) (by decide) ⟨[104, 101], by decide⟩).1,
    (block_roundtrip refHost ['2'] 2 [104, 101, 108, 108, 111] ⟨by decide, by decide⟩
      (by decide) (by decide) (by decide) (by decide) ⟨[104, 101], by decide⟩).2.1⟩⟩

/-- C13 as stated fails when the string is longer than the block: `pack("c1", "ab")`
succeeds with the one byte "a", and unpacking it returns "a", not "ab". It also fails for
a numeral that does not fit a `size_t`: with 18446744073709551616, which is `2 ^ 64`,
`getnum` wraps to 0, pack emits "ab" and unpack of "ab" fails for want of a previous
size. -/
theorem block_roundtrip_counterexample :
    (b_pack refHost "c1".toList [.str [97, 98]] = .ok [97] ∧
      b_unpack refHost "c1".toList [97] 1 = .ok [.str [97], .number 2] ∧
      b_unpack refHost "c1".toList [97] 1 ≠ .ok [.str [97, 98], .number 2]) ∧
    (b_pack refHost "c18446744073709551616".toList [.str [97, 98]] = .ok [97, 98] ∧
      b_unpack refHost "c18446744073709551616".toList [97, 98] 1 =
        .error .needsPreviousSize) := by
  decide

/-- C14 (amended): unknown directive. For every character `c` other than NUL outside the
set `>`, `<`, `!`, `x`, `b`, `B`, `h`, `H`, `l`, `L`, `i`, `I`, `c`, `s`, `f`, `d`, space,
and every format that begins with `c`, pack (with any values) and unpack (with any data
and position) fail with "invalid format option"; an error produces no output. -/
theorem unknown_directive (H : Host) (c : Char) (fmt : List Char) (args : List LuaValue)
    (data : List Nat) (init : Int)
    (hc : c ∉ ['>', '<', '!', 'x', 'b', 'B', 'h', 'H', 'l', 'L', 'i', 'I', 'c', 's', 'f', 'd',
      ' ']) (hn : c ≠ NUL) :
    b_pack H (c :: fmt) args = .error .invalidFormat ∧
    b_unpack H (c :: fmt) data init = .error .invalidFormat :=
  ⟨b_pack_loop_unknown H fmt.length c fmt _ _ _ _ hc hn,
   b_unpack_loop_unknown H fmt.length c fmt _ _ _ _ hc hn⟩

/-- C14 (amended) on the formats `zb` and `?` . -/
theorem unknown_directive_witness :
    (b_pack refHost "zb".toList [.number 1] = .error .invalidFormat ∧
      b_unpack refHost "zb".toList [1] 1 = .error .invalidFormat) ∧
    (b_pack refHost "?".toList [] = .error .invalidFormat ∧
      b_unpack refHost "?".toList [] 0 = .error .invalidFormat) :=
  ⟨unknown_directive refHost 'z' ['b'] [.number 1] [1] 1 (by decide) (by decide),
   unknown_directive refHost '?' [] [] [] 0 (by decide) (by decide)⟩

/-- C14 as stated fails at the NUL character: it is outside the set, yet a format that
begins with it is, as a C string, the empty format, and pack and unpack succeed. -/
theorem unknown_directive_counterexample :
    NUL ∉ ['>', '<', '!', 'x', 'b', 'B', 'h', 'H', 'l', 'L', 'i', 'I', 'c', 's', 'f', 'd', ' '] ∧
    b_pack refHost (NUL :: "b".toList) [.number 1] = .ok [] ∧
    b_unpack refHost (NUL :: "b".toList) [1] 1 = .ok [.number 1] := by
  decide

/-- C15 (amended): integer truncation on pack. For an integer directive `opt` followed by
`num` that `optsize` gives width `w` in {1, 2, 4, 8} and every integer `v` whose
`lua_Number` `d` (the `double` nearest to `v`, which is `v` itself when the magnitude of
`v` is at most `2 ^ 53`) satisfies `-2 ^ 63 <= d < 2 ^ 64`, the bytes emitted are the
`w`-byte representation of `d mod 2 ^ (8 w)` (the two's complement of a negative `d`):
least-significant byte first under `<`, most-significant byte first under `>`. The
representation `le_bytes w u` has `w` bytes, byte `i` being `u / 256 ^ i mod 256`, and its
little-endian value is `u`. -/
theorem pack_truncation (H : Host) (opt : Char) (num : List Char) (w : Nat) (v : Int)
    (hi : is_integer_opt opt = true) (hs : optsize opt num = .ok (w, []))
    (hw : w = 1 ∨ w = 2 ∨ w = 4 ∨ w = 8) (h1 : -(2 ^ 63) ≤ to_double v)
    (h2 : to_double v < 2 ^ 64) :
    b_pack H ('<' :: opt :: num) [.number v] =
      .ok (le_bytes w (to_double v % 2 ^ (8 * w)).toNat) ∧
    b_pack H ('>' :: opt :: num) [.number v] =
      .ok (le_bytes w (to_double v % 2 ^ (8 * w)).toNat).reverse ∧
    (le_bytes w (to_double v % 2 ^ (8 * w)).toNat).length = w ∧
    (le_value (le_bytes w (to_double v % 2 ^ (8 * w)).toNat) : Int) =
      to_double v % 2 ^ (8 * w) ∧
    (v.natAbs ≤ 2 ^ 53 → to_double v = v) := by
  refine ⟨?_, ?_, le_bytes_length _ _, ?_, to_double_exact v⟩
  · rw [b_pack_little_int H opt num w _ hi hs, putinteger_truncates H v [] LITTLE w hw h1 h2]
    rfl
  · rw [b_pack_big_int H opt num w _ hi hs, putinteger_truncates H v [] BIG w hw h1 h2]
    rfl
  · rw [le_bytes_value]
    rcases hw with h | h | h | h <;> subst h <;> norm_num <;> omega

/-- C15 on -2 packed as a 2-byte short and on 258 packed as a byte. -/
theorem pack_truncation_witness :
    (b_pack refHost "<h".toList [.number (-2)] = .ok [254, 255] ∧
      b_pack refHost ">h".toList [.number (-2)] = .ok [255, 254]) ∧
    (b_pack refHost "<B".toList [.number 258] = .ok [2] ∧
      b_pack refHost ">B".toList [.number 258] = .ok [2]) :=
  ⟨⟨(pack_truncation refHost 'h' [] 2 (-2) (by decide) (by decide) (by decide) (by decide)
      (by decide)).1,
    (pack_truncation refHost 'h' [] 2 (-2) (by decide) (by decide) (by decide) (by decide)
      (by decide)).2.1⟩,
   ⟨(pack_truncation refHost 'B' [] 1 258 (by decide) (by decide) (by decide) (by decide)
      (by decide)).1,
    (pack_truncation refHost 'B' [] 1 258 (by decide) (by decide) (by decide) (by decide)
      (by decide)).2.1⟩⟩

/-- C15 as stated fails for an integer that is no `double`: `2 ^ 53 + 1` lies between
`-2 ^ 63` and `2 ^ 64` and its 8-byte representation starts with the byte 1, yet
`luaL_checknumber` hands on the `lua_Number` `2 ^ 53`, and `pack("<l", ...)` and
`pack("<B", ...)` emit the bytes of that. -/
theorem pack_truncation_counterexample :
    le_bytes 8 ((9007199254740993 : Int) % 2 ^ (8 * 8)).toNat = [1, 0, 0, 0, 0, 0, 32, 0] ∧
    b_pack refHost "<l".toList [.number 9007199254740993] = .ok [0, 0, 0, 0, 0, 0, 32, 0] ∧
    le_bytes 1 ((9007199254740993 : Int) % 2 ^ (8 * 1)).toNat = [1] ∧
    b_pack refHost "<B".toList [.number 9007199254740993] = .ok [0] := by
  decide


/-- C16 (amended): whitespace is a no-op. For all formats `f1` and `f2` where `f2` does not
begin with a decimal digit, and all values, `pack(f1 ++ " " ++ f2, values)` has the same
result (bytes or error) as `pack(f1 ++ f2, values)`; and for all data and start positions,
`unpack(f1 ++ " " ++ f2, data, pos)` has the same result as `unpack(f1 ++ f2, data, pos)`
provided `f1` is not empty or the scan starts inside the data (the cursor `pos - 1`, as a
`size_t`, is at most the length of the data). -/
theorem whitespace_noop (H : Host) (f1 f2 : List Char) (args : List LuaValue)
    (data : List Nat) (init : Int)
    (hf2 : ∀ d rest, f2 = d :: rest → d.isDigit = false)
    (hin : f1 ≠ [] ∨ ((init - 1) % 2 ^ 64).toNat ≤ data.length) :
    b_pack H (f1 ++ " ".toList ++ f2) args = b_pack H (f1 ++ f2) args ∧
    b_unpack H (f1 ++ " ".toList ++ f2) data init = b_unpack H (f1 ++ f2) data init := by
  have e : f1 ++ " ".toList ++ f2 = f1 ++ ' ' :: f2 := by
    rw [List.append_assoc]
    rfl
  rw [e]
  exact ⟨b_pack_space H f1 f2 args hf2, b_unpack_space H f1 f2 data init hf2 hin⟩

/-- C16 at "b" and "h" on a little-endian host: "b h" packs and unpacks as "bh" does; and
at an empty `f1` with the start position 1 inside the data. -/
theorem whitespace_noop_witness :
    (b_pack refHost ("b".toList ++ " ".toList ++ "h".toList) [.number 1, .number 2] =
        b_pack refHost ("b".toList ++ "h".toList) [.number 1, .number 2] ∧
      b_unpack refHost ("b".toList ++ " ".toList ++ "h".toList) [1, 2, 0] 1 =
        b_unpack refHost ("b".toList ++ "h".toList) [1, 2, 0] 1) ∧
    (b_pack refHost ([] ++ " ".toList ++ "h".toList) [.number 2] =
        b_pack refHost ([] ++ "h".toList) [.number 2] ∧
      b_unpack refHost ([] ++ " ".toList ++ "h".toList) [2, 0] 1 =
        b_unpack refHost ([] ++ "h".toList) [2, 0] 1) :=
  ⟨whitespace_noop refHost "b".toList "h".toList [.number 1, .number 2] [1, 2, 0] 1
      (fun d rest h => by cases h; decide) (Or.inl (by decide)),
    whitespace_noop refHost [] "h".toList [.number 2] [2, 0] 1
      (fun d rest h => by cases h; decide) (Or.inr (by decide))⟩

/-- C16 as stated fails for unpack: with the empty data and start position 5 the format
" " (empty `f1` and `f2`) is rejected, because the bounds check is made at the space,
while the empty format returns the next position 5. -/
theorem whitespace_noop_counterexample :
    b_unpack refHost ([] ++ " ".toList ++ []) [] 5 = .error .dataTooShort ∧
    b_unpack refHost ([] ++ []) [] 5 = .ok [.number 5] := by
  decide


/-- C17 (amended): byte order is threaded through the scan and default padding is absent.
For all formats `f1` and `f2` that contain no `!`, with `f1` free of the NUL character
(which ends a format) and `f2` beginning with `<` or `>`, and all value lists `v1` and `v2`
such that `pack(f1, v1)` succeeds consuming exactly the values of `v1` and `pack(f2, v2)`
succeeds, `pack(f1 ++ f2, v1 ++ v2)` is `pack(f1, v1)` followed by `pack(f2, v2)`; in
particular `pack("<H>H", 1, 1)` is the four bytes 1, 0, 0, 1. -/
theorem pack_concat (H : Host) (f1 f2 r : List Char) (v1 v2 : List LuaValue)
    (o1 o2 : List Nat) (hb1 : '!' ∉ f1) (hb2 : '!' ∉ f2) (hnul : NUL ∉ f1)
    (hr : f2 = '<' :: r ∨ f2 = '>' :: r)
    (h1 : b_pack_scan H f1.length f1 (defaultoptions H) 0 [] v1 = .ok (o1, []))
    (h2 : b_pack H f2 v2 = .ok o2) :
    b_pack H f1 v1 = .ok o1 ∧ b_pack H (f1 ++ f2) (v1 ++ v2) = .ok (o1 ++ o2) ∧
      b_pack H "<H>H".toList [.number 1, .number 1] = .ok [1, 0, 0, 1] := by
  refine ⟨?_, ?_, ?_⟩
  · unfold b_pack
    rw [b_pack_scan_erase, h1]
    rfl
  · exact b_pack_concat H f1 f2 r v1 v2 o1 o2
      (fun c hc => ⟨fun e => hnul (e ▸ hc), fun e => hb1 (e ▸ hc)⟩)
      (fun c hc e => hb2 (e ▸ hc)) hr h1 h2
  · exact b_pack_concat H "<H".toList ">H".toList "H".toList [.number 1] [.number 1] [1, 0]
      [0, 1] (by decide) (by decide) (Or.inr rfl) (b_pack_scan_little_short_one H)
      (b_pack_big_short_one H)

/-- C17 at "b" followed by ">h" on a little-endian host: the values 1 and 2 pack to the
byte 1 followed by the bytes 0, 2. -/
theorem pack_concat_witness :
    b_pack refHost "b".toList [.number 1] = .ok [1] ∧
      b_pack refHost ("b".toList ++ ">h".toList) ([.number 1] ++ [.number 2]) =
        .ok ([1] ++ [0, 2]) ∧
      b_pack refHost "<H>H".toList [.number 1, .number 1] = .ok [1, 0, 0, 1] :=
  pack_concat refHost "b".toList ">h".toList "h".toList [.number 1] [.number 2] [1] [0, 2]
    (by decide) (by decide) (by decide) (Or.inr rfl) (by decide) (by decide)

/-- C17 as stated fails when `f1` holds a NUL: with `f1` the one character NUL, which
packs no value into no byte, and `f2` the format "<b" with the value 1, which packs into
the byte 1, the format `f1 ++ f2` ends at its first character and packs into no byte. -/
theorem pack_concat_counterexample :
    '!' ∉ [NUL] ∧ '!' ∉ "<b".toList ∧
    b_pack_scan refHost [NUL].length [NUL] (defaultoptions refHost) 0 [] [] = .ok ([], []) ∧
    b_pack refHost [NUL] [] = .ok [] ∧
    b_pack refHost "<b".toList [.number 1] = .ok [1] ∧
    b_pack refHost ([NUL] ++ "<b".toList) ([] ++ [.number 1]) = .ok [] := by
  decide


/-- C18: `correctbytes` leaves a byte run of length `n` unchanged when the selected order
is the native one and replaces it by its exact reverse otherwise, for every `n`, so that
applying it twice gives the run back; and for every number `x` both `pack("<f", x)` and
`pack(">f", x)` succeed and the bytes of the second are the reverse of those of the first,
and likewise for `d`, whatever bit pattern the host gives the number. -/
theorem float_byte_reversal (H : Host) (b : List Nat) (e : Nat) (x : Int) :
    correctbytes H b b.length e = (if e = native_endian H then b else b.reverse) ∧
    correctbytes H (correctbytes H b b.length e) b.length e = b ∧
    (∃ bs, b_pack H "<f".toList [.number x] = .ok bs ∧
      b_pack H ">f".toList [.number x] = .ok bs.reverse) ∧
    (∃ bs, b_pack H "<d".toList [.number x] = .ok bs ∧
      b_pack H ">d".toList [.number x] = .ok bs.reverse) :=
  ⟨correctbytes_spec H b e, correctbytes_twice H b e,
    b_pack_real_reverse H 'f' (Or.inl rfl) x, b_pack_real_reverse H 'd' (Or.inr rfl) x⟩


/-- C19 (code defect): the start position is not a pure offset for the format "c0", which
holds no `!`. With data "1" and start position 1 the call returns the next position 2,
because `lua_isnumber(L, -1)` takes the data argument itself as the previous number; with
the one-byte prefix "x" before the same data and start position 2 the data argument "x1"
does not read as a number and the call fails with "format c0 needs a previous size". -/
theorem unpack_offset_c0_data_as_length :
    b_unpack refHost "c0".toList [49] 1 = .ok [.number 2] ∧
    b_unpack refHost "c0".toList ([120] ++ [49]) (([120] : List Nat).length + 1 : Nat) =
      .error .needsPreviousSize := by
  decide

end Struct
